import Mathlib

/-!
# Verification of the quadtree core (`src/Quadtree/quadtree/quad.py`)

This file is a shallow embedding, in Lean 4, of the quadtree implementation in
`quad.py`, together with proofs and refutations of the specification claims.

Modelling conventions:

* Coordinates, radii, and region bounds are integers (`Int`).  Python's floor
  division `//` is embedded as `Int.fdiv`.
* A Python "circle" is a tuple indexed by `X=0`, `Y=1`, `RADIUS=2`, `MULTIPLE=4`;
  we embed it as a structure with fields `x`, `y`, `r`, `multiple`.  Index 3 of
  the tuple is never read or written by `quad.py`, so it is omitted.  Python's
  `==` on these tuples is structural equality, embedded as `DecidableEq Circle`.
* `QuadNode.children` is `[None]*4` until `subdivide` assigns all four slots at
  once, and no other code writes to `children`; the code tests leafness with
  `self.children[NE] == None`.  We therefore embed a node as either a `leaf`
  (all children absent) or a `node` with exactly four children.
* `QuadNode.add` is an unbounded `while` loop and `subdivide` re-enters `add`
  on freshly created children.  On well-formed (square, non-degenerate) regions
  this recursion terminates, but nothing in the code bounds it for arbitrary
  region inputs, so the faithful embedding `addF`/`subdivideF` takes a fuel
  parameter; `none` means the fuel was exhausted.  Fuel `2*(width+height)+2`
  is proved sufficient for regions with non-negative extents
  (`addF_sufficient`), and `addP` packages that bound as a total function.
* `QuadTree.remove` is a `while` loop whose body is a pure function of the
  current node: when the navigation stops at a node (0 or ≥2 intersecting
  quadrants) whose local list has no exact match, the loop repeats the same
  iteration forever; when it reaches a leaf, `quadrants` dereferences
  `children[NE].region` on `None` and raises `AttributeError`.  The embedding
  `removeGo` is structurally recursive on the actual tree and reports these two
  non-returning outcomes as `RemRes.attrError` and `RemRes.loopForever`.
* `collide` and `preorder` are Python generators; their lazily produced finite
  sequences are embedded as the lists they yield, in yield order.
-/

set_option maxHeartbeats 1000000

namespace Quad

/-- Modelled from the spec: the `Region` class of `adk/region.py` (imported by
`quad.py` but not part of the sources), "four scalar bounds
(x_min, x_max, y_min, y_max)" with closed-min/open-max interval semantics.
Constructor argument order `Region(x_min, y_min, x_max, y_max)` follows the
call sites in `quad.py` (`QuadNode.subdivide`). -/
structure Region where
  x_min : Int
  y_min : Int
  x_max : Int
  y_max : Int
deriving DecidableEq, Repr

/-- A circle `(X, Y, RADIUS, _, MULTIPLE)`; tuple index 3 is unused by the
quadtree code and omitted. -/
structure Circle where
  x : Int
  y : Int
  r : Int
  multiple : Bool
deriving DecidableEq, Repr

/-- The geometric content of a circle: the fields the spatial predicates read
(`MULTIPLE` is ignored by all geometry). -/
def Circle.geom (c : Circle) : Int × Int × Int := (c.x, c.y, c.r)

/-- `smaller2k` from `quad.py`: the power of 2 below `n`, negatives mirrored.
`math.floor(math.log2 n)` and `math.ceil(math.log2 n)` are modelled by the
exact integer logarithms `Nat.log 2` and `Nat.clog 2`. -/
def smaller2k (n : Int) : Int :=
  if n = 0 then 0
  else if n < 0 then -(2 ^ Nat.clog 2 (-n).toNat)
  else 2 ^ Nat.log 2 n.toNat

/-- `larger2k` from `quad.py`: the power of 2 above `n`, negatives mirrored. -/
def larger2k (n : Int) : Int :=
  if n = 0 then 0
  else if n < 0 then -(2 ^ Nat.log 2 (-n).toNat)
  else 2 ^ Nat.clog 2 n.toNat

/-- `completelyContains(region, circle)` exactly as written in `quad.py`
(note: the first comparison in the source reads `region.x_max`). -/
def completelyContains (region : Region) (circle : Circle) : Bool :=
  if circle.x - circle.r < region.x_max then false
  else if region.x_max ≤ circle.x + circle.r then false
  else if circle.y - circle.r < region.y_min then false
  else if region.y_max ≤ circle.y + circle.r then false
  else true

/-- `intersectsCircle(region, circle)` from `quad.py`: rectangle–circle
overlap, with Python `//`, `abs` and comparisons over integers. -/
def intersectsCircle (region : Region) (circle : Circle) : Bool :=
  let rectOriginX := (region.x_min + region.x_max).fdiv 2
  let rectOriginY := (region.y_min + region.y_max).fdiv 2
  let halfSizeX := (region.x_max - region.x_min).fdiv 2
  let halfSizeY := (region.y_max - region.y_min).fdiv 2
  let distCenterX := |circle.x - rectOriginX|
  let distCenterY := |circle.y - rectOriginY|
  if circle.r + halfSizeX < distCenterX ∨ circle.r + halfSizeY < distCenterY then
    false
  else if distCenterX ≤ halfSizeX ∨ distCenterY ≤ halfSizeY then
    true
  else
    (distCenterX - halfSizeX) ^ 2 + (distCenterY - halfSizeY) ^ 2 ≤ circle.r ^ 2

/-- `defaultCollision(c1, c2)` from `quad.py`. -/
def defaultCollision (c1 c2 : Circle) : Bool :=
  (c1.x - c2.x) ^ 2 + (c1.y - c2.y) ^ 2 ≤ (c1.r + c2.r) ^ 2

/-- A quadtree node: `leaf` is a node whose `children` list is `[None]*4`,
`node` one whose four children were assigned by `subdivide` (which always
creates all four, in the order NE, NW, SW, SE). -/
inductive QuadNode : Type where
  | leaf (region : Region) (circles : List Circle)
  | node (region : Region) (circles : List Circle)
      (ne nw sw se : QuadNode)
deriving DecidableEq, Repr

namespace QuadNode

def region : QuadNode → Region
  | leaf r _ => r
  | node r _ _ _ _ _ => r

def circles : QuadNode → List Circle
  | leaf _ cs => cs
  | node _ cs _ _ _ _ => cs

end QuadNode

/-- The cached `self.origin` of a node, computed by `QuadNode.__init__` from
its region. -/
def Region.originX (r : Region) : Int := r.x_min + (r.x_max - r.x_min).fdiv 2

def Region.originY (r : Region) : Int := r.y_min + (r.y_max - r.y_min).fdiv 2

/-- Child regions created by `subdivide`, in `quad.py` order. -/
def Region.neRegion (r : Region) : Region :=
  ⟨r.originX, r.originY, r.x_max, r.y_max⟩

def Region.nwRegion (r : Region) : Region :=
  ⟨r.x_min, r.originY, r.originX, r.y_max⟩

def Region.swRegion (r : Region) : Region :=
  ⟨r.x_min, r.y_min, r.originX, r.originY⟩

def Region.seRegion (r : Region) : Region :=
  ⟨r.originX, r.y_min, r.x_max, r.originY⟩

/-- The quadrant indices (NE=0, NW=1, SW=2, SE=3) whose regions intersect the
circle, in append order. -/
def quadrantsR (rne rnw rsw rse : Region) (c : Circle) : List Nat :=
  (if intersectsCircle rne c then [0] else []) ++
  (if intersectsCircle rnw c then [1] else []) ++
  (if intersectsCircle rsw c then [2] else []) ++
  (if intersectsCircle rse c then [3] else [])

/-- `QuadNode.quadrants(circle)`: reads each child only through
`self.children[i].region`. -/
def quadrantsOf (ne nw sw se : QuadNode) (c : Circle) : List Nat :=
  quadrantsR ne.region nw.region sw.region se.region c

/-- The redistribution loop of `subdivide`, parameterized by the child `add`
operation (`adder`): `kept` accumulates the circles that intersect zero or
several quadrants (marked `MULTIPLE = True`); a circle intersecting exactly
one quadrant is pushed into that child via `add` with `MULTIPLE = False`. -/
def subdivideGo (adder : QuadNode → Circle → Option (QuadNode × Bool))
    (r : Region) (ne nw sw se : QuadNode) (kept : List Circle) :
    List Circle → Option QuadNode
  | [] => some (.node r kept ne nw sw se)
  | c :: rest =>
    match quadrantsOf ne nw sw se c with
    | [0] => match adder ne { c with multiple := false } with
      | some (ne', _) => subdivideGo adder r ne' nw sw se kept rest
      | none => none
    | [1] => match adder nw { c with multiple := false } with
      | some (nw', _) => subdivideGo adder r ne nw' sw se kept rest
      | none => none
    | [2] => match adder sw { c with multiple := false } with
      | some (sw', _) => subdivideGo adder r ne nw sw' se kept rest
      | none => none
    | [3] => match adder se { c with multiple := false } with
      | some (se', _) => subdivideGo adder r ne nw sw se' kept rest
      | none => none
    | _ => subdivideGo adder r ne nw sw se (kept ++ [{ c with multiple := true }]) rest

/-- `QuadNode.add(circle)`: the iterative descent of `quad.py`, with `fuel`
bounding the number of loop iterations / `subdivide` re-entries (the Python
loop is unbounded; `none` = fuel exhausted before the code returned).  The
`4 < length` test on a leaf and the quadrant dispatch on an internal node are
exactly the two branches of the loop body; `subdivide` creates the four
children NE, NW, SW, SE and redistributes via `subdivideGo`.  (In `quad.py`
the `MULTIPLE` flag of a pushed circle is set right after the child `add`
stores the same object; since `add` never reads the flag, storing the
already-updated circle is observationally identical.) -/
def addF : Nat → QuadNode → Circle → Option (QuadNode × Bool)
  | 0, _, _ => none
  | fuel + 1, n, c =>
    if intersectsCircle n.region c then
      match n with
      | .leaf r cs =>
        let cs' := cs ++ [c]
        if 4 < cs'.length then
          (subdivideGo (addF fuel) r
            (.leaf r.neRegion []) (.leaf r.nwRegion []) (.leaf r.swRegion [])
            (.leaf r.seRegion []) [] cs').map (fun n' => (n', true))
        else
          some (.leaf r cs', true)
      | .node r cs ne nw sw se =>
        match quadrantsOf ne nw sw se c with
        | [0] => (addF fuel ne c).map (fun p => (.node r cs p.1 nw sw se, p.2))
        | [1] => (addF fuel nw c).map (fun p => (.node r cs ne p.1 sw se, p.2))
        | [2] => (addF fuel sw c).map (fun p => (.node r cs ne nw p.1 se, p.2))
        | [3] => (addF fuel se c).map (fun p => (.node r cs ne nw sw p.1, p.2))
        | _ => some (.node r (cs ++ [c]) ne nw sw se, true)
    else
      some (n, false)

/-- `QuadNode.subdivide()` applied to a leaf with region `r` and local list
`cs`, with child `add`s running at the given fuel. -/
def subdivideF (fuel : Nat) (r : Region) (cs : List Circle) : Option QuadNode :=
  subdivideGo (addF fuel) r
    (.leaf r.neRegion []) (.leaf r.nwRegion []) (.leaf r.swRegion [])
    (.leaf r.seRegion []) [] cs

/-- `QuadNode.collide(circle)`: the list of circles the generator yields, in
yield order.  The loop `for q in self.quadrants(circle)` visits, among the
children NE, NW, SW, SE in that order, exactly those whose region intersects
the query (see `collide_eq_quadrants_bind`). -/
def collideList (coll : Circle → Circle → Bool) : QuadNode → Circle → List Circle
  | .leaf r cs, c =>
    if intersectsCircle r c then cs.filter (fun s => coll s c) else []
  | .node r cs ne nw sw se, c =>
    if intersectsCircle r c then
      cs.filter (fun s => coll s c) ++
      (if intersectsCircle ne.region c then collideList coll ne c else []) ++
      (if intersectsCircle nw.region c then collideList coll nw c else []) ++
      (if intersectsCircle sw.region c then collideList coll sw c else []) ++
      (if intersectsCircle se.region c then collideList coll se c else [])
    else []

/-- `QuadNode.preorder()`: the nodes the generator yields, in yield order
(self first, then children NE, NW, SW, SE; a leaf has no present children). -/
def preorderList : QuadNode → List QuadNode
  | .leaf r cs => [.leaf r cs]
  | .node r cs ne nw sw se =>
    .node r cs ne nw sw se ::
      (preorderList ne ++ preorderList nw ++ preorderList sw ++ preorderList se)

/-- All circles stored in the subtree, locals first, children in NE, NW, SW,
SE order. -/
def allC : QuadNode → List Circle
  | .leaf _ cs => cs
  | .node _ cs ne nw sw se => cs ++ (allC ne ++ allC nw ++ allC sw ++ allC se)

/-- Outcomes of `QuadTree.remove`: `ret b x` models `return b` with updated
state `x`; `attrError` models the `AttributeError` raised by
`quadrants` dereferencing `children[NE].region` on a leaf; `loopForever`
models the `while` loop repeating an unchanged iteration forever (its body is
a pure function of the unchanged current node once no match is deleted and no
single-quadrant descent is possible). -/
inductive RemRes (α : Type) : Type where
  | ret (b : Bool) (x : α)
  | attrError
  | loopForever
deriving DecidableEq, Repr

/-- The body of `QuadTree.remove`'s navigation loop, as structural recursion
over the nodes the loop visits. -/
def removeGo : QuadNode → Circle → RemRes QuadNode
  | .leaf _ _, _ => .attrError
  | .node r cs ne nw sw se, c =>
    match quadrantsOf ne nw sw se c with
    | [0] => match removeGo ne c with
      | .ret b ne' => .ret b (.node r cs ne' nw sw se)
      | .attrError => .attrError
      | .loopForever => .loopForever
    | [1] => match removeGo nw c with
      | .ret b nw' => .ret b (.node r cs ne nw' sw se)
      | .attrError => .attrError
      | .loopForever => .loopForever
    | [2] => match removeGo sw c with
      | .ret b sw' => .ret b (.node r cs ne nw sw' se)
      | .attrError => .attrError
      | .loopForever => .loopForever
    | [3] => match removeGo se c with
      | .ret b se' => .ret b (.node r cs ne nw sw se')
      | .attrError => .attrError
      | .loopForever => .loopForever
    | _ =>
      match cs.findIdx? (fun s => s = c) with
      | some i => .ret true (.node r (cs.eraseIdx i) ne nw sw se)
      | none => .loopForever

/-- `QuadTree`: the canonical region and the lazily created root. -/
structure QuadTree where
  region : Region
  root : Option QuadNode
deriving DecidableEq, Repr

/-- `QuadTree.__init__(region)`: normalize to the square power-of-two
canonical region; the root is not created yet. -/
def QuadTree.init (region : Region) : QuadTree :=
  let xmin2k := smaller2k region.x_min
  let ymin2k := smaller2k region.y_min
  let xmax2k := larger2k region.x_max
  let ymax2k := larger2k region.y_max
  { region := ⟨min xmin2k ymin2k, min xmin2k ymin2k, max xmax2k ymax2k, max xmax2k ymax2k⟩
    root := none }

/-- `QuadTree.add(circle)`: create the root lazily (returning `True`
unconditionally on that first call, as the code does), else delegate. -/
def treeAddF (t : QuadTree) (c : Circle) (fuel : Nat) : Option (QuadTree × Bool) :=
  match t.root with
  | none =>
    (addF fuel (.leaf t.region []) c).map fun p => ({ t with root := some p.1 }, true)
  | some rt =>
    (addF fuel rt c).map fun p => ({ t with root := some p.1 }, p.2)

/-- `QuadTree.collide(circle)` with the default process-wide collision
strategy `QuadTree.collision = defaultCollision`. -/
def treeCollide (t : QuadTree) (c : Circle) : List Circle :=
  match t.root with
  | none => []
  | some rt => collideList defaultCollision rt c

/-- `QuadTree.remove(circle)`: `while node:` over the navigation path; with no
root the loop body never runs and the function returns `False`. -/
def treeRemove (t : QuadTree) (c : Circle) : RemRes QuadTree :=
  match t.root with
  | none => .ret false t
  | some rt =>
    match removeGo rt c with
    | .ret b rt' => .ret b { t with root := some rt' }
    | .attrError => .attrError
    | .loopForever => .loopForever

/-- `QuadTree.__iter__`: preorder of the root, or nothing. -/
def treeIterate (t : QuadTree) : List QuadNode :=
  match t.root with
  | none => []
  | some rt => preorderList rt

/-- Repeated insertion (each `add` run with the given fuel), used to build
states and to state insertion-order claims. -/
def treeAddAllF (t : QuadTree) (fuel : Nat) : List Circle → Option QuadTree
  | [] => some t
  | c :: cs =>
    match treeAddF t c fuel with
    | some (t', _) => treeAddAllF t' fuel cs
    | none => none

/-- A bound's value is an exact signed power of two or zero. -/
def IsPow2OrZero (v : Int) : Prop :=
  v = 0 ∨ (∃ k : Nat, v = 2 ^ k) ∨ (∃ k : Nat, v = -(2 ^ k))

/-! ### Concrete states used by the evaluation theorems

`canonicalR` is the canonical region the constructor produces from the input
region `(0, 0, 100, 100)` (per `smaller2k 0 = 0` and `larger2k 100 = 128`).
`egTreeInternal` is the tree obtained by inserting five identical circles at
the centre `(64, 64)` of that region: the fifth insertion subdivides the
root, every circle straddles all four quadrants, so all five stay at the
(now internal) root with their `MULTIPLE` flag set. -/

def canonicalR : Region := ⟨0, 0, 128, 128⟩

def egCircle1 : Circle := ⟨10, 10, 2, false⟩

def egCircle2 : Circle := ⟨50, 50, 1, false⟩

def egOutside : Circle := ⟨1000, 1000, 1, false⟩

def egC64 : Circle := ⟨64, 64, 2, false⟩

def egTreeEmpty : QuadTree := ⟨canonicalR, none⟩

def egLeafRoot : QuadNode := .leaf canonicalR [egCircle1]

def egTreeLeaf : QuadTree := ⟨canonicalR, some egLeafRoot⟩

def egRoot5 : QuadNode :=
  .node canonicalR
    [⟨64, 64, 2, true⟩, ⟨64, 64, 2, true⟩, ⟨64, 64, 2, true⟩,
     ⟨64, 64, 2, true⟩, ⟨64, 64, 2, true⟩]
    (.leaf ⟨64, 64, 128, 128⟩ []) (.leaf ⟨0, 64, 64, 128⟩ [])
    (.leaf ⟨0, 0, 64, 64⟩ []) (.leaf ⟨64, 0, 128, 64⟩ [])

def egTreeInternal : QuadTree := ⟨canonicalR, some egRoot5⟩

def egTreeLeaf2 : QuadTree := ⟨canonicalR, some (.leaf canonicalR [egCircle1, egCircle2])⟩

/-- The spatial invariant of claim C8, as a decidable recursive predicate: at
every node of the tree, every circle stored anywhere in that node's subtree
intersects the node's region.  Unfolding the recursion along the path from
the root to the node storing a circle, this says exactly that each stored
circle intersects the region of its storing node and of every ancestor. -/
def InvN : QuadNode → Bool
  | .leaf r cs => cs.all fun c => intersectsCircle r c
  | .node r cs ne nw sw se =>
    ((allC (.node r cs ne nw sw se)).all fun c => intersectsCircle r c) &&
      InvN ne && InvN nw && InvN sw && InvN se

/-- The invariant at tree level (trivial before the root exists). -/
def InvT (t : QuadTree) : Bool :=
  match t.root with
  | none => true
  | some rt => InvN rt

/-- Tree states reachable through the public interface: construction from an
input region, successful (fuel-sufficient) `add` calls, and `remove` calls
that return (rather than raising or looping). -/
inductive Reachable : QuadTree → Prop where
  | init (r : Region) : Reachable (QuadTree.init r)
  | add (t : QuadTree) (c : Circle) (fuel : Nat) (t' : QuadTree) (b : Bool) :
      Reachable t → treeAddF t c fuel = some (t', b) → Reachable t'
  | remove (t : QuadTree) (c : Circle) (t' : QuadTree) (b : Bool) :
      Reachable t → treeRemove t c = .ret b t' → Reachable t'

/-- Four circles, three of which sit strictly inside one quadrant each of
`canonicalR` and one (radius 10 at the centre) straddling all four. -/
def eg4cs : List Circle :=
  [⟨10, 10, 2, false⟩, ⟨100, 100, 3, false⟩, ⟨30, 90, 1, false⟩, ⟨64, 64, 10, false⟩]

def eg5c : Circle := ⟨90, 30, 1, false⟩

/-- The node produced by adding `eg5c` to a leaf holding `eg4cs`: one
subdivision, four singleton-quadrant circles pushed down, the straddler kept
and flagged. -/
def egSubdivided : QuadNode :=
  .node canonicalR [⟨64, 64, 10, true⟩]
    (.leaf ⟨64, 64, 128, 128⟩ [⟨100, 100, 3, false⟩])
    (.leaf ⟨0, 64, 64, 128⟩ [⟨30, 90, 1, false⟩])
    (.leaf ⟨0, 0, 64, 64⟩ [⟨10, 10, 2, false⟩])
    (.leaf ⟨64, 0, 128, 64⟩ [⟨90, 30, 1, false⟩])

/-! ### Termination measure, well-formedness, and the totalized operations

The `add` loop terminates on every region with non-negative extents: a
descent or redistribution push only happens when the circle intersects
exactly one quadrant, which (for non-negative extents) forces both extents
to be at least 2, and then every quarter region strictly decreases the
measure `μR` (the sum of the extents).  `addF_suff` below proves that fuel
`2 * μR + 1` always suffices, and `addP` packages the fueled `add` with that
bound as a total function; on well-formed trees it computes exactly what the
Python loop computes. -/

/-- Termination measure: total extent of a region. -/
def μR (r : Region) : Nat := (r.x_max - r.x_min).toNat + (r.y_max - r.y_min).toNat

def μN (n : QuadNode) : Nat := μR n.region

/-- A region with non-negative extents. -/
def properR (r : Region) : Bool := (r.x_min ≤ r.x_max) && (r.y_min ≤ r.y_max)

/-- Structural well-formedness of a subtree: regions have non-negative
extents and each internal node's children carry exactly the four quarter
regions `subdivide` creates.  Every reachable tree built over a proper
canonical region satisfies this. -/
def ProperN : QuadNode → Bool
  | .leaf r _ => properR r
  | .node r _ ne nw sw se =>
    properR r && decide (ne.region = r.neRegion) && decide (nw.region = r.nwRegion) &&
      decide (sw.region = r.swRegion) && decide (se.region = r.seRegion) &&
      ProperN ne && ProperN nw && ProperN sw && ProperN se

/-- `QuadNode.add` as a total function on proper nodes: the fueled descent
run with the provably sufficient fuel `2 * μN + 1` (the fallback is never
reached on proper nodes, by `addF_suff`). -/
def addP (n : QuadNode) (c : Circle) : QuadNode × Bool :=
  (addF (2 * μN n + 1) n c).getD (n, false)

/-- `subdivide`'s redistribution fold with the total `addP` as child `add`
(pointwise equal to `subdivideGo (addF fuel)` on proper states, by
`subdivideGo_eq_subAddP`). -/
def subAddP (r : Region) :
    QuadNode → QuadNode → QuadNode → QuadNode → List Circle → List Circle → QuadNode
  | ne, nw, sw, se, kept, [] => .node r kept ne nw sw se
  | ne, nw, sw, se, kept, c :: rest =>
    match quadrantsOf ne nw sw se c with
    | [0] => subAddP r (addP ne { c with multiple := false }).1 nw sw se kept rest
    | [1] => subAddP r ne (addP nw { c with multiple := false }).1 sw se kept rest
    | [2] => subAddP r ne nw (addP sw { c with multiple := false }).1 se kept rest
    | [3] => subAddP r ne nw sw (addP se { c with multiple := false }).1 kept rest
    | _ => subAddP r ne nw sw se (kept ++ [{ c with multiple := true }]) rest

/-- `QuadTree.add` via the total `addP`. -/
def treeAddP (t : QuadTree) (c : Circle) : QuadTree × Bool :=
  match t.root with
  | none => ({ t with root := some (addP (.leaf t.region []) c).1 }, true)
  | some rt =>
    let p := addP rt c
    ({ t with root := some p.1 }, p.2)

/-- Insert a list of circles left to right. -/
def treeAddAllP (t : QuadTree) (cs : List Circle) : QuadTree :=
  cs.foldl (fun t c => (treeAddP t c).1) t

/-- Node-level repeated insertion with the total `addP`. -/
def addAllP (n : QuadNode) (cs : List Circle) : QuadNode :=
  cs.foldl (fun n c => (addP n c).1) n

/-- Tree-level well-formedness: proper canonical region, and a proper root
carrying the canonical region when present. -/
def ProperT (t : QuadTree) : Bool :=
  properR t.region &&
    match t.root with
    | none => true
    | some rt => ProperN rt && decide (rt.region = t.region)

/-- Observational equivalence of nodes: same region, same tree shape with
equivalent children, and the same multiset of stored circle geometries at
each node (list order and `MULTIPLE` flags may differ). -/
def Equiv : QuadNode → QuadNode → Prop
  | .leaf r cs, .leaf r' cs' =>
    r = r' ∧ (cs.map Circle.geom).Perm (cs'.map Circle.geom)
  | .node r cs ne nw sw se, .node r' cs' ne' nw' sw' se' =>
    r = r' ∧ (cs.map Circle.geom).Perm (cs'.map Circle.geom) ∧
      Equiv ne ne' ∧ Equiv nw nw' ∧ Equiv sw sw' ∧ Equiv se se'
  | _, _ => False

/-- Observational equivalence of trees. -/
def EquivT (t t' : QuadTree) : Prop :=
  t.region = t'.region ∧
    match t.root, t'.root with
    | none, none => True
    | some a, some b => Equiv a b
    | _, _ => False

end Quad

namespace Quad

/-! ## Theorems -/

/-! ### Basic facts about the geometric predicates and the operations -/

@[simp] lemma QuadNode.region_leaf (r : Region) (cs : List Circle) :
    (QuadNode.leaf r cs).region = r := rfl

@[simp] lemma QuadNode.region_node (r : Region) (cs : List Circle)
    (ne nw sw se : QuadNode) : (QuadNode.node r cs ne nw sw se).region = r := rfl

@[simp] lemma QuadNode.circles_leaf (r : Region) (cs : List Circle) :
    (QuadNode.leaf r cs).circles = cs := rfl

@[simp] lemma QuadNode.circles_node (r : Region) (cs : List Circle)
    (ne nw sw se : QuadNode) : (QuadNode.node r cs ne nw sw se).circles = cs := rfl

/-- The geometry predicates never read the `MULTIPLE` flag. -/
@[simp] lemma intersectsCircle_flag (r : Region) (c : Circle) (m : Bool) :
    intersectsCircle r { c with multiple := m } = intersectsCircle r c := rfl

@[simp] lemma defaultCollision_flag_left (c d : Circle) (m : Bool) :
    defaultCollision { c with multiple := m } d = defaultCollision c d := rfl

@[simp] lemma defaultCollision_flag_right (c d : Circle) (m : Bool) :
    defaultCollision d { c with multiple := m } = defaultCollision d c := rfl

/-- A circle always collides with any circle of the same geometry (in
particular with itself) under the default strategy. -/
lemma defaultCollision_geom_self {c q : Circle} (h : c.geom = q.geom) :
    defaultCollision c q = true := by
  cases c; cases q
  simp only [Circle.geom, Prod.mk.injEq] at h
  obtain ⟨h1, h2, h3⟩ := h
  subst h1; subst h2; subst h3
  simp only [defaultCollision, sub_self, decide_eq_true_eq]
  have : (0 : Int) ≤ 2 := by norm_num
  positivity

lemma quadrantsR_singleton {rne rnw rsw rse : Region} {c : Circle} {q : Nat}
    (h : quadrantsR rne rnw rsw rse c = [q]) :
    (q = 0 ∧ intersectsCircle rne c = true) ∨
    (q = 1 ∧ intersectsCircle rnw c = true) ∨
    (q = 2 ∧ intersectsCircle rsw c = true) ∨
    (q = 3 ∧ intersectsCircle rse c = true) := by
  unfold quadrantsR at h
  cases h1 : intersectsCircle rne c <;> cases h2 : intersectsCircle rnw c <;>
    cases h3 : intersectsCircle rsw c <;> cases h4 : intersectsCircle rse c <;>
    simp [h1, h2, h3, h4] at h <;> simp_all

/-- The redistribution fold always produces a `node` with the parent's
region. -/
lemma subdivideGo_shape (adder : QuadNode → Circle → Option (QuadNode × Bool)) :
    ∀ (cs : List Circle) (r : Region) (ne nw sw se : QuadNode)
      (kept : List Circle) (nd : QuadNode),
      subdivideGo adder r ne nw sw se kept cs = some nd →
      ∃ kept' ne' nw' sw' se', nd = .node r kept' ne' nw' sw' se'
  | [], r, ne, nw, sw, se, kept, nd => by
    intro h
    simp only [subdivideGo] at h
    exact ⟨kept, ne, nw, sw, se, (Option.some.injEq _ _ ▸ h.symm) ▸ rfl⟩
  | c :: rest, r, ne, nw, sw, se, kept, nd => by
    intro h
    simp only [subdivideGo] at h
    split at h
    · split at h
      · exact subdivideGo_shape adder rest r _ _ _ _ _ _ h
      · exact absurd h (by simp)
    · split at h
      · exact subdivideGo_shape adder rest r _ _ _ _ _ _ h
      · exact absurd h (by simp)
    · split at h
      · exact subdivideGo_shape adder rest r _ _ _ _ _ _ h
      · exact absurd h (by simp)
    · split at h
      · exact subdivideGo_shape adder rest r _ _ _ _ _ _ h
      · exact absurd h (by simp)
    · exact subdivideGo_shape adder rest r _ _ _ _ _ _ h

lemma quadrantsR_length_one {rne rnw rsw rse : Region} {c : Circle}
    (h : (quadrantsR rne rnw rsw rse c).length = 1) :
    quadrantsR rne rnw rsw rse c = [0] ∨ quadrantsR rne rnw rsw rse c = [1] ∨
    quadrantsR rne rnw rsw rse c = [2] ∨ quadrantsR rne rnw rsw rse c = [3] := by
  unfold quadrantsR at h ⊢
  cases h1 : intersectsCircle rne c <;> cases h2 : intersectsCircle rnw c <;>
    cases h3 : intersectsCircle rsw c <;> cases h4 : intersectsCircle rse c <;>
    simp_all

/-- The circles kept at the parent by the redistribution fold: exactly those
of the input list that do not intersect exactly one quadrant, appended in
order and marked `MULTIPLE = True`.  Requires that the `adder` preserve
regions (as `add` does), so that the quadrant tests keep reading the
original quarter regions. -/
lemma subdivideGo_circles (adder : QuadNode → Circle → Option (QuadNode × Bool))
    (hadd : ∀ m c m' b, adder m c = some (m', b) → m'.region = m.region)
    (rne rnw rsw rse : Region) :
    ∀ (cs : List Circle) (r : Region) (ne nw sw se : QuadNode)
      (kept : List Circle) (nd : QuadNode),
      ne.region = rne → nw.region = rnw → sw.region = rsw → se.region = rse →
      subdivideGo adder r ne nw sw se kept cs = some nd →
      nd.circles = kept ++
        (cs.filter fun x => (quadrantsR rne rnw rsw rse x).length ≠ 1).map
          (fun x => { x with multiple := true })
  | [], r, ne, nw, sw, se, kept, nd => by
    intro _ _ _ _ h
    simp only [subdivideGo] at h
    obtain rfl := (Option.some.injEq _ _ ▸ h).symm
    simp [QuadNode.circles]
  | c :: rest, r, ne, nw, sw, se, kept, nd => by
    intro h1 h2 h3 h4 h
    have hq : quadrantsOf ne nw sw se c = quadrantsR rne rnw rsw rse c := by
      simp [quadrantsOf, h1, h2, h3, h4]
    simp only [subdivideGo] at h
    rw [hq] at h
    split at h <;> rename_i heq
    · rw [List.filter_cons_of_neg (by simp [heq])]
      split at h
      · rename_i p hp
        exact subdivideGo_circles adder hadd rne rnw rsw rse rest r _ _ _ _ _ _
          ((hadd _ _ _ _ hp).trans h1) h2 h3 h4 h
      · exact absurd h (by simp)
    · rw [List.filter_cons_of_neg (by simp [heq])]
      split at h
      · rename_i p hp
        exact subdivideGo_circles adder hadd rne rnw rsw rse rest r _ _ _ _ _ _
          h1 ((hadd _ _ _ _ hp).trans h2) h3 h4 h
      · exact absurd h (by simp)
    · rw [List.filter_cons_of_neg (by simp [heq])]
      split at h
      · rename_i p hp
        exact subdivideGo_circles adder hadd rne rnw rsw rse rest r _ _ _ _ _ _
          h1 h2 ((hadd _ _ _ _ hp).trans h3) h4 h
      · exact absurd h (by simp)
    · rw [List.filter_cons_of_neg (by simp [heq])]
      split at h
      · rename_i p hp
        exact subdivideGo_circles adder hadd rne rnw rsw rse rest r _ _ _ _ _ _
          h1 h2 h3 ((hadd _ _ _ _ hp).trans h4) h
      · exact absurd h (by simp)
    · rename_i hne0 hne1 hne2 hne3
      have hlen : (quadrantsR rne rnw rsw rse c).length ≠ 1 := by
        intro hl
        rcases quadrantsR_length_one hl with h0 | h0 | h0 | h0 <;> simp_all
      rw [List.filter_cons_of_pos (by simpa using hlen)]
      rw [subdivideGo_circles adder hadd rne rnw rsw rse rest r _ _ _ _ _ _
        h1 h2 h3 h4 h]
      simp

/-- `add` never changes the region of the node it is called on. -/
lemma addF_region :
    ∀ (fuel : Nat) (n : QuadNode) (c : Circle) (n' : QuadNode) (b : Bool),
      addF fuel n c = some (n', b) → n'.region = n.region := by
  intro fuel
  induction fuel with
  | zero => intro n c n' b h; simp [addF] at h
  | succ f ih =>
    intro n c n' b h
    cases n with
    | leaf r cs =>
      simp only [addF] at h
      split at h
      · split at h
        · rcases Option.map_eq_some'.mp h with ⟨nd, hnd, hpair⟩
          obtain ⟨kept', a, b', d, e, rfl⟩ :=
            subdivideGo_shape (addF f) _ _ _ _ _ _ _ _ hnd
          obtain ⟨rfl, rfl⟩ := Prod.mk.injEq .. ▸ hpair
          rfl
        · obtain ⟨rfl, rfl⟩ := Prod.mk.injEq .. ▸ (Option.some.injEq _ _ ▸ h)
          rfl
      · obtain ⟨rfl, rfl⟩ := Prod.mk.injEq .. ▸ (Option.some.injEq _ _ ▸ h)
        rfl
    | node r cs ne nw sw se =>
      simp only [addF] at h
      split at h
      · split at h <;>
          first
          | (rcases Option.map_eq_some'.mp h with ⟨p, hp, hpair⟩
             obtain ⟨rfl, rfl⟩ := Prod.mk.injEq .. ▸ hpair
             rfl)
          | (obtain ⟨rfl, rfl⟩ := Prod.mk.injEq .. ▸ (Option.some.injEq _ _ ▸ h)
             rfl)
      · obtain ⟨rfl, rfl⟩ := Prod.mk.injEq .. ▸ (Option.some.injEq _ _ ▸ h)
        rfl

lemma isPow2OrZero_smaller2k (n : Int) : IsPow2OrZero (smaller2k n) := by
  unfold smaller2k IsPow2OrZero
  split
  · exact Or.inl rfl
  · split
    · exact Or.inr (Or.inr ⟨_, rfl⟩)
    · exact Or.inr (Or.inl ⟨_, rfl⟩)

lemma isPow2OrZero_larger2k (n : Int) : IsPow2OrZero (larger2k n) := by
  unfold larger2k IsPow2OrZero
  split
  · exact Or.inl rfl
  · split
    · exact Or.inr (Or.inr ⟨_, rfl⟩)
    · exact Or.inr (Or.inl ⟨_, rfl⟩)

lemma isPow2OrZero_min {a b : Int} (ha : IsPow2OrZero a) (hb : IsPow2OrZero b) :
    IsPow2OrZero (min a b) := by
  rcases min_choice a b with h | h <;> rw [h] <;> assumption

lemma isPow2OrZero_max {a b : Int} (ha : IsPow2OrZero a) (hb : IsPow2OrZero b) :
    IsPow2OrZero (max a b) := by
  rcases max_choice a b with h | h <;> rw [h] <;> assumption

/-- C6: for every input region, the canonical region produced by the tree
constructor is square (`x_min = y_min`, `x_max = y_max`, hence equal width
and height), its min bound is `min (smaller2k x_min) (smaller2k y_min)`, its
max bound is `max (larger2k x_max) (larger2k y_max)`, and both bounds are
exact signed powers of two or zero. -/
theorem init_region_square_pow2 (region : Region) :
    (QuadTree.init region).region.x_min = (QuadTree.init region).region.y_min ∧
    (QuadTree.init region).region.x_max = (QuadTree.init region).region.y_max ∧
    (QuadTree.init region).region.x_min =
      min (smaller2k region.x_min) (smaller2k region.y_min) ∧
    (QuadTree.init region).region.x_max =
      max (larger2k region.x_max) (larger2k region.y_max) ∧
    IsPow2OrZero (QuadTree.init region).region.x_min ∧
    IsPow2OrZero (QuadTree.init region).region.x_max :=
  ⟨rfl, rfl, rfl, rfl,
    isPow2OrZero_min (isPow2OrZero_smaller2k _) (isPow2OrZero_smaller2k _),
    isPow2OrZero_max (isPow2OrZero_larger2k _) (isPow2OrZero_larger2k _)⟩

/-- C3: on region `[0,8) × [0,8)` and the circle at `(4,4)` with radius 1 the
claimed containment conditions all hold (`0 ≤ 4-1`, `4+1 < 8`, both axes),
yet `completelyContains` returns `False`: its first comparison tests the
circle's left bounding edge against `region.x_max` instead of
`region.x_min`, so it rejects every circle the claim declares contained. -/
theorem completelyContains_always_false_on_contained :
    ((0 : Int) ≤ 4 - 1 ∧ (4 : Int) + 1 < 8) ∧
    completelyContains ⟨0, 0, 8, 8⟩ ⟨4, 4, 1, false⟩ = false := by decide

/-- C1: on a freshly constructed tree (no root) over the canonical region
`[0,128)²`, adding a circle whose bounding box does not intersect the region
returns `True` and creates the root node, contradicting the claimed
`False`-without-mutation outcome: `QuadTree.add` returns `True`
unconditionally on the root-creating call, discarding `QuadNode.add`'s
`False`. -/
theorem treeAdd_first_call_ignores_rejection :
    intersectsCircle egTreeEmpty.region egOutside = false ∧
    egTreeEmpty.root = none ∧
    treeAddF egTreeEmpty egOutside 20 =
      some (⟨canonicalR, some (.leaf canonicalR [])⟩, true) := by decide

/-- C2: after a single insertion the root is a leaf; removing a circle that
was never inserted then raises `AttributeError` instead of returning `False`:
`QuadTree.remove` calls `node.quadrants(circle)`, which dereferences
`self.children[NE].region` while all children are `None`. -/
theorem treeRemove_on_leaf_root_raises :
    treeAddF egTreeEmpty egCircle1 20 = some (egTreeLeaf, true) ∧
    egCircle2 ∉ allC egLeafRoot ∧
    treeRemove egTreeLeaf egCircle2 = .attrError := by decide

/-- C5: on the reachable tree obtained by inserting five identical circles at
the centre (root subdivided, all five kept at the root), removing a circle
with no exact match loops forever: the navigation loop's body is a pure
function of the current node, and when 0 or ≥2 quadrants intersect and no
local circle matches, the loop repeats the identical iteration without
terminating, so `remove` does not exit with a boolean. -/
theorem treeRemove_no_match_never_returns :
    treeAddAllF egTreeEmpty 20 [egC64, egC64, egC64, egC64, egC64] =
      some egTreeInternal ∧
    (⟨64, 64, 3, false⟩ : Circle) ∉ allC egRoot5 ∧
    treeRemove egTreeInternal ⟨64, 64, 3, false⟩ = .loopForever := by decide

lemma collideList_sublist_allC (coll : Circle → Circle → Bool) :
    ∀ (n : QuadNode) (c : Circle), (collideList coll n c).Sublist (allC n)
  | .leaf r cs, c => by
    simp only [collideList, allC]
    split
    · exact List.filter_sublist cs
    · exact List.nil_sublist _
  | .node r cs ne nw sw se, c => by
    have hne : (if intersectsCircle ne.region c then collideList coll ne c
        else []).Sublist (allC ne) := by
      split
      · exact collideList_sublist_allC coll ne c
      · exact List.nil_sublist _
    have hnw : (if intersectsCircle nw.region c then collideList coll nw c
        else []).Sublist (allC nw) := by
      split
      · exact collideList_sublist_allC coll nw c
      · exact List.nil_sublist _
    have hsw : (if intersectsCircle sw.region c then collideList coll sw c
        else []).Sublist (allC sw) := by
      split
      · exact collideList_sublist_allC coll sw c
      · exact List.nil_sublist _
    have hse : (if intersectsCircle se.region c then collideList coll se c
        else []).Sublist (allC se) := by
      split
      · exact collideList_sublist_allC coll se c
      · exact List.nil_sublist _
    simp only [collideList, allC]
    split
    · simp only [List.append_assoc]
      exact (List.filter_sublist cs).append (hne.append (hnw.append (hsw.append hse)))
    · exact List.nil_sublist _

/-- C7: adding a circle to a leaf node returns `True`; if the leaf held fewer
than 4 circles the node stays a leaf with the circle appended (no children
are ever created below the threshold); if it held exactly 4 (so the appended
list has 5), exactly that one subdivision is triggered: the result is an
internal node with all four children present, its local list is exactly the
appended list minus the circles that intersect exactly one quadrant (each
kept circle marked `MULTIPLE`), so the local count plus the pushed-down count
is 5. -/
theorem add_leaf_subdivision_threshold (fuel : Nat) (r : Region)
    (cs : List Circle) (c : Circle) (n' : QuadNode) (b : Bool)
    (h : addF fuel (.leaf r cs) c = some (n', b))
    (hi : intersectsCircle r c = true) :
    b = true ∧
    (cs.length < 4 → n' = .leaf r (cs ++ [c])) ∧
    (cs.length = 4 →
      (∃ kept ne nw sw se, n' = .node r kept ne nw sw se) ∧
      n'.circles = ((cs ++ [c]).filter fun x =>
          (quadrantsR r.neRegion r.nwRegion r.swRegion r.seRegion x).length ≠ 1).map
          (fun x => { x with multiple := true }) ∧
      n'.circles.length + (cs ++ [c]).countP (fun x =>
          (quadrantsR r.neRegion r.nwRegion r.swRegion r.seRegion x).length = 1) = 5) := by
  cases fuel with
  | zero => simp [addF] at h
  | succ f =>
    simp only [addF, QuadNode.region, hi, if_true] at h
    split at h
    · rename_i h4
      rcases Option.map_eq_some'.mp h with ⟨nd, hnd, hp⟩
      obtain ⟨rfl, rfl⟩ := Prod.mk.injEq .. ▸ hp
      have hcirc := subdivideGo_circles (addF f) (addF_region f) _ _ _ _ _ r _ _ _ _ _ _
        rfl rfl rfl rfl hnd
      refine ⟨rfl, ?_, ?_⟩
      · intro hlt
        simp only [List.length_append, List.length_cons, List.length_nil] at h4
        omega
      · intro h4'
        obtain ⟨kept', a, b', d, e, rfl⟩ := subdivideGo_shape (addF f) _ _ _ _ _ _ _ _ hnd
        refine ⟨⟨kept', a, b', d, e, rfl⟩, by simpa using hcirc, ?_⟩
        rw [show (QuadNode.node r kept' a b' d e).circles = kept' from rfl]
        have hk : kept' = ((cs ++ [c]).filter fun x =>
            (quadrantsR r.neRegion r.nwRegion r.swRegion r.seRegion x).length ≠ 1).map
            (fun x => { x with multiple := true }) := by simpa using hcirc
        have hlen5 : (cs ++ [c]).length = 5 := by
          simp [List.length_append, h4']
        rw [hk, List.length_map, ← List.countP_eq_length_filter]
        rw [← hlen5]
        have := List.length_eq_countP_add_countP
          (p := fun x =>
            decide ((quadrantsR r.neRegion r.nwRegion r.swRegion r.seRegion x).length = 1))
          (l := cs ++ [c])
        rw [Nat.add_comm] at this
        rw [this]
        congr 1
        refine List.countP_congr ?_
        intro x _
        simp
    · rename_i h4
      obtain ⟨rfl, rfl⟩ := Prod.mk.injEq .. ▸ (Option.some.injEq _ _ ▸ h)
      refine ⟨rfl, fun _ => rfl, fun h4' => ?_⟩
      simp only [List.length_append, List.length_cons, List.length_nil] at h4
      omega

/-- The query circle's `MULTIPLE` flag is irrelevant to `collide` (all
geometry is flag-blind). -/
lemma collideList_query_flag (c : Circle) (m : Bool) :
    ∀ n : QuadNode,
      collideList defaultCollision n { c with multiple := m } =
        collideList defaultCollision n c
  | .leaf r cs => rfl
  | .node r cs ne nw sw se => by
    simp only [collideList, collideList_query_flag c m ne, collideList_query_flag c m nw,
      collideList_query_flag c m sw, collideList_query_flag c m se,
      intersectsCircle_flag, defaultCollision_flag_right]

/-- After the redistribution fold processes its final circle `c` (which
intersects the parent region), `collide c` on the produced node yields a
circle with `c`'s geometry.  `ih` is the corresponding property of the child
`add` at the fold's fuel. -/
lemma subdivideGo_collide_last (f : Nat)
    (ih : ∀ (n : QuadNode) (c : Circle) (n' : QuadNode) (b : Bool),
      addF f n c = some (n', b) → intersectsCircle n.region c = true →
      ∃ m, { c with multiple := m } ∈ collideList defaultCollision n' c) :
    ∀ (u : List Circle) (r : Region) (ne nw sw se : QuadNode) (kept : List Circle)
      (c : Circle) (nd : QuadNode),
      subdivideGo (addF f) r ne nw sw se kept (u ++ [c]) = some nd →
      intersectsCircle r c = true →
      ∃ m, { c with multiple := m } ∈ collideList defaultCollision nd c
  | [], r, ne, nw, sw, se, kept, c, nd => by
    intro h hr
    simp only [List.nil_append, subdivideGo] at h
    split at h <;> rename_i heq
    · rcases quadrantsR_singleton heq with ⟨_, hq⟩ | ⟨h0, _⟩ | ⟨h0, _⟩ | ⟨h0, _⟩ <;>
        try omega
      split at h <;> rename_i hp
      · rename_i ne' b2
        obtain ⟨m, hm⟩ := ih ne _ ne' b2 hp hq
        rw [collideList_query_flag] at hm
        obtain rfl := (Option.some.injEq _ _ ▸ h).symm
        refine ⟨m, ?_⟩
        have hr' : intersectsCircle ne'.region c = true := by
          rw [addF_region f ne _ ne' b2 hp]; exact hq
        simp only [collideList, hr, if_true, hr', List.mem_append]
        tauto
      · exact absurd h (by simp)
    · rcases quadrantsR_singleton heq with ⟨h0, _⟩ | ⟨_, hq⟩ | ⟨h0, _⟩ | ⟨h0, _⟩ <;>
        try omega
      split at h <;> rename_i hp
      · rename_i nw' b2
        obtain ⟨m, hm⟩ := ih nw _ nw' b2 hp hq
        rw [collideList_query_flag] at hm
        obtain rfl := (Option.some.injEq _ _ ▸ h).symm
        refine ⟨m, ?_⟩
        have hr' : intersectsCircle nw'.region c = true := by
          rw [addF_region f nw _ nw' b2 hp]; exact hq
        simp only [collideList, hr, if_true, hr', List.mem_append]
        tauto
      · exact absurd h (by simp)
    · rcases quadrantsR_singleton heq with ⟨h0, _⟩ | ⟨h0, _⟩ | ⟨_, hq⟩ | ⟨h0, _⟩ <;>
        try omega
      split at h <;> rename_i hp
      · rename_i sw' b2
        obtain ⟨m, hm⟩ := ih sw _ sw' b2 hp hq
        rw [collideList_query_flag] at hm
        obtain rfl := (Option.some.injEq _ _ ▸ h).symm
        refine ⟨m, ?_⟩
        have hr' : intersectsCircle sw'.region c = true := by
          rw [addF_region f sw _ sw' b2 hp]; exact hq
        simp only [collideList, hr, if_true, hr', List.mem_append]
        tauto
      · exact absurd h (by simp)
    · rcases quadrantsR_singleton heq with ⟨h0, _⟩ | ⟨h0, _⟩ | ⟨h0, _⟩ | ⟨_, hq⟩ <;>
        try omega
      split at h <;> rename_i hp
      · rename_i se' b2
        obtain ⟨m, hm⟩ := ih se _ se' b2 hp hq
        rw [collideList_query_flag] at hm
        obtain rfl := (Option.some.injEq _ _ ▸ h).symm
        refine ⟨m, ?_⟩
        have hr' : intersectsCircle se'.region c = true := by
          rw [addF_region f se _ se' b2 hp]; exact hq
        simp only [collideList, hr, if_true, hr', List.mem_append]
        tauto
      · exact absurd h (by simp)
    · obtain rfl := (Option.some.injEq _ _ ▸ h).symm
      refine ⟨true, ?_⟩
      simp only [collideList, hr, if_true, List.mem_append]
      left; left; left; left
      rw [List.mem_filter]
      refine ⟨List.mem_append_right _ (List.mem_singleton_self _), ?_⟩
      exact defaultCollision_geom_self rfl
  | x :: u, r, ne, nw, sw, se, kept, c, nd => by
    intro h hr
    rw [List.cons_append] at h
    simp only [subdivideGo] at h
    split at h
    · split at h
      · exact subdivideGo_collide_last f ih u r _ _ _ _ _ c nd h hr
      · exact absurd h (by simp)
    · split at h
      · exact subdivideGo_collide_last f ih u r _ _ _ _ _ c nd h hr
      · exact absurd h (by simp)
    · split at h
      · exact subdivideGo_collide_last f ih u r _ _ _ _ _ c nd h hr
      · exact absurd h (by simp)
    · split at h
      · exact subdivideGo_collide_last f ih u r _ _ _ _ _ c nd h hr
      · exact absurd h (by simp)
    · exact subdivideGo_collide_last f ih u r _ _ _ _ _ c nd h hr

/-- After a successful `add` of a circle intersecting the node's region,
`collide` with that circle yields a circle of its geometry (the stored copy,
whose `MULTIPLE` flag subdivision may have rewritten). -/
lemma addF_collide_self :
    ∀ (fuel : Nat) (n : QuadNode) (c : Circle) (n' : QuadNode) (b : Bool),
      addF fuel n c = some (n', b) →
      intersectsCircle n.region c = true →
      ∃ m, { c with multiple := m } ∈ collideList defaultCollision n' c := by
  intro fuel
  induction fuel with
  | zero => intro n c n' b h; simp [addF] at h
  | succ f ih =>
    intro n c n' b h hi
    cases n with
    | leaf r cs =>
      have hi' : intersectsCircle r c = true := hi
      simp only [addF, QuadNode.region, hi', if_true] at h
      split at h
      · rcases Option.map_eq_some'.mp h with ⟨nd, hnd, hp⟩
        obtain ⟨rfl, rfl⟩ := Prod.mk.injEq .. ▸ hp
        exact subdivideGo_collide_last f ih cs r _ _ _ _ _ c _ hnd hi'
      · obtain ⟨rfl, rfl⟩ := Prod.mk.injEq .. ▸ (Option.some.injEq _ _ ▸ h)
        refine ⟨c.multiple, ?_⟩
        simp only [collideList, hi', if_true]
        rw [List.mem_filter]
        exact ⟨List.mem_append_right _ (List.mem_singleton_self _),
          defaultCollision_geom_self rfl⟩
    | node r cs ne nw sw se =>
      have hi' : intersectsCircle r c = true := hi
      simp only [addF, QuadNode.region, hi', if_true] at h
      split at h <;> rename_i heq
      · rcases quadrantsR_singleton heq with ⟨_, hq⟩ | ⟨h0, _⟩ | ⟨h0, _⟩ | ⟨h0, _⟩ <;>
          try omega
        rcases Option.map_eq_some'.mp h with ⟨p, hp, hpair⟩
        obtain ⟨rfl, rfl⟩ := Prod.mk.injEq .. ▸ hpair
        obtain ⟨m, hm⟩ := ih ne c p.1 p.2 hp hq
        refine ⟨m, ?_⟩
        have hr' : intersectsCircle p.1.region c = true := by
          rw [addF_region f ne c p.1 p.2 hp]
          exact hq
        simp only [collideList, hi', if_true, hr', List.mem_append]
        tauto
      · rcases quadrantsR_singleton heq with ⟨h0, _⟩ | ⟨_, hq⟩ | ⟨h0, _⟩ | ⟨h0, _⟩ <;>
          try omega
        rcases Option.map_eq_some'.mp h with ⟨p, hp, hpair⟩
        obtain ⟨rfl, rfl⟩ := Prod.mk.injEq .. ▸ hpair
        obtain ⟨m, hm⟩ := ih nw c p.1 p.2 hp hq
        refine ⟨m, ?_⟩
        have hr' : intersectsCircle p.1.region c = true := by
          rw [addF_region f nw c p.1 p.2 hp]
          exact hq
        simp only [collideList, hi', if_true, hr', List.mem_append]
        tauto
      · rcases quadrantsR_singleton heq with ⟨h0, _⟩ | ⟨h0, _⟩ | ⟨_, hq⟩ | ⟨h0, _⟩ <;>
          try omega
        rcases Option.map_eq_some'.mp h with ⟨p, hp, hpair⟩
        obtain ⟨rfl, rfl⟩ := Prod.mk.injEq .. ▸ hpair
        obtain ⟨m, hm⟩ := ih sw c p.1 p.2 hp hq
        refine ⟨m, ?_⟩
        have hr' : intersectsCircle p.1.region c = true := by
          rw [addF_region f sw c p.1 p.2 hp]
          exact hq
        simp only [collideList, hi', if_true, hr', List.mem_append]
        tauto
      · rcases quadrantsR_singleton heq with ⟨h0, _⟩ | ⟨h0, _⟩ | ⟨h0, _⟩ | ⟨_, hq⟩ <;>
          try omega
        rcases Option.map_eq_some'.mp h with ⟨p, hp, hpair⟩
        obtain ⟨rfl, rfl⟩ := Prod.mk.injEq .. ▸ hpair
        obtain ⟨m, hm⟩ := ih se c p.1 p.2 hp hq
        refine ⟨m, ?_⟩
        have hr' : intersectsCircle p.1.region c = true := by
          rw [addF_region f se c p.1 p.2 hp]
          exact hq
        simp only [collideList, hi', if_true, hr', List.mem_append]
        tauto
      · obtain ⟨rfl, rfl⟩ := Prod.mk.injEq .. ▸ (Option.some.injEq _ _ ▸ h)
        refine ⟨c.multiple, ?_⟩
        simp only [collideList, hi', if_true, List.mem_append]
        left; left; left; left
        rw [List.mem_filter]
        exact ⟨List.mem_append_right _ (List.mem_singleton_self _),
          defaultCollision_geom_self rfl⟩

/-- C4: on any tree state whose root (if present) carries the canonical
region, successfully adding a circle that geometrically intersects the
canonical region and then querying `collide` with that same circle under the
default strategy yields a circle with its geometry (the inserted one; its
`MULTIPLE` flag may have been rewritten by subdivision, and Python yields the
very same mutated object). -/
theorem add_then_collide_contains (t : QuadTree) (c : Circle) (fuel : Nat)
    (t' : QuadTree) (b : Bool)
    (hroot : ∀ rt, t.root = some rt → rt.region = t.region)
    (h : treeAddF t c fuel = some (t', b))
    (hi : intersectsCircle t.region c = true) :
    ∃ m, { c with multiple := m } ∈ treeCollide t' c := by
  unfold treeAddF at h
  cases hr : t.root with
  | none =>
    rw [hr] at h
    rcases Option.map_eq_some'.mp h with ⟨p, hp, hpair⟩
    obtain ⟨rfl, rfl⟩ := Prod.mk.injEq .. ▸ hpair
    obtain ⟨m, hm⟩ := addF_collide_self fuel _ c p.1 p.2
      (by rw [← hp]) (by simpa using hi)
    exact ⟨m, by simpa [treeCollide] using hm⟩
  | some rt =>
    rw [hr] at h
    rcases Option.map_eq_some'.mp h with ⟨p, hp, hpair⟩
    obtain ⟨rfl, rfl⟩ := Prod.mk.injEq .. ▸ hpair
    obtain ⟨m, hm⟩ := addF_collide_self fuel rt c p.1 p.2
      (by rw [← hp]) (by rw [hroot rt hr]; exact hi)
    exact ⟨m, by simpa [treeCollide] using hm⟩

/-- Witness for C7: a concrete leaf at the threshold; one subdivision, the
straddling circle kept and flagged, the four singleton-quadrant circles
pushed down (1 + 4 = 5). -/
theorem add_leaf_subdivision_threshold_witness :
    (addF 20 (.leaf canonicalR eg4cs) eg5c = some (egSubdivided, true) ∧
     intersectsCircle canonicalR eg5c = true ∧ eg4cs.length = 4) ∧
    ((∃ kept ne nw sw se, egSubdivided = .node canonicalR kept ne nw sw se) ∧
      egSubdivided.circles = ((eg4cs ++ [eg5c]).filter fun x =>
          (quadrantsR canonicalR.neRegion canonicalR.nwRegion canonicalR.swRegion
            canonicalR.seRegion x).length ≠ 1).map (fun x => { x with multiple := true }) ∧
      egSubdivided.circles.length + (eg4cs ++ [eg5c]).countP (fun x =>
          (quadrantsR canonicalR.neRegion canonicalR.nwRegion canonicalR.swRegion
            canonicalR.seRegion x).length = 1) = 5) :=
  ⟨⟨by decide, by decide, by decide⟩,
   (add_leaf_subdivision_threshold 20 canonicalR eg4cs eg5c egSubdivided true
      (by decide) (by decide)).2.2 (by decide)⟩

/-- Witness for C4: adding a second circle to the single-leaf tree, then
colliding with it, yields it back. -/
theorem add_then_collide_contains_witness :
    ((∀ rt, egTreeLeaf.root = some rt → rt.region = egTreeLeaf.region) ∧
     treeAddF egTreeLeaf egCircle2 20 = some (egTreeLeaf2, true) ∧
     intersectsCircle egTreeLeaf.region egCircle2 = true) ∧
    (∃ m, { egCircle2 with multiple := m } ∈ treeCollide egTreeLeaf2 egCircle2) :=
  ⟨⟨fun rt h => by injection h with h2; rw [← h2]; rfl, by decide, by decide⟩,
   add_then_collide_contains egTreeLeaf egCircle2 20 egTreeLeaf2 true
     (fun rt h => by injection h with h2; rw [← h2]; rfl) (by decide) (by decide)⟩

lemma invN_leaf_iff {r : Region} {cs : List Circle} :
    InvN (.leaf r cs) = true ↔ ∀ x ∈ cs, intersectsCircle r x = true := by
  simp [InvN, List.all_eq_true]

lemma invN_node_iff {r : Region} {cs : List Circle} {ne nw sw se : QuadNode} :
    InvN (.node r cs ne nw sw se) = true ↔
      (∀ x ∈ cs, intersectsCircle r x = true) ∧
      (∀ x ∈ allC ne, intersectsCircle r x = true) ∧
      (∀ x ∈ allC nw, intersectsCircle r x = true) ∧
      (∀ x ∈ allC sw, intersectsCircle r x = true) ∧
      (∀ x ∈ allC se, intersectsCircle r x = true) ∧
      InvN ne = true ∧ InvN nw = true ∧ InvN sw = true ∧ InvN se = true := by
  simp only [InvN, allC, Bool.and_eq_true, List.all_append, List.all_eq_true]
  tauto

lemma intersectsCircle_of_flag {r : Region} {x y : Circle} {m : Bool}
    (hx : x = { y with multiple := m }) (hy : intersectsCircle r y = true) :
    intersectsCircle r x = true := by
  subst hx
  simpa using hy

/-- Every circle in the subtree after a fold step comes, up to a `MULTIPLE`
rewrite, from a child subtree, from `kept`, or from the input list. -/
lemma subdivideGo_allC (f : Nat)
    (ih : ∀ (n : QuadNode) (c : Circle) (n' : QuadNode) (b : Bool),
      addF f n c = some (n', b) →
      ∀ x ∈ allC n', ∃ y, (y ∈ allC n ∨ y = c) ∧ ∃ m, x = { y with multiple := m }) :
    ∀ (u : List Circle) (r : Region) (ne nw sw se : QuadNode) (kept : List Circle)
      (nd : QuadNode),
      subdivideGo (addF f) r ne nw sw se kept u = some nd →
      ∀ x ∈ allC nd,
        ∃ y, (y ∈ allC ne ∨ y ∈ allC nw ∨ y ∈ allC sw ∨ y ∈ allC se ∨
              y ∈ kept ∨ y ∈ u) ∧
          ∃ m, x = { y with multiple := m }
  | [], r, ne, nw, sw, se, kept, nd => by
    intro h x hx
    simp only [subdivideGo] at h
    obtain rfl := (Option.some.injEq _ _ ▸ h).symm
    simp only [allC, List.mem_append] at hx
    exact ⟨x, by tauto, x.multiple, rfl⟩
  | c :: rest, r, ne, nw, sw, se, kept, nd => by
    intro h x hx
    simp only [subdivideGo] at h
    split at h
    · split at h <;> rename_i hp
      · rename_i ne' b2
        obtain ⟨y, hy, m, rfl⟩ := subdivideGo_allC f ih rest r _ _ _ _ _ _ h x hx
        rcases hy with hy | hy | hy | hy | hy | hy
        · obtain ⟨z, hz, m2, rfl⟩ := ih ne _ ne' b2 hp y hy
          rcases hz with hz | rfl
          · exact ⟨z, by tauto, m, rfl⟩
          · exact ⟨c, by simp, m, rfl⟩
        all_goals exact ⟨y, by simp_all, m, rfl⟩
      · exact absurd h (by simp)
    · split at h <;> rename_i hp
      · rename_i nw' b2
        obtain ⟨y, hy, m, rfl⟩ := subdivideGo_allC f ih rest r _ _ _ _ _ _ h x hx
        rcases hy with hy | hy | hy | hy | hy | hy
        · exact ⟨y, by simp_all, m, rfl⟩
        · obtain ⟨z, hz, m2, rfl⟩ := ih nw _ nw' b2 hp y hy
          rcases hz with hz | rfl
          · exact ⟨z, by tauto, m, rfl⟩
          · exact ⟨c, by simp, m, rfl⟩
        all_goals exact ⟨y, by simp_all, m, rfl⟩
      · exact absurd h (by simp)
    · split at h <;> rename_i hp
      · rename_i sw' b2
        obtain ⟨y, hy, m, rfl⟩ := subdivideGo_allC f ih rest r _ _ _ _ _ _ h x hx
        rcases hy with hy | hy | hy | hy | hy | hy
        · exact ⟨y, by simp_all, m, rfl⟩
        · exact ⟨y, by simp_all, m, rfl⟩
        · obtain ⟨z, hz, m2, rfl⟩ := ih sw _ sw' b2 hp y hy
          rcases hz with hz | rfl
          · exact ⟨z, by tauto, m, rfl⟩
          · exact ⟨c, by simp, m, rfl⟩
        all_goals exact ⟨y, by simp_all, m, rfl⟩
      · exact absurd h (by simp)
    · split at h <;> rename_i hp
      · rename_i se' b2
        obtain ⟨y, hy, m, rfl⟩ := subdivideGo_allC f ih rest r _ _ _ _ _ _ h x hx
        rcases hy with hy | hy | hy | hy | hy | hy
        · exact ⟨y, by simp_all, m, rfl⟩
        · exact ⟨y, by simp_all, m, rfl⟩
        · exact ⟨y, by simp_all, m, rfl⟩
        · obtain ⟨z, hz, m2, rfl⟩ := ih se _ se' b2 hp y hy
          rcases hz with hz | rfl
          · exact ⟨z, by tauto, m, rfl⟩
          · exact ⟨c, by simp, m, rfl⟩
        all_goals exact ⟨y, by simp_all, m, rfl⟩
      · exact absurd h (by simp)
    · obtain ⟨y, hy, m, rfl⟩ := subdivideGo_allC f ih rest r _ _ _ _ _ _ h x hx
      rcases hy with hy | hy | hy | hy | hy | hy
      · exact ⟨y, by tauto, m, rfl⟩
      · exact ⟨y, by tauto, m, rfl⟩
      · exact ⟨y, by tauto, m, rfl⟩
      · exact ⟨y, by tauto, m, rfl⟩
      · rw [List.mem_append] at hy
        rcases hy with hy | hy
        · exact ⟨y, by tauto, m, rfl⟩
        · rw [List.mem_singleton] at hy
          subst hy
          exact ⟨c, by simp, m, rfl⟩
      · exact ⟨y, by simp_all, m, rfl⟩

/-- Every circle stored after `add` comes, up to a `MULTIPLE` rewrite, from
the original subtree or is the added circle. -/
lemma addF_allC :
    ∀ (fuel : Nat) (n : QuadNode) (c : Circle) (n' : QuadNode) (b : Bool),
      addF fuel n c = some (n', b) →
      ∀ x ∈ allC n', ∃ y, (y ∈ allC n ∨ y = c) ∧ ∃ m, x = { y with multiple := m } := by
  intro fuel
  induction fuel with
  | zero => intro n c n' b h; simp [addF] at h
  | succ f ih =>
    intro n c n' b h x hx
    cases n with
    | leaf r cs =>
      by_cases hi : intersectsCircle r c = true
      · simp only [addF, QuadNode.region, hi, if_true] at h
        split at h
        · rcases Option.map_eq_some'.mp h with ⟨nd, hnd, hpair⟩
          obtain ⟨rfl, rfl⟩ := Prod.mk.injEq .. ▸ hpair
          obtain ⟨y, hy, m, rfl⟩ := subdivideGo_allC f ih (cs ++ [c]) r _ _ _ _ _ _ hnd x hx
          simp only [allC, List.not_mem_nil, List.mem_append, List.mem_singleton,
            false_or] at hy
          rcases hy with h0 | rfl
          · exact ⟨y, Or.inl (by simpa [allC] using h0), m, rfl⟩
          · exact ⟨y, Or.inr rfl, m, rfl⟩
        · obtain ⟨rfl, rfl⟩ := Prod.mk.injEq .. ▸ (Option.some.injEq _ _ ▸ h)
          simp only [allC, List.mem_append, List.mem_singleton] at hx
          rcases hx with hx | rfl
          · exact ⟨x, Or.inl (by simpa [allC] using hx), x.multiple, rfl⟩
          · exact ⟨x, Or.inr rfl, x.multiple, rfl⟩
      · rw [Bool.not_eq_true] at hi
        simp only [addF, QuadNode.region, hi, Bool.false_eq_true, if_false] at h
        obtain ⟨rfl, rfl⟩ := Prod.mk.injEq .. ▸ (Option.some.injEq _ _ ▸ h)
        exact ⟨x, Or.inl hx, x.multiple, rfl⟩
    | node r cs ne nw sw se =>
      by_cases hi : intersectsCircle r c = true
      · simp only [addF, QuadNode.region, hi, if_true] at h
        split at h
        · rcases Option.map_eq_some'.mp h with ⟨p, hp, hpair⟩
          obtain ⟨rfl, rfl⟩ := Prod.mk.injEq .. ▸ hpair
          simp only [allC, List.mem_append, or_assoc] at hx
          rcases hx with hx | hx | hx | hx | hx
          · exact ⟨x, Or.inl (by simp [allC, hx]), x.multiple, rfl⟩
          · obtain ⟨y, hy, m, rfl⟩ := ih ne c p.1 p.2 hp x hx
            rcases hy with hy | rfl
            · exact ⟨y, Or.inl (by simp [allC, hy]), m, rfl⟩
            · exact ⟨y, Or.inr rfl, m, rfl⟩
          · exact ⟨x, Or.inl (by simp [allC, hx]), x.multiple, rfl⟩
          · exact ⟨x, Or.inl (by simp [allC, hx]), x.multiple, rfl⟩
          · exact ⟨x, Or.inl (by simp [allC, hx]), x.multiple, rfl⟩
        · rcases Option.map_eq_some'.mp h with ⟨p, hp, hpair⟩
          obtain ⟨rfl, rfl⟩ := Prod.mk.injEq .. ▸ hpair
          simp only [allC, List.mem_append, or_assoc] at hx
          rcases hx with hx | hx | hx | hx | hx
          · exact ⟨x, Or.inl (by simp [allC, hx]), x.multiple, rfl⟩
          · exact ⟨x, Or.inl (by simp [allC, hx]), x.multiple, rfl⟩
          · obtain ⟨y, hy, m, rfl⟩ := ih nw c p.1 p.2 hp x hx
            rcases hy with hy | rfl
            · exact ⟨y, Or.inl (by simp [allC, hy]), m, rfl⟩
            · exact ⟨y, Or.inr rfl, m, rfl⟩
          · exact ⟨x, Or.inl (by simp [allC, hx]), x.multiple, rfl⟩
          · exact ⟨x, Or.inl (by simp [allC, hx]), x.multiple, rfl⟩
        · rcases Option.map_eq_some'.mp h with ⟨p, hp, hpair⟩
          obtain ⟨rfl, rfl⟩ := Prod.mk.injEq .. ▸ hpair
          simp only [allC, List.mem_append, or_assoc] at hx
          rcases hx with hx | hx | hx | hx | hx
          · exact ⟨x, Or.inl (by simp [allC, hx]), x.multiple, rfl⟩
          · exact ⟨x, Or.inl (by simp [allC, hx]), x.multiple, rfl⟩
          · exact ⟨x, Or.inl (by simp [allC, hx]), x.multiple, rfl⟩
          · obtain ⟨y, hy, m, rfl⟩ := ih sw c p.1 p.2 hp x hx
            rcases hy with hy | rfl
            · exact ⟨y, Or.inl (by simp [allC, hy]), m, rfl⟩
            · exact ⟨y, Or.inr rfl, m, rfl⟩
          · exact ⟨x, Or.inl (by simp [allC, hx]), x.multiple, rfl⟩
        · rcases Option.map_eq_some'.mp h with ⟨p, hp, hpair⟩
          obtain ⟨rfl, rfl⟩ := Prod.mk.injEq .. ▸ hpair
          simp only [allC, List.mem_append, or_assoc] at hx
          rcases hx with hx | hx | hx | hx | hx
          · exact ⟨x, Or.inl (by simp [allC, hx]), x.multiple, rfl⟩
          · exact ⟨x, Or.inl (by simp [allC, hx]), x.multiple, rfl⟩
          · exact ⟨x, Or.inl (by simp [allC, hx]), x.multiple, rfl⟩
          · exact ⟨x, Or.inl (by simp [allC, hx]), x.multiple, rfl⟩
          · obtain ⟨y, hy, m, rfl⟩ := ih se c p.1 p.2 hp x hx
            rcases hy with hy | rfl
            · exact ⟨y, Or.inl (by simp [allC, hy]), m, rfl⟩
            · exact ⟨y, Or.inr rfl, m, rfl⟩
        · obtain ⟨rfl, rfl⟩ := Prod.mk.injEq .. ▸ (Option.some.injEq _ _ ▸ h)
          simp only [allC, List.mem_append, List.mem_singleton, or_assoc] at hx
          rcases hx with hx | rfl | hx | hx | hx | hx
          · exact ⟨x, Or.inl (by simp [allC, hx]), x.multiple, rfl⟩
          · exact ⟨x, Or.inr rfl, x.multiple, rfl⟩
          · exact ⟨x, Or.inl (by simp [allC, hx]), x.multiple, rfl⟩
          · exact ⟨x, Or.inl (by simp [allC, hx]), x.multiple, rfl⟩
          · exact ⟨x, Or.inl (by simp [allC, hx]), x.multiple, rfl⟩
          · exact ⟨x, Or.inl (by simp [allC, hx]), x.multiple, rfl⟩
      · rw [Bool.not_eq_true] at hi
        simp only [addF, QuadNode.region, hi, Bool.false_eq_true, if_false] at h
        obtain ⟨rfl, rfl⟩ := Prod.mk.injEq .. ▸ (Option.some.injEq _ _ ▸ h)
        exact ⟨x, Or.inl hx, x.multiple, rfl⟩


/-- The redistribution fold preserves the spatial invariant, given it for the
child `add`s. -/
lemma subdivideGo_inv (f : Nat)
    (ihInv : ∀ (n : QuadNode) (c : Circle) (n' : QuadNode) (b : Bool),
      addF f n c = some (n', b) → InvN n = true → InvN n' = true)
    (ihAll : ∀ (n : QuadNode) (c : Circle) (n' : QuadNode) (b : Bool),
      addF f n c = some (n', b) →
      ∀ x ∈ allC n', ∃ y, (y ∈ allC n ∨ y = c) ∧ ∃ m, x = { y with multiple := m }) :
    ∀ (u : List Circle) (r : Region) (ne nw sw se : QuadNode) (kept : List Circle)
      (nd : QuadNode),
      subdivideGo (addF f) r ne nw sw se kept u = some nd →
      (∀ x ∈ u, intersectsCircle r x = true) →
      (∀ x ∈ kept, intersectsCircle r x = true) →
      (∀ x ∈ allC ne, intersectsCircle r x = true) →
      (∀ x ∈ allC nw, intersectsCircle r x = true) →
      (∀ x ∈ allC sw, intersectsCircle r x = true) →
      (∀ x ∈ allC se, intersectsCircle r x = true) →
      InvN ne = true → InvN nw = true → InvN sw = true → InvN se = true →
      InvN nd = true
  | [], r, ne, nw, sw, se, kept, nd => by
    intro h hu hkept hne hnw hsw hse ine inw isw ise
    simp only [subdivideGo] at h
    obtain rfl := (Option.some.injEq _ _ ▸ h).symm
    exact invN_node_iff.mpr ⟨hkept, hne, hnw, hsw, hse, ine, inw, isw, ise⟩
  | c :: rest, r, ne, nw, sw, se, kept, nd => by
    intro h hu hkept hne hnw hsw hse ine inw isw ise
    have hc : intersectsCircle r c = true := hu c (by simp)
    have hrest : ∀ x ∈ rest, intersectsCircle r x = true :=
      fun x hx => hu x (by simp [hx])
    simp only [subdivideGo] at h
    split at h
    · split at h <;> rename_i hp
      · rename_i ne' b2
        refine subdivideGo_inv f ihInv ihAll rest r _ _ _ _ _ _ h hrest hkept
          ?_ hnw hsw hse (ihInv ne _ ne' b2 hp ine) inw isw ise
        intro x hx
        obtain ⟨y, hy, m, rfl⟩ := ihAll ne _ ne' b2 hp x hx
        rcases hy with hy | rfl
        · exact intersectsCircle_of_flag rfl (hne y hy)
        · exact intersectsCircle_of_flag rfl hc
      · exact absurd h (by simp)
    · split at h <;> rename_i hp
      · rename_i nw' b2
        refine subdivideGo_inv f ihInv ihAll rest r _ _ _ _ _ _ h hrest hkept
          hne ?_ hsw hse ine (ihInv nw _ nw' b2 hp inw) isw ise
        intro x hx
        obtain ⟨y, hy, m, rfl⟩ := ihAll nw _ nw' b2 hp x hx
        rcases hy with hy | rfl
        · exact intersectsCircle_of_flag rfl (hnw y hy)
        · exact intersectsCircle_of_flag rfl hc
      · exact absurd h (by simp)
    · split at h <;> rename_i hp
      · rename_i sw' b2
        refine subdivideGo_inv f ihInv ihAll rest r _ _ _ _ _ _ h hrest hkept
          hne hnw ?_ hse ine inw (ihInv sw _ sw' b2 hp isw) ise
        intro x hx
        obtain ⟨y, hy, m, rfl⟩ := ihAll sw _ sw' b2 hp x hx
        rcases hy with hy | rfl
        · exact intersectsCircle_of_flag rfl (hsw y hy)
        · exact intersectsCircle_of_flag rfl hc
      · exact absurd h (by simp)
    · split at h <;> rename_i hp
      · rename_i se' b2
        refine subdivideGo_inv f ihInv ihAll rest r _ _ _ _ _ _ h hrest hkept
          hne hnw hsw ?_ ine inw isw (ihInv se _ se' b2 hp ise)
        intro x hx
        obtain ⟨y, hy, m, rfl⟩ := ihAll se _ se' b2 hp x hx
        rcases hy with hy | rfl
        · exact intersectsCircle_of_flag rfl (hse y hy)
        · exact intersectsCircle_of_flag rfl hc
      · exact absurd h (by simp)
    · refine subdivideGo_inv f ihInv ihAll rest r _ _ _ _ _ _ h hrest ?_
        hne hnw hsw hse ine inw isw ise
      intro x hx
      rw [List.mem_append, List.mem_singleton] at hx
      rcases hx with hx | rfl
      · exact hkept x hx
      · exact intersectsCircle_of_flag rfl hc

/-- `add` preserves the spatial invariant: every stored circle keeps
intersecting the regions of its node and of all its ancestors. -/
lemma addF_inv :
    ∀ (fuel : Nat) (n : QuadNode) (c : Circle) (n' : QuadNode) (b : Bool),
      addF fuel n c = some (n', b) → InvN n = true → InvN n' = true := by
  intro fuel
  induction fuel with
  | zero => intro n c n' b h; simp [addF] at h
  | succ f ih =>
    intro n c n' b h hinv
    cases n with
    | leaf r cs =>
      by_cases hi : intersectsCircle r c = true
      · simp only [addF, QuadNode.region, hi, if_true] at h
        have hcs := invN_leaf_iff.mp hinv
        have hcs' : ∀ x ∈ cs ++ [c], intersectsCircle r x = true := by
          intro x hx
          rw [List.mem_append, List.mem_singleton] at hx
          rcases hx with hx | rfl
          · exact hcs x hx
          · exact hi
        split at h
        · rcases Option.map_eq_some'.mp h with ⟨nd, hnd, hpair⟩
          obtain ⟨rfl, rfl⟩ := Prod.mk.injEq .. ▸ hpair
          exact subdivideGo_inv f ih (addF_allC f) (cs ++ [c]) r _ _ _ _ _ _ hnd
            hcs' (by simp) (by simp [allC]) (by simp [allC]) (by simp [allC])
            (by simp [allC]) rfl rfl rfl rfl
        · obtain ⟨rfl, rfl⟩ := Prod.mk.injEq .. ▸ (Option.some.injEq _ _ ▸ h)
          exact invN_leaf_iff.mpr hcs'
      · rw [Bool.not_eq_true] at hi
        simp only [addF, QuadNode.region, hi, Bool.false_eq_true, if_false] at h
        obtain ⟨rfl, rfl⟩ := Prod.mk.injEq .. ▸ (Option.some.injEq _ _ ▸ h)
        exact hinv
    | node r cs ne nw sw se =>
      by_cases hi : intersectsCircle r c = true
      · simp only [addF, QuadNode.region, hi, if_true] at h
        obtain ⟨hcs, hne, hnw, hsw, hse, ine, inw, isw, ise⟩ := invN_node_iff.mp hinv
        split at h
        · rcases Option.map_eq_some'.mp h with ⟨p, hp, hpair⟩
          obtain ⟨rfl, rfl⟩ := Prod.mk.injEq .. ▸ hpair
          refine invN_node_iff.mpr ⟨hcs, ?_, hnw, hsw, hse, ih ne c p.1 p.2 hp ine,
            inw, isw, ise⟩
          intro x hx
          obtain ⟨y, hy, m, rfl⟩ := addF_allC f ne c p.1 p.2 hp x hx
          rcases hy with hy | rfl
          · exact intersectsCircle_of_flag rfl (hne y hy)
          · exact intersectsCircle_of_flag rfl hi
        · rcases Option.map_eq_some'.mp h with ⟨p, hp, hpair⟩
          obtain ⟨rfl, rfl⟩ := Prod.mk.injEq .. ▸ hpair
          refine invN_node_iff.mpr ⟨hcs, hne, ?_, hsw, hse, ine,
            ih nw c p.1 p.2 hp inw, isw, ise⟩
          intro x hx
          obtain ⟨y, hy, m, rfl⟩ := addF_allC f nw c p.1 p.2 hp x hx
          rcases hy with hy | rfl
          · exact intersectsCircle_of_flag rfl (hnw y hy)
          · exact intersectsCircle_of_flag rfl hi
        · rcases Option.map_eq_some'.mp h with ⟨p, hp, hpair⟩
          obtain ⟨rfl, rfl⟩ := Prod.mk.injEq .. ▸ hpair
          refine invN_node_iff.mpr ⟨hcs, hne, hnw, ?_, hse, ine, inw,
            ih sw c p.1 p.2 hp isw, ise⟩
          intro x hx
          obtain ⟨y, hy, m, rfl⟩ := addF_allC f sw c p.1 p.2 hp x hx
          rcases hy with hy | rfl
          · exact intersectsCircle_of_flag rfl (hsw y hy)
          · exact intersectsCircle_of_flag rfl hi
        · rcases Option.map_eq_some'.mp h with ⟨p, hp, hpair⟩
          obtain ⟨rfl, rfl⟩ := Prod.mk.injEq .. ▸ hpair
          refine invN_node_iff.mpr ⟨hcs, hne, hnw, hsw, ?_, ine, inw, isw,
            ih se c p.1 p.2 hp ise⟩
          intro x hx
          obtain ⟨y, hy, m, rfl⟩ := addF_allC f se c p.1 p.2 hp x hx
          rcases hy with hy | rfl
          · exact intersectsCircle_of_flag rfl (hse y hy)
          · exact intersectsCircle_of_flag rfl hi
        · obtain ⟨rfl, rfl⟩ := Prod.mk.injEq .. ▸ (Option.some.injEq _ _ ▸ h)
          refine invN_node_iff.mpr ⟨?_, hne, hnw, hsw, hse, ine, inw, isw, ise⟩
          intro x hx
          rw [List.mem_append, List.mem_singleton] at hx
          rcases hx with hx | rfl
          · exact hcs x hx
          · exact hi
      · rw [Bool.not_eq_true] at hi
        simp only [addF, QuadNode.region, hi, Bool.false_eq_true, if_false] at h
        obtain ⟨rfl, rfl⟩ := Prod.mk.injEq .. ▸ (Option.some.injEq _ _ ▸ h)
        exact hinv

/-- A returning `remove` only deletes: every remaining stored circle was
stored before. -/
lemma removeGo_allC :
    ∀ (n : QuadNode) (c : Circle) (b : Bool) (n' : QuadNode),
      removeGo n c = .ret b n' → ∀ x ∈ allC n', x ∈ allC n
  | .leaf r cs, c, b, n' => by
    intro h
    simp [removeGo] at h
  | .node r cs ne nw sw se, c, b, n' => by
    intro h x hx
    simp only [removeGo] at h
    split at h
    · split at h <;> rename_i hrec <;> try exact RemRes.noConfusion h
      rename_i b2 ch'
      obtain ⟨rfl, rfl⟩ := RemRes.ret.injEq .. ▸ h
      simp only [allC, List.mem_append, or_assoc] at hx ⊢
      rcases hx with hx | hx | hx | hx | hx
      · tauto
      · have := removeGo_allC ne c b2 ch' hrec x hx
        tauto
      all_goals tauto
    · split at h <;> rename_i hrec <;> try exact RemRes.noConfusion h
      rename_i b2 ch'
      obtain ⟨rfl, rfl⟩ := RemRes.ret.injEq .. ▸ h
      simp only [allC, List.mem_append, or_assoc] at hx ⊢
      rcases hx with hx | hx | hx | hx | hx
      · tauto
      · tauto
      · have := removeGo_allC nw c b2 ch' hrec x hx
        tauto
      all_goals tauto
    · split at h <;> rename_i hrec <;> try exact RemRes.noConfusion h
      rename_i b2 ch'
      obtain ⟨rfl, rfl⟩ := RemRes.ret.injEq .. ▸ h
      simp only [allC, List.mem_append, or_assoc] at hx ⊢
      rcases hx with hx | hx | hx | hx | hx
      · tauto
      · tauto
      · tauto
      · have := removeGo_allC sw c b2 ch' hrec x hx
        tauto
      · tauto
    · split at h <;> rename_i hrec <;> try exact RemRes.noConfusion h
      rename_i b2 ch'
      obtain ⟨rfl, rfl⟩ := RemRes.ret.injEq .. ▸ h
      simp only [allC, List.mem_append, or_assoc] at hx ⊢
      rcases hx with hx | hx | hx | hx | hx
      · tauto
      · tauto
      · tauto
      · tauto
      · have := removeGo_allC se c b2 ch' hrec x hx
        tauto
    · split at h
      · rename_i i hidx
        obtain ⟨rfl, rfl⟩ := RemRes.ret.injEq .. ▸ h
        simp only [allC, List.mem_append, or_assoc] at hx ⊢
        rcases hx with hx | hx | hx | hx | hx
        · exact Or.inl ((cs.eraseIdx_sublist i).mem hx)
        all_goals tauto
      · exact absurd h (by simp)

/-- A returning `remove` preserves the spatial invariant. -/
lemma removeGo_inv :
    ∀ (n : QuadNode) (c : Circle) (b : Bool) (n' : QuadNode),
      removeGo n c = .ret b n' → InvN n = true → InvN n' = true
  | .leaf r cs, c, b, n' => by
    intro h
    simp [removeGo] at h
  | .node r cs ne nw sw se, c, b, n' => by
    intro h hinv
    obtain ⟨hcs, hne, hnw, hsw, hse, ine, inw, isw, ise⟩ := invN_node_iff.mp hinv
    simp only [removeGo] at h
    split at h
    · split at h <;> rename_i hrec <;> try exact RemRes.noConfusion h
      rename_i b2 ch'
      obtain ⟨rfl, rfl⟩ := RemRes.ret.injEq .. ▸ h
      exact invN_node_iff.mpr ⟨hcs,
        fun x hx => hne x (removeGo_allC ne c b2 ch' hrec x hx), hnw, hsw, hse,
        removeGo_inv ne c b2 ch' hrec ine, inw, isw, ise⟩
    · split at h <;> rename_i hrec <;> try exact RemRes.noConfusion h
      rename_i b2 ch'
      obtain ⟨rfl, rfl⟩ := RemRes.ret.injEq .. ▸ h
      exact invN_node_iff.mpr ⟨hcs, hne,
        fun x hx => hnw x (removeGo_allC nw c b2 ch' hrec x hx), hsw, hse,
        ine, removeGo_inv nw c b2 ch' hrec inw, isw, ise⟩
    · split at h <;> rename_i hrec <;> try exact RemRes.noConfusion h
      rename_i b2 ch'
      obtain ⟨rfl, rfl⟩ := RemRes.ret.injEq .. ▸ h
      exact invN_node_iff.mpr ⟨hcs, hne, hnw,
        fun x hx => hsw x (removeGo_allC sw c b2 ch' hrec x hx), hse,
        ine, inw, removeGo_inv sw c b2 ch' hrec isw, ise⟩
    · split at h <;> rename_i hrec <;> try exact RemRes.noConfusion h
      rename_i b2 ch'
      obtain ⟨rfl, rfl⟩ := RemRes.ret.injEq .. ▸ h
      exact invN_node_iff.mpr ⟨hcs, hne, hnw, hsw,
        fun x hx => hse x (removeGo_allC se c b2 ch' hrec x hx),
        ine, inw, isw, removeGo_inv se c b2 ch' hrec ise⟩
    · split at h
      · rename_i i hidx
        obtain ⟨rfl, rfl⟩ := RemRes.ret.injEq .. ▸ h
        exact invN_node_iff.mpr
          ⟨fun x hx => hcs x ((cs.eraseIdx_sublist i).mem hx),
           hne, hnw, hsw, hse, ine, inw, isw, ise⟩
      · exact absurd h (by simp)

/-- C8: in every reachable tree state, the spatial invariant holds: every
circle stored at any node geometrically intersects (per `intersectsCircle`)
the region of its storing node and of every ancestor on the path from the
root (this is what `InvN` states recursively, requiring at every node that
all circles of its subtree intersect its region); it is established by
construction and preserved by `add` (including `subdivide`'s redistribution)
and by returning `remove` calls. -/
theorem reachable_circles_intersect_ancestors (t : QuadTree)
    (h : Reachable t) : InvT t = true := by
  induction h with
  | init r => rfl
  | add t c fuel t' b _ hadd ih =>
    unfold treeAddF at hadd
    cases hr : t.root with
    | none =>
      rw [hr] at hadd
      rcases Option.map_eq_some'.mp hadd with ⟨p, hp, hpair⟩
      obtain ⟨rfl, rfl⟩ := Prod.mk.injEq .. ▸ hpair
      exact addF_inv fuel _ c p.1 p.2 hp rfl
    | some rt =>
      rw [hr] at hadd
      rcases Option.map_eq_some'.mp hadd with ⟨p, hp, hpair⟩
      obtain ⟨rfl, rfl⟩ := Prod.mk.injEq .. ▸ hpair
      rw [InvT, hr] at ih
      exact addF_inv fuel rt c p.1 p.2 hp ih
  | remove t c t' b _ hrem ih =>
    cases hr : t.root with
    | none =>
      simp only [treeRemove, hr] at hrem
      obtain ⟨rfl, rfl⟩ := RemRes.ret.injEq .. ▸ hrem
      exact ih
    | some rt =>
      simp only [treeRemove, hr] at hrem
      cases hrec : removeGo rt c with
      | ret b2 rt2 =>
        rw [hrec] at hrem
        obtain ⟨rfl, rfl⟩ := RemRes.ret.injEq .. ▸ hrem
        rw [InvT, hr] at ih
        exact removeGo_inv rt c b2 rt2 hrec ih
      | attrError => rw [hrec] at hrem; exact RemRes.noConfusion hrem
      | loopForever => rw [hrec] at hrem; exact RemRes.noConfusion hrem

lemma natClog2_100 : Nat.clog 2 100 = 7 := by
  have h1 : Nat.clog 2 100 ≤ 7 :=
    (Nat.le_pow_iff_clog_le (by norm_num)).mp (by norm_num)
  have h2 : 6 < Nat.clog 2 100 :=
    (Nat.pow_lt_iff_lt_clog (by norm_num)).mp (by norm_num)
  omega

lemma larger2k_100 : larger2k 100 = 128 := by
  have : Int.toNat 100 = 100 := rfl
  simp [larger2k, this, natClog2_100]

/-- The constructor input `(0, 0, 100, 100)` produces exactly the canonical
region `[0,128) × [0,128)` with no root. -/
lemma init_eval : QuadTree.init ⟨0, 0, 100, 100⟩ = egTreeEmpty := by
  unfold QuadTree.init egTreeEmpty canonicalR
  simp [smaller2k, larger2k_100]

/-- Witness for C8: the tree holding one circle, reached by construction from
`(0, 0, 100, 100)` followed by one insertion, satisfies the invariant. -/
theorem reachable_circles_intersect_ancestors_witness :
    Reachable egTreeLeaf ∧ InvT egTreeLeaf = true := by
  have h0 : Reachable egTreeEmpty := init_eval ▸ Reachable.init ⟨0, 0, 100, 100⟩
  have h1 : Reachable egTreeLeaf :=
    Reachable.add egTreeEmpty egCircle1 20 egTreeLeaf true h0 (by decide)
  exact ⟨h1, reachable_circles_intersect_ancestors egTreeLeaf h1⟩

/-- C10: for every tree node and query circle, the list yielded by `collide`
is a sublist of the stored circles of the subtree (locals first, children in
NE, NW, SW, SE order); in particular every stored occurrence is yielded at
most once (the count of any circle value in the output never exceeds its
count among the stored occurrences). -/
theorem collide_yields_each_occurrence_at_most_once (n : QuadNode) (q : Circle) :
    (collideList defaultCollision n q).Sublist (allC n) ∧
    ∀ s : Circle, (collideList defaultCollision n q).count s ≤ (allC n).count s :=
  ⟨collideList_sublist_allC defaultCollision n q,
    fun s => (collideList_sublist_allC defaultCollision n q).count_le s⟩

/-! ### Sufficiency of the fuel bound on proper nodes -/

lemma fdiv_two (a : Int) : a.fdiv 2 = a / 2 := Int.fdiv_eq_ediv a (by norm_num)

/-- `intersectsCircle` reads a region only through its centre and half-size
parameters (Python's integer `rectOrigin` and `halfSize`). -/
lemma intersectsCircle_param_congr {r s : Region} (c : Circle)
    (h1 : (r.x_min + r.x_max).fdiv 2 = (s.x_min + s.x_max).fdiv 2)
    (h2 : (r.x_max - r.x_min).fdiv 2 = (s.x_max - s.x_min).fdiv 2)
    (h3 : (r.y_min + r.y_max).fdiv 2 = (s.y_min + s.y_max).fdiv 2)
    (h4 : (r.y_max - r.y_min).fdiv 2 = (s.y_max - s.y_min).fdiv 2) :
    intersectsCircle r c = intersectsCircle s c := by
  unfold intersectsCircle
  rw [h1, h2, h3, h4]

/-- With x-extent 0 or 1 the NE and NW quarter regions have identical test
parameters. -/
lemma inter_ne_nw_of_small_w {r : Region} (c : Circle)
    (h0 : 0 ≤ r.x_max - r.x_min) (h1 : r.x_max - r.x_min ≤ 1) :
    intersectsCircle r.neRegion c = intersectsCircle r.nwRegion c := by
  apply intersectsCircle_param_congr <;>
    simp only [Region.neRegion, Region.nwRegion, Region.originX, Region.originY,
      fdiv_two] <;> omega

lemma inter_sw_se_of_small_w {r : Region} (c : Circle)
    (h0 : 0 ≤ r.x_max - r.x_min) (h1 : r.x_max - r.x_min ≤ 1) :
    intersectsCircle r.swRegion c = intersectsCircle r.seRegion c := by
  apply intersectsCircle_param_congr <;>
    simp only [Region.swRegion, Region.seRegion, Region.originX, Region.originY,
      fdiv_two] <;> omega

lemma inter_ne_se_of_small_h {r : Region} (c : Circle)
    (h0 : 0 ≤ r.y_max - r.y_min) (h1 : r.y_max - r.y_min ≤ 1) :
    intersectsCircle r.neRegion c = intersectsCircle r.seRegion c := by
  apply intersectsCircle_param_congr <;>
    simp only [Region.neRegion, Region.seRegion, Region.originX, Region.originY,
      fdiv_two] <;> omega

lemma inter_nw_sw_of_small_h {r : Region} (c : Circle)
    (h0 : 0 ≤ r.y_max - r.y_min) (h1 : r.y_max - r.y_min ≤ 1) :
    intersectsCircle r.nwRegion c = intersectsCircle r.swRegion c := by
  apply intersectsCircle_param_congr <;>
    simp only [Region.nwRegion, Region.swRegion, Region.originX, Region.originY,
      fdiv_two] <;> omega

/-- On a proper region, a circle can intersect exactly one quarter only if
both extents are at least 2: with a smaller extent the quarter tests
coincide in pairs, so the number of intersected quadrants is even. -/
lemma quadrantsR_singleton_dims {r : Region} {c : Circle} {q : Nat}
    (hp : properR r = true)
    (h : quadrantsR r.neRegion r.nwRegion r.swRegion r.seRegion c = [q]) :
    2 ≤ r.x_max - r.x_min ∧ 2 ≤ r.y_max - r.y_min := by
  simp only [properR, Bool.and_eq_true, decide_eq_true_eq] at hp
  constructor
  · by_contra hlt
    rw [not_le] at hlt
    have e1 := inter_ne_nw_of_small_w (r := r) c (by omega) (by omega)
    have e2 := inter_sw_se_of_small_w (r := r) c (by omega) (by omega)
    unfold quadrantsR at h
    cases hA : intersectsCircle r.neRegion c <;>
      cases hB : intersectsCircle r.swRegion c <;>
      rw [hA] at e1 <;> rw [hB] at e2 <;>
      simp [hA, hB, ← e1, ← e2] at h
  · by_contra hlt
    rw [not_le] at hlt
    have e1 := inter_ne_se_of_small_h (r := r) c (by omega) (by omega)
    have e2 := inter_nw_sw_of_small_h (r := r) c (by omega) (by omega)
    unfold quadrantsR at h
    cases hA : intersectsCircle r.neRegion c <;>
      cases hB : intersectsCircle r.nwRegion c <;>
      rw [hA] at e1 <;> rw [hB] at e2 <;>
      simp [hA, hB, ← e1, ← e2] at h

/-- The quarter regions lose at least one unit of extent in each dimension
once both extents are at least 2. -/
lemma μR_quarter_lt {r : Region} (hw : 2 ≤ r.x_max - r.x_min)
    (hh : 2 ≤ r.y_max - r.y_min) :
    μR r.neRegion + 2 ≤ μR r ∧ μR r.nwRegion + 2 ≤ μR r ∧
    μR r.swRegion + 2 ≤ μR r ∧ μR r.seRegion + 2 ≤ μR r := by
  unfold μR Region.neRegion Region.nwRegion Region.swRegion Region.seRegion
    Region.originX Region.originY
  simp only [fdiv_two]
  omega

/-- Quarter regions of a proper region are proper. -/
lemma properR_quarter {r : Region} (h : properR r = true) :
    properR r.neRegion = true ∧ properR r.nwRegion = true ∧
    properR r.swRegion = true ∧ properR r.seRegion = true := by
  simp only [properR, Bool.and_eq_true, decide_eq_true_eq] at h ⊢
  unfold Region.neRegion Region.nwRegion Region.swRegion Region.seRegion
    Region.originX Region.originY
  simp only [fdiv_two]
  omega

lemma properN_leaf_iff {r : Region} {cs : List Circle} :
    ProperN (.leaf r cs) = true ↔ properR r = true := by
  simp [ProperN]

lemma properN_node_iff {r : Region} {cs : List Circle} {ne nw sw se : QuadNode} :
    ProperN (.node r cs ne nw sw se) = true ↔
      properR r = true ∧ ne.region = r.neRegion ∧ nw.region = r.nwRegion ∧
      sw.region = r.swRegion ∧ se.region = r.seRegion ∧
      ProperN ne = true ∧ ProperN nw = true ∧ ProperN sw = true ∧
      ProperN se = true := by
  simp only [ProperN, Bool.and_eq_true, decide_eq_true_eq]
  tauto

/-- The sixteen possible values of a quadrant list. -/
lemma quadrantsR_sixteen (a b d e : Region) (c : Circle) :
    quadrantsR a b d e c = [] ∨ quadrantsR a b d e c = [0] ∨
    quadrantsR a b d e c = [1] ∨ quadrantsR a b d e c = [2] ∨
    quadrantsR a b d e c = [3] ∨ quadrantsR a b d e c = [0, 1] ∨
    quadrantsR a b d e c = [0, 2] ∨ quadrantsR a b d e c = [0, 3] ∨
    quadrantsR a b d e c = [1, 2] ∨ quadrantsR a b d e c = [1, 3] ∨
    quadrantsR a b d e c = [2, 3] ∨ quadrantsR a b d e c = [0, 1, 2] ∨
    quadrantsR a b d e c = [0, 1, 3] ∨ quadrantsR a b d e c = [0, 2, 3] ∨
    quadrantsR a b d e c = [1, 2, 3] ∨ quadrantsR a b d e c = [0, 1, 2, 3] := by
  unfold quadrantsR
  cases intersectsCircle a c <;> cases intersectsCircle b c <;>
    cases intersectsCircle d c <;> cases intersectsCircle e c <;> simp

/-- One unfolding of `addF` on a leaf, as nested conditionals. -/
lemma addF_succ_leaf (f : Nat) (r : Region) (cs : List Circle) (c : Circle) :
    addF (f + 1) (.leaf r cs) c =
      if intersectsCircle r c = true then
        if 4 < (cs ++ [c]).length then
          (subdivideGo (addF f) r (.leaf r.neRegion []) (.leaf r.nwRegion [])
            (.leaf r.swRegion []) (.leaf r.seRegion []) [] (cs ++ [c])).map
            (fun n' => (n', true))
        else some (.leaf r (cs ++ [c]), true)
      else some (.leaf r cs, false) := by
  by_cases hi : intersectsCircle r c = true <;> simp [addF, QuadNode.region, hi]

/-- One unfolding of `addF` on an internal node, as nested conditionals. -/
lemma addF_succ_node (f : Nat) (r : Region) (cs : List Circle)
    (ne nw sw se : QuadNode) (c : Circle) :
    addF (f + 1) (.node r cs ne nw sw se) c =
      if intersectsCircle r c = true then
        if quadrantsOf ne nw sw se c = [0] then
          (addF f ne c).map (fun p => (.node r cs p.1 nw sw se, p.2))
        else if quadrantsOf ne nw sw se c = [1] then
          (addF f nw c).map (fun p => (.node r cs ne p.1 sw se, p.2))
        else if quadrantsOf ne nw sw se c = [2] then
          (addF f sw c).map (fun p => (.node r cs ne nw p.1 se, p.2))
        else if quadrantsOf ne nw sw se c = [3] then
          (addF f se c).map (fun p => (.node r cs ne nw sw p.1, p.2))
        else some (.node r (cs ++ [c]) ne nw sw se, true)
      else some (.node r cs ne nw sw se, false) := by
  by_cases hi : intersectsCircle r c = true <;>
    rcases quadrantsR_sixteen ne.region nw.region sw.region se.region c with
      hq | hq | hq | hq | hq | hq | hq | hq | hq | hq | hq | hq | hq | hq | hq | hq <;>
    simp [addF, quadrantsOf, hi, hq]

/-- One step of the redistribution fold, as nested conditionals. -/
lemma subdivideGo_cons (adder : QuadNode → Circle → Option (QuadNode × Bool))
    (r : Region) (ne nw sw se : QuadNode) (kept : List Circle) (c : Circle)
    (rest : List Circle) :
    subdivideGo adder r ne nw sw se kept (c :: rest) =
      if quadrantsOf ne nw sw se c = [0] then
        match adder ne { c with multiple := false } with
        | some (ne', _) => subdivideGo adder r ne' nw sw se kept rest
        | none => none
      else if quadrantsOf ne nw sw se c = [1] then
        match adder nw { c with multiple := false } with
        | some (nw', _) => subdivideGo adder r ne nw' sw se kept rest
        | none => none
      else if quadrantsOf ne nw sw se c = [2] then
        match adder sw { c with multiple := false } with
        | some (sw', _) => subdivideGo adder r ne nw sw' se kept rest
        | none => none
      else if quadrantsOf ne nw sw se c = [3] then
        match adder se { c with multiple := false } with
        | some (se', _) => subdivideGo adder r ne nw sw se' kept rest
        | none => none
      else subdivideGo adder r ne nw sw se (kept ++ [{ c with multiple := true }]) rest := by
  rcases quadrantsR_sixteen ne.region nw.region sw.region se.region c with
    hq | hq | hq | hq | hq | hq | hq | hq | hq | hq | hq | hq | hq | hq | hq | hq <;>
  simp [subdivideGo, quadrantsOf, hq]

/-- On a proper region, the redistribution fold always returns and preserves
properness, provided child `add`s at smaller measure always return (the
strong-induction hypothesis `IH`). -/
lemma subdivideGo_suff (fuel k : Nat) (r : Region) (hk : μR r ≤ k)
    (hfuel : 2 * k ≤ fuel) (hp : properR r = true)
    (IH : ∀ k', k' < k → ∀ (n : QuadNode) (c : Circle) (fl : Nat),
      ProperN n = true → μN n ≤ k' → 2 * k' + 1 ≤ fl →
      ∃ n' b, addF fl n c = some (n', b) ∧ ProperN n' = true) :
    ∀ (u : List Circle) (ne nw sw se : QuadNode) (kept : List Circle),
      ne.region = r.neRegion → nw.region = r.nwRegion →
      sw.region = r.swRegion → se.region = r.seRegion →
      ProperN ne = true → ProperN nw = true → ProperN sw = true →
      ProperN se = true →
      ∃ nd, subdivideGo (addF fuel) r ne nw sw se kept u = some nd ∧
        ProperN nd = true
  | [], ne, nw, sw, se, kept => by
    intro e1 e2 e3 e4 p1 p2 p3 p4
    exact ⟨.node r kept ne nw sw se, by simp [subdivideGo],
      properN_node_iff.mpr ⟨hp, e1, e2, e3, e4, p1, p2, p3, p4⟩⟩
  | c :: rest, ne, nw, sw, se, kept => by
    intro e1 e2 e3 e4 p1 p2 p3 p4
    rw [subdivideGo_cons]
    split_ifs with h0 h1 h2 h3
    · have hq : quadrantsR r.neRegion r.nwRegion r.swRegion r.seRegion c = [0] := by
        unfold quadrantsOf at h0
        rw [e1, e2, e3, e4] at h0
        exact h0
      obtain ⟨hw, hh⟩ := quadrantsR_singleton_dims hp hq
      have hμq := (μR_quarter_lt hw hh).1
      obtain ⟨ne', b2, hadd, hp'⟩ := IH (μR r.neRegion) (by omega) ne _ fuel p1
        (by unfold μN; rw [e1]) (by omega)
      obtain ⟨nd, hnd, hnp⟩ := subdivideGo_suff fuel k r hk hfuel hp IH rest
        ne' nw sw se kept ((addF_region fuel ne _ ne' b2 hadd).trans e1) e2 e3 e4
        hp' p2 p3 p4
      exact ⟨nd, by rw [hadd]; exact hnd, hnp⟩
    · have hq : quadrantsR r.neRegion r.nwRegion r.swRegion r.seRegion c = [1] := by
        unfold quadrantsOf at h1
        rw [e1, e2, e3, e4] at h1
        exact h1
      obtain ⟨hw, hh⟩ := quadrantsR_singleton_dims hp hq
      have hμq := (μR_quarter_lt hw hh).2.1
      obtain ⟨nw', b2, hadd, hp'⟩ := IH (μR r.nwRegion) (by omega) nw _ fuel p2
        (by unfold μN; rw [e2]) (by omega)
      obtain ⟨nd, hnd, hnp⟩ := subdivideGo_suff fuel k r hk hfuel hp IH rest
        ne nw' sw se kept e1 ((addF_region fuel nw _ nw' b2 hadd).trans e2) e3 e4
        p1 hp' p3 p4
      exact ⟨nd, by rw [hadd]; exact hnd, hnp⟩
    · have hq : quadrantsR r.neRegion r.nwRegion r.swRegion r.seRegion c = [2] := by
        unfold quadrantsOf at h2
        rw [e1, e2, e3, e4] at h2
        exact h2
      obtain ⟨hw, hh⟩ := quadrantsR_singleton_dims hp hq
      have hμq := (μR_quarter_lt hw hh).2.2.1
      obtain ⟨sw', b2, hadd, hp'⟩ := IH (μR r.swRegion) (by omega) sw _ fuel p3
        (by unfold μN; rw [e3]) (by omega)
      obtain ⟨nd, hnd, hnp⟩ := subdivideGo_suff fuel k r hk hfuel hp IH rest
        ne nw sw' se kept e1 e2 ((addF_region fuel sw _ sw' b2 hadd).trans e3) e4
        p1 p2 hp' p4
      exact ⟨nd, by rw [hadd]; exact hnd, hnp⟩
    · have hq : quadrantsR r.neRegion r.nwRegion r.swRegion r.seRegion c = [3] := by
        unfold quadrantsOf at h3
        rw [e1, e2, e3, e4] at h3
        exact h3
      obtain ⟨hw, hh⟩ := quadrantsR_singleton_dims hp hq
      have hμq := (μR_quarter_lt hw hh).2.2.2
      obtain ⟨se', b2, hadd, hp'⟩ := IH (μR r.seRegion) (by omega) se _ fuel p4
        (by unfold μN; rw [e4]) (by omega)
      obtain ⟨nd, hnd, hnp⟩ := subdivideGo_suff fuel k r hk hfuel hp IH rest
        ne nw sw se' kept e1 e2 e3 ((addF_region fuel se _ se' b2 hadd).trans e4)
        p1 p2 p3 hp'
      exact ⟨nd, by rw [hadd]; exact hnd, hnp⟩
    · exact subdivideGo_suff fuel k r hk hfuel hp IH rest ne nw sw se
        (kept ++ [{ c with multiple := true }]) e1 e2 e3 e4 p1 p2 p3 p4

/-- On a proper node, fuel `2 * μN + 1` suffices for `add`, and the result is
proper again. -/
theorem addF_suff : ∀ (k : Nat) (n : QuadNode) (c : Circle) (fuel : Nat),
    ProperN n = true → μN n ≤ k → 2 * k + 1 ≤ fuel →
    ∃ n' b, addF fuel n c = some (n', b) ∧ ProperN n' = true := by
  intro k
  induction k using Nat.strong_induction_on with
  | _ k IH =>
    intro n c fuel hp hμ hf
    obtain ⟨f, rfl⟩ : ∃ f, fuel = f + 1 := ⟨fuel - 1, by omega⟩
    cases n with
    | leaf r cs =>
      have hpr : properR r = true := properN_leaf_iff.mp hp
      rw [addF_succ_leaf]
      by_cases hi : intersectsCircle r c = true
      · rw [if_pos hi]
        by_cases h4 : 4 < (cs ++ [c]).length
        · rw [if_pos h4]
          obtain ⟨q1, q2, q3, q4⟩ := properR_quarter hpr
          obtain ⟨nd, hnd, hnp⟩ := subdivideGo_suff f k r (by exact hμ)
            (by omega) hpr IH (cs ++ [c]) (.leaf r.neRegion []) (.leaf r.nwRegion [])
            (.leaf r.swRegion []) (.leaf r.seRegion []) [] rfl rfl rfl rfl
            (properN_leaf_iff.mpr q1) (properN_leaf_iff.mpr q2)
            (properN_leaf_iff.mpr q3) (properN_leaf_iff.mpr q4)
          exact ⟨nd, true, by rw [hnd]; rfl, hnp⟩
        · rw [if_neg h4]
          exact ⟨_, _, rfl, properN_leaf_iff.mpr hpr⟩
      · rw [if_neg hi]
        exact ⟨_, _, rfl, hp⟩
    | node r cs ne nw sw se =>
      obtain ⟨hpr, e1, e2, e3, e4, p1, p2, p3, p4⟩ := properN_node_iff.mp hp
      have hμr : μR r ≤ k := hμ
      rw [addF_succ_node]
      by_cases hi : intersectsCircle r c = true
      · rw [if_pos hi]
        split_ifs with h0 h1 h2 h3
        · have hq : quadrantsR r.neRegion r.nwRegion r.swRegion r.seRegion c = [0] := by
            unfold quadrantsOf at h0
            rw [e1, e2, e3, e4] at h0
            exact h0
          obtain ⟨hw, hh⟩ := quadrantsR_singleton_dims hpr hq
          have hμq := (μR_quarter_lt hw hh).1
          obtain ⟨ne', b2, hadd, hp'⟩ := IH (μR r.neRegion) (by omega) ne c f p1
            (by unfold μN; rw [e1]) (by omega)
          exact ⟨.node r cs ne' nw sw se, b2, by rw [hadd]; rfl,
            properN_node_iff.mpr ⟨hpr, (addF_region f ne c ne' b2 hadd).trans e1,
              e2, e3, e4, hp', p2, p3, p4⟩⟩
        · have hq : quadrantsR r.neRegion r.nwRegion r.swRegion r.seRegion c = [1] := by
            unfold quadrantsOf at h1
            rw [e1, e2, e3, e4] at h1
            exact h1
          obtain ⟨hw, hh⟩ := quadrantsR_singleton_dims hpr hq
          have hμq := (μR_quarter_lt hw hh).2.1
          obtain ⟨nw', b2, hadd, hp'⟩ := IH (μR r.nwRegion) (by omega) nw c f p2
            (by unfold μN; rw [e2]) (by omega)
          exact ⟨.node r cs ne nw' sw se, b2, by rw [hadd]; rfl,
            properN_node_iff.mpr ⟨hpr, e1, (addF_region f nw c nw' b2 hadd).trans e2,
              e3, e4, p1, hp', p3, p4⟩⟩
        · have hq : quadrantsR r.neRegion r.nwRegion r.swRegion r.seRegion c = [2] := by
            unfold quadrantsOf at h2
            rw [e1, e2, e3, e4] at h2
            exact h2
          obtain ⟨hw, hh⟩ := quadrantsR_singleton_dims hpr hq
          have hμq := (μR_quarter_lt hw hh).2.2.1
          obtain ⟨sw', b2, hadd, hp'⟩ := IH (μR r.swRegion) (by omega) sw c f p3
            (by unfold μN; rw [e3]) (by omega)
          exact ⟨.node r cs ne nw sw' se, b2, by rw [hadd]; rfl,
            properN_node_iff.mpr ⟨hpr, e1, e2,
              (addF_region f sw c sw' b2 hadd).trans e3, e4, p1, p2, hp', p4⟩⟩
        · have hq : quadrantsR r.neRegion r.nwRegion r.swRegion r.seRegion c = [3] := by
            unfold quadrantsOf at h3
            rw [e1, e2, e3, e4] at h3
            exact h3
          obtain ⟨hw, hh⟩ := quadrantsR_singleton_dims hpr hq
          have hμq := (μR_quarter_lt hw hh).2.2.2
          obtain ⟨se', b2, hadd, hp'⟩ := IH (μR r.seRegion) (by omega) se c f p4
            (by unfold μN; rw [e4]) (by omega)
          exact ⟨.node r cs ne nw sw se', b2, by rw [hadd]; rfl,
            properN_node_iff.mpr ⟨hpr, e1, e2, e3,
              (addF_region f se c se' b2 hadd).trans e4, p1, p2, p3, hp'⟩⟩
        · exact ⟨_, _, rfl,
            properN_node_iff.mpr ⟨hpr, e1, e2, e3, e4, p1, p2, p3, p4⟩⟩
      · rw [if_neg hi]
        exact ⟨_, _, rfl, hp⟩

/-- More fuel never changes a returned result. -/
lemma addF_mono : ∀ (f1 f2 : Nat) (n : QuadNode) (c : Circle) (p : QuadNode × Bool),
    f1 ≤ f2 → addF f1 n c = some p → addF f2 n c = some p := by
  intro f1
  induction f1 with
  | zero => intro f2 n c p _ h; simp [addF] at h
  | succ f ihf =>
    intro f2 n c p hle h
    obtain ⟨g, rfl⟩ : ∃ g, f2 = g + 1 := ⟨f2 - 1, by omega⟩
    have ih : ∀ (n : QuadNode) (c : Circle) (p : QuadNode × Bool),
        addF f n c = some p → addF g n c = some p :=
      fun n c p => ihf g n c p (by omega)
    have subMono : ∀ (u : List Circle) (r : Region) (ne nw sw se : QuadNode)
        (kept : List Circle) (nd : QuadNode),
        subdivideGo (addF f) r ne nw sw se kept u = some nd →
        subdivideGo (addF g) r ne nw sw se kept u = some nd := by
      intro u
      induction u with
      | nil => intro r ne nw sw se kept nd h; simpa [subdivideGo] using h
      | cons c rest ihu =>
        intro r ne nw sw se kept nd h
        rw [subdivideGo_cons] at h ⊢
        split_ifs at h ⊢ with h0 h1 h2 h3
        · cases haf : addF f ne { c with multiple := false } with
          | none => rw [haf] at h; simp at h
          | some q =>
            rw [haf] at h
            obtain ⟨ne', b2⟩ := q
            rw [ih _ _ _ haf]
            exact ihu r ne' nw sw se kept nd h
        · cases haf : addF f nw { c with multiple := false } with
          | none => rw [haf] at h; simp at h
          | some q =>
            rw [haf] at h
            obtain ⟨nw', b2⟩ := q
            rw [ih _ _ _ haf]
            exact ihu r ne nw' sw se kept nd h
        · cases haf : addF f sw { c with multiple := false } with
          | none => rw [haf] at h; simp at h
          | some q =>
            rw [haf] at h
            obtain ⟨sw', b2⟩ := q
            rw [ih _ _ _ haf]
            exact ihu r ne nw sw' se kept nd h
        · cases haf : addF f se { c with multiple := false } with
          | none => rw [haf] at h; simp at h
          | some q =>
            rw [haf] at h
            obtain ⟨se', b2⟩ := q
            rw [ih _ _ _ haf]
            exact ihu r ne nw sw se' kept nd h
        · exact ihu r ne nw sw se _ nd h
    cases n with
    | leaf r cs =>
      rw [addF_succ_leaf] at h ⊢
      split_ifs at h ⊢
      · rcases Option.map_eq_some'.mp h with ⟨nd, hnd, hpair⟩
        rw [subMono _ _ _ _ _ _ _ _ hnd]
        simpa using hpair
      · exact h
      · exact h
    | node r cs ne nw sw se =>
      rw [addF_succ_node] at h ⊢
      split_ifs at h ⊢
      · rcases Option.map_eq_some'.mp h with ⟨q, hq, hpair⟩
        rw [ih _ _ _ hq]
        simpa using hpair
      · rcases Option.map_eq_some'.mp h with ⟨q, hq, hpair⟩
        rw [ih _ _ _ hq]
        simpa using hpair
      · rcases Option.map_eq_some'.mp h with ⟨q, hq, hpair⟩
        rw [ih _ _ _ hq]
        simpa using hpair
      · rcases Option.map_eq_some'.mp h with ⟨q, hq, hpair⟩
        rw [ih _ _ _ hq]
        simpa using hpair
      · exact h
      · exact h

/-- Any two returned results of `add` (at any fuels) agree. -/
lemma addF_det {f1 f2 : Nat} {n : QuadNode} {c : Circle} {p q : QuadNode × Bool}
    (h1 : addF f1 n c = some p) (h2 : addF f2 n c = some q) : p = q := by
  rcases le_total f1 f2 with hle | hle
  · have := addF_mono f1 f2 n c p hle h1
    rw [this] at h2
    exact (Option.some.injEq _ _ ▸ h2)
  · have := addF_mono f2 f1 n c q hle h2
    rw [this] at h1
    exact (Option.some.injEq _ _ ▸ h1).symm

/-- On proper nodes `addP` is the (unique) returned result of the fueled
descent. -/
lemma addP_eq_addF {n : QuadNode} (c : Circle) (hp : ProperN n = true) :
    addF (2 * μN n + 1) n c = some (addP n c) := by
  obtain ⟨n', b, h, _⟩ := addF_suff (μN n) n c (2 * μN n + 1) hp le_rfl le_rfl
  rw [h, addP, h]
  rfl

lemma addP_spec {f : Nat} {n : QuadNode} {c : Circle} {p : QuadNode × Bool}
    (hp : ProperN n = true) (h : addF f n c = some p) : addP n c = p :=
  addF_det (addP_eq_addF c hp) h

lemma addP_proper {n : QuadNode} (c : Circle) (hp : ProperN n = true) :
    ProperN (addP n c).1 = true := by
  obtain ⟨n', b, h, hp'⟩ := addF_suff (μN n) n c (2 * μN n + 1) hp le_rfl le_rfl
  rw [addP_spec hp h]
  exact hp'

lemma addP_region {n : QuadNode} (c : Circle) (hp : ProperN n = true) :
    (addP n c).1.region = n.region :=
  addF_region _ n c _ _ (addP_eq_addF c hp)

/-- The corresponding step of the totalized fold. -/
lemma subAddP_cons (r : Region) (ne nw sw se : QuadNode) (kept : List Circle)
    (c : Circle) (rest : List Circle) :
    subAddP r ne nw sw se kept (c :: rest) =
      if quadrantsOf ne nw sw se c = [0] then
        subAddP r (addP ne { c with multiple := false }).1 nw sw se kept rest
      else if quadrantsOf ne nw sw se c = [1] then
        subAddP r ne (addP nw { c with multiple := false }).1 sw se kept rest
      else if quadrantsOf ne nw sw se c = [2] then
        subAddP r ne nw (addP sw { c with multiple := false }).1 se kept rest
      else if quadrantsOf ne nw sw se c = [3] then
        subAddP r ne nw sw (addP se { c with multiple := false }).1 kept rest
      else subAddP r ne nw sw se (kept ++ [{ c with multiple := true }]) rest := by
  rcases quadrantsR_sixteen ne.region nw.region sw.region se.region c with
    hq | hq | hq | hq | hq | hq | hq | hq | hq | hq | hq | hq | hq | hq | hq | hq <;>
  simp [subAddP, quadrantsOf, hq]

/-- On proper states the fueled redistribution fold computes exactly the
totalized fold `subAddP`. -/
lemma subdivideGo_eq_subAddP (fuel k : Nat) (r : Region) (hk : μR r ≤ k)
    (hfuel : 2 * k ≤ fuel) (hp : properR r = true) :
    ∀ (u : List Circle) (ne nw sw se : QuadNode) (kept : List Circle),
      ne.region = r.neRegion → nw.region = r.nwRegion →
      sw.region = r.swRegion → se.region = r.seRegion →
      ProperN ne = true → ProperN nw = true → ProperN sw = true →
      ProperN se = true →
      subdivideGo (addF fuel) r ne nw sw se kept u =
        some (subAddP r ne nw sw se kept u)
  | [], ne, nw, sw, se, kept => by
    intro e1 e2 e3 e4 p1 p2 p3 p4
    simp [subdivideGo, subAddP]
  | c :: rest, ne, nw, sw, se, kept => by
    intro e1 e2 e3 e4 p1 p2 p3 p4
    rw [subdivideGo_cons, subAddP_cons]
    split_ifs with h0 h1 h2 h3
    · have hq : quadrantsR r.neRegion r.nwRegion r.swRegion r.seRegion c = [0] := by
        unfold quadrantsOf at h0
        rw [e1, e2, e3, e4] at h0
        exact h0
      obtain ⟨hw, hh⟩ := quadrantsR_singleton_dims hp hq
      have hμq := (μR_quarter_lt hw hh).1
      obtain ⟨ne', b2, hadd, hp'⟩ := addF_suff (μR r.neRegion) ne _ fuel p1
        (by unfold μN; rw [e1]) (by omega)
      rw [hadd, addP_spec p1 hadd]
      exact subdivideGo_eq_subAddP fuel k r hk hfuel hp rest ne' nw sw se kept
        ((addF_region fuel ne _ ne' b2 hadd).trans e1) e2 e3 e4 hp' p2 p3 p4
    · have hq : quadrantsR r.neRegion r.nwRegion r.swRegion r.seRegion c = [1] := by
        unfold quadrantsOf at h1
        rw [e1, e2, e3, e4] at h1
        exact h1
      obtain ⟨hw, hh⟩ := quadrantsR_singleton_dims hp hq
      have hμq := (μR_quarter_lt hw hh).2.1
      obtain ⟨nw', b2, hadd, hp'⟩ := addF_suff (μR r.nwRegion) nw _ fuel p2
        (by unfold μN; rw [e2]) (by omega)
      rw [hadd, addP_spec p2 hadd]
      exact subdivideGo_eq_subAddP fuel k r hk hfuel hp rest ne nw' sw se kept
        e1 ((addF_region fuel nw _ nw' b2 hadd).trans e2) e3 e4 p1 hp' p3 p4
    · have hq : quadrantsR r.neRegion r.nwRegion r.swRegion r.seRegion c = [2] := by
        unfold quadrantsOf at h2
        rw [e1, e2, e3, e4] at h2
        exact h2
      obtain ⟨hw, hh⟩ := quadrantsR_singleton_dims hp hq
      have hμq := (μR_quarter_lt hw hh).2.2.1
      obtain ⟨sw', b2, hadd, hp'⟩ := addF_suff (μR r.swRegion) sw _ fuel p3
        (by unfold μN; rw [e3]) (by omega)
      rw [hadd, addP_spec p3 hadd]
      exact subdivideGo_eq_subAddP fuel k r hk hfuel hp rest ne nw sw' se kept
        e1 e2 ((addF_region fuel sw _ sw' b2 hadd).trans e3) e4 p1 p2 hp' p4
    · have hq : quadrantsR r.neRegion r.nwRegion r.swRegion r.seRegion c = [3] := by
        unfold quadrantsOf at h3
        rw [e1, e2, e3, e4] at h3
        exact h3
      obtain ⟨hw, hh⟩ := quadrantsR_singleton_dims hp hq
      have hμq := (μR_quarter_lt hw hh).2.2.2
      obtain ⟨se', b2, hadd, hp'⟩ := addF_suff (μR r.seRegion) se _ fuel p4
        (by unfold μN; rw [e4]) (by omega)
      rw [hadd, addP_spec p4 hadd]
      exact subdivideGo_eq_subAddP fuel k r hk hfuel hp rest ne nw sw se' kept
        e1 e2 e3 ((addF_region fuel se _ se' b2 hadd).trans e4) p1 p2 p3 hp'
    · exact subdivideGo_eq_subAddP fuel k r hk hfuel hp rest ne nw sw se
        (kept ++ [{ c with multiple := true }]) e1 e2 e3 e4 p1 p2 p3 p4

/-- `addP` on a non-intersecting circle: rejected, unchanged. -/
lemma addP_not_inter {n : QuadNode} {c : Circle}
    (hi : intersectsCircle n.region c = false) : addP n c = (n, false) := by
  cases n with
  | leaf r cs =>
    rw [addP, addF_succ_leaf, if_neg (by simp_all)]
    rfl
  | node r cs ne nw sw se =>
    rw [addP, addF_succ_node, if_neg (by simp_all)]
    rfl

/-- `addP` on a leaf below the threshold: append only. -/
lemma addP_leaf_small {r : Region} {cs : List Circle} {c : Circle}
    (hi : intersectsCircle r c = true) (h4 : (cs ++ [c]).length ≤ 4) :
    addP (.leaf r cs) c = (.leaf r (cs ++ [c]), true) := by
  rw [addP, addF_succ_leaf, if_pos hi, if_neg (by omega)]
  rfl

/-- `addP` on a leaf above the threshold: one subdivision, computed by the
totalized redistribution fold over the appended list. -/
lemma addP_leaf_subdiv {r : Region} {cs : List Circle} {c : Circle}
    (hp : properR r = true) (hi : intersectsCircle r c = true)
    (h4 : 4 < (cs ++ [c]).length) :
    addP (.leaf r cs) c =
      (subAddP r (.leaf r.neRegion []) (.leaf r.nwRegion []) (.leaf r.swRegion [])
        (.leaf r.seRegion []) [] (cs ++ [c]), true) := by
  obtain ⟨q1, q2, q3, q4⟩ := properR_quarter hp
  rw [addP, addF_succ_leaf, if_pos hi, if_pos h4,
    subdivideGo_eq_subAddP (2 * μN (QuadNode.leaf r cs)) (μR r) r le_rfl
      (by unfold μN; simp) hp (cs ++ [c]) (.leaf r.neRegion []) (.leaf r.nwRegion [])
      (.leaf r.swRegion []) (.leaf r.seRegion []) []
      rfl rfl rfl rfl (properN_leaf_iff.mpr q1) (properN_leaf_iff.mpr q2)
      (properN_leaf_iff.mpr q3) (properN_leaf_iff.mpr q4)]
  rfl

/-- `addP` on an internal node when the circle does not fit a single
quadrant: stored locally. -/
lemma addP_node_keep {r : Region} {cs : List Circle} {ne nw sw se : QuadNode}
    {c : Circle} (hi : intersectsCircle r c = true)
    (hlen : (quadrantsOf ne nw sw se c).length ≠ 1) :
    addP (.node r cs ne nw sw se) c = (.node r (cs ++ [c]) ne nw sw se, true) := by
  rw [addP, addF_succ_node, if_pos hi,
    if_neg (fun hq => hlen (by simp [hq])),
    if_neg (fun hq => hlen (by simp [hq])),
    if_neg (fun hq => hlen (by simp [hq])),
    if_neg (fun hq => hlen (by simp [hq]))]
  rfl

/-- `addP` descending into the NE child. -/
lemma addP_node_ne {r : Region} {cs : List Circle} {ne nw sw se : QuadNode}
    {c : Circle} (hp : ProperN (.node r cs ne nw sw se) = true)
    (hi : intersectsCircle r c = true)
    (h0 : quadrantsOf ne nw sw se c = [0]) :
    addP (.node r cs ne nw sw se) c =
      (.node r cs (addP ne c).1 nw sw se, (addP ne c).2) := by
  obtain ⟨hpr, e1, e2, e3, e4, p1, p2, p3, p4⟩ := properN_node_iff.mp hp
  have hq : quadrantsR r.neRegion r.nwRegion r.swRegion r.seRegion c = [0] := by
    unfold quadrantsOf at h0
    rw [e1, e2, e3, e4] at h0
    exact h0
  obtain ⟨hw, hh⟩ := quadrantsR_singleton_dims hpr hq
  have hμq := (μR_quarter_lt hw hh).1
  obtain ⟨ne', b2, hadd, hp'⟩ := addF_suff (μR r.neRegion) ne c
    (2 * μN (QuadNode.node r cs ne nw sw se)) p1
    (by unfold μN; rw [e1]) (by unfold μN; simp only [QuadNode.region_node]; omega)
  rw [addP, addF_succ_node, if_pos hi, if_pos h0, hadd, addP_spec p1 hadd]
  rfl

/-- `addP` descending into the NW child. -/
lemma addP_node_nw {r : Region} {cs : List Circle} {ne nw sw se : QuadNode}
    {c : Circle} (hp : ProperN (.node r cs ne nw sw se) = true)
    (hi : intersectsCircle r c = true)
    (h1 : quadrantsOf ne nw sw se c = [1]) :
    addP (.node r cs ne nw sw se) c =
      (.node r cs ne (addP nw c).1 sw se, (addP nw c).2) := by
  obtain ⟨hpr, e1, e2, e3, e4, p1, p2, p3, p4⟩ := properN_node_iff.mp hp
  have hq : quadrantsR r.neRegion r.nwRegion r.swRegion r.seRegion c = [1] := by
    unfold quadrantsOf at h1
    rw [e1, e2, e3, e4] at h1
    exact h1
  obtain ⟨hw, hh⟩ := quadrantsR_singleton_dims hpr hq
  have hμq := (μR_quarter_lt hw hh).2.1
  obtain ⟨nw', b2, hadd, hp'⟩ := addF_suff (μR r.nwRegion) nw c
    (2 * μN (QuadNode.node r cs ne nw sw se)) p2
    (by unfold μN; rw [e2]) (by unfold μN; simp only [QuadNode.region_node]; omega)
  have hne0 : quadrantsOf ne nw sw se c ≠ [0] := by rw [h1]; simp
  rw [addP, addF_succ_node, if_pos hi, if_neg hne0, if_pos h1, hadd,
    addP_spec p2 hadd]
  rfl

/-- `addP` descending into the SW child. -/
lemma addP_node_sw {r : Region} {cs : List Circle} {ne nw sw se : QuadNode}
    {c : Circle} (hp : ProperN (.node r cs ne nw sw se) = true)
    (hi : intersectsCircle r c = true)
    (h2 : quadrantsOf ne nw sw se c = [2]) :
    addP (.node r cs ne nw sw se) c =
      (.node r cs ne nw (addP sw c).1 se, (addP sw c).2) := by
  obtain ⟨hpr, e1, e2, e3, e4, p1, p2, p3, p4⟩ := properN_node_iff.mp hp
  have hq : quadrantsR r.neRegion r.nwRegion r.swRegion r.seRegion c = [2] := by
    unfold quadrantsOf at h2
    rw [e1, e2, e3, e4] at h2
    exact h2
  obtain ⟨hw, hh⟩ := quadrantsR_singleton_dims hpr hq
  have hμq := (μR_quarter_lt hw hh).2.2.1
  obtain ⟨sw', b2, hadd, hp'⟩ := addF_suff (μR r.swRegion) sw c
    (2 * μN (QuadNode.node r cs ne nw sw se)) p3
    (by unfold μN; rw [e3]) (by unfold μN; simp only [QuadNode.region_node]; omega)
  have hne0 : quadrantsOf ne nw sw se c ≠ [0] := by rw [h2]; simp
  have hne1 : quadrantsOf ne nw sw se c ≠ [1] := by rw [h2]; simp
  rw [addP, addF_succ_node, if_pos hi, if_neg hne0, if_neg hne1, if_pos h2,
    hadd, addP_spec p3 hadd]
  rfl

/-- `addP` descending into the SE child. -/
lemma addP_node_se {r : Region} {cs : List Circle} {ne nw sw se : QuadNode}
    {c : Circle} (hp : ProperN (.node r cs ne nw sw se) = true)
    (hi : intersectsCircle r c = true)
    (h3 : quadrantsOf ne nw sw se c = [3]) :
    addP (.node r cs ne nw sw se) c =
      (.node r cs ne nw sw (addP se c).1, (addP se c).2) := by
  obtain ⟨hpr, e1, e2, e3, e4, p1, p2, p3, p4⟩ := properN_node_iff.mp hp
  have hq : quadrantsR r.neRegion r.nwRegion r.swRegion r.seRegion c = [3] := by
    unfold quadrantsOf at h3
    rw [e1, e2, e3, e4] at h3
    exact h3
  obtain ⟨hw, hh⟩ := quadrantsR_singleton_dims hpr hq
  have hμq := (μR_quarter_lt hw hh).2.2.2
  obtain ⟨se', b2, hadd, hp'⟩ := addF_suff (μR r.seRegion) se c
    (2 * μN (QuadNode.node r cs ne nw sw se)) p4
    (by unfold μN; rw [e4]) (by unfold μN; simp only [QuadNode.region_node]; omega)
  have hne0 : quadrantsOf ne nw sw se c ≠ [0] := by rw [h3]; simp
  have hne1 : quadrantsOf ne nw sw se c ≠ [1] := by rw [h3]; simp
  have hne2 : quadrantsOf ne nw sw se c ≠ [2] := by rw [h3]; simp
  rw [addP, addF_succ_node, if_pos hi, if_neg hne0, if_neg hne1, if_neg hne2,
    if_pos h3, hadd, addP_spec p4 hadd]
  rfl

/-! ### Observational equivalence: basic properties -/

lemma equiv_refl : ∀ n : QuadNode, Equiv n n
  | .leaf _ _ => ⟨rfl, List.Perm.refl _⟩
  | .node _ _ ne nw sw se =>
    ⟨rfl, List.Perm.refl _, equiv_refl ne, equiv_refl nw, equiv_refl sw,
      equiv_refl se⟩

lemma equiv_symm : ∀ {n n' : QuadNode}, Equiv n n' → Equiv n' n
  | .leaf _ _, .leaf _ _, ⟨h1, h2⟩ => ⟨h1.symm, h2.symm⟩
  | .node _ _ _ _ _ _, .node _ _ _ _ _ _, ⟨h1, h2, h3, h4, h5, h6⟩ =>
    ⟨h1.symm, h2.symm, equiv_symm h3, equiv_symm h4, equiv_symm h5, equiv_symm h6⟩
  | .leaf _ _, .node _ _ _ _ _ _, h => False.elim h
  | .node _ _ _ _ _ _, .leaf _ _, h => False.elim h

lemma equiv_trans : ∀ {a b c : QuadNode}, Equiv a b → Equiv b c → Equiv a c
  | .leaf _ _, .leaf _ _, .leaf _ _, ⟨h1, h2⟩, ⟨g1, g2⟩ =>
    ⟨h1.trans g1, h2.trans g2⟩
  | .node _ _ _ _ _ _, .node _ _ _ _ _ _, .node _ _ _ _ _ _,
      ⟨h1, h2, h3, h4, h5, h6⟩, ⟨g1, g2, g3, g4, g5, g6⟩ =>
    ⟨h1.trans g1, h2.trans g2, equiv_trans h3 g3, equiv_trans h4 g4,
      equiv_trans h5 g5, equiv_trans h6 g6⟩
  | .leaf _ _, .node _ _ _ _ _ _, _, h, _ => False.elim h
  | .node _ _ _ _ _ _, .leaf _ _, _, h, _ => False.elim h
  | .leaf _ _, .leaf _ _, .node _ _ _ _ _ _, _, g => False.elim g
  | .node _ _ _ _ _ _, .node _ _ _ _ _ _, .leaf _ _, _, g => False.elim g

lemma equiv_region : ∀ {n n' : QuadNode}, Equiv n n' → n.region = n'.region
  | .leaf _ _, .leaf _ _, ⟨h1, _⟩ => h1
  | .node _ _ _ _ _ _, .node _ _ _ _ _ _, ⟨h1, _, _, _, _, _⟩ => h1
  | .leaf _ _, .node _ _ _ _ _ _, h => False.elim h
  | .node _ _ _ _ _ _, .leaf _ _, h => False.elim h

lemma equiv_properN : ∀ {n n' : QuadNode}, Equiv n n' → ProperN n = ProperN n'
  | .leaf _ _, .leaf _ _, ⟨h1, _⟩ => by
    simp only [ProperN]
    rw [h1]
  | .node _ _ _ _ _ _, .node _ _ _ _ _ _, ⟨h1, _, h3, h4, h5, h6⟩ => by
    simp only [ProperN]
    rw [h1, equiv_region h3, equiv_region h4, equiv_region h5, equiv_region h6,
      equiv_properN h3, equiv_properN h4, equiv_properN h5, equiv_properN h6]
  | .leaf _ _, .node _ _ _ _ _ _, h => False.elim h
  | .node _ _ _ _ _ _, .leaf _ _, h => False.elim h

/-! ### Geometry depends only on a circle's geometric content -/

lemma intersectsCircle_geom {c c' : Circle} (h : c.geom = c'.geom) (R : Region) :
    intersectsCircle R c = intersectsCircle R c' := by
  obtain ⟨x, y, rr, m⟩ := c
  obtain ⟨x', y', rr', m'⟩ := c'
  simp only [Circle.geom, Prod.mk.injEq] at h
  obtain ⟨rfl, rfl, rfl⟩ := h
  rw [show (⟨x, y, rr, m'⟩ : Circle) = { (⟨x, y, rr, m⟩ : Circle) with multiple := m' }
    from rfl, intersectsCircle_flag]

lemma quadrantsR_geom {c c' : Circle} (h : c.geom = c'.geom)
    (a b d e : Region) : quadrantsR a b d e c = quadrantsR a b d e c' := by
  unfold quadrantsR
  rw [intersectsCircle_geom h a, intersectsCircle_geom h b,
    intersectsCircle_geom h d, intersectsCircle_geom h e]

lemma quadrantsOf_geom {c c' : Circle} (h : c.geom = c'.geom)
    (ne nw sw se : QuadNode) :
    quadrantsOf ne nw sw se c = quadrantsOf ne nw sw se c' :=
  quadrantsR_geom h _ _ _ _

lemma quadrantsOf_congr {ne nw sw se ne' nw' sw' se' : QuadNode}
    (h1 : ne'.region = ne.region) (h2 : nw'.region = nw.region)
    (h3 : sw'.region = sw.region) (h4 : se'.region = se.region) (c : Circle) :
    quadrantsOf ne' nw' sw' se' c = quadrantsOf ne nw sw se c := by
  unfold quadrantsOf
  rw [h1, h2, h3, h4]

lemma geom_ext {z z' : Circle} (h : z.geom = z'.geom) (m : Bool) :
    ({ z with multiple := m } : Circle) = { z' with multiple := m } := by
  obtain ⟨x, y, rr, mz⟩ := z
  obtain ⟨x', y', rr', mz'⟩ := z'
  simp only [Circle.geom, Prod.mk.injEq] at h
  simp [h.1, h.2.1, h.2.2]

lemma quadrantsOf_cases (ne nw sw se : QuadNode) (c : Circle) :
    quadrantsOf ne nw sw se c = [0] ∨ quadrantsOf ne nw sw se c = [1] ∨
    quadrantsOf ne nw sw se c = [2] ∨ quadrantsOf ne nw sw se c = [3] ∨
    (quadrantsOf ne nw sw se c).length ≠ 1 := by
  rcases quadrantsR_sixteen ne.region nw.region sw.region se.region c with
    hq | hq | hq | hq | hq | hq | hq | hq | hq | hq | hq | hq | hq | hq | hq | hq <;>
  simp [quadrantsOf, hq]

/-! ### Single-case reduction steps for the totalized redistribution fold -/

lemma subAddP_step0 {r : Region} {ne nw sw se : QuadNode} {kept : List Circle}
    {c : Circle} {rest : List Circle} (h : quadrantsOf ne nw sw se c = [0]) :
    subAddP r ne nw sw se kept (c :: rest) =
      subAddP r (addP ne { c with multiple := false }).1 nw sw se kept rest := by
  rw [subAddP_cons, if_pos h]

lemma subAddP_step1 {r : Region} {ne nw sw se : QuadNode} {kept : List Circle}
    {c : Circle} {rest : List Circle} (h : quadrantsOf ne nw sw se c = [1]) :
    subAddP r ne nw sw se kept (c :: rest) =
      subAddP r ne (addP nw { c with multiple := false }).1 sw se kept rest := by
  rw [subAddP_cons, if_neg (by simp [h]), if_pos h]

lemma subAddP_step2 {r : Region} {ne nw sw se : QuadNode} {kept : List Circle}
    {c : Circle} {rest : List Circle} (h : quadrantsOf ne nw sw se c = [2]) :
    subAddP r ne nw sw se kept (c :: rest) =
      subAddP r ne nw (addP sw { c with multiple := false }).1 se kept rest := by
  rw [subAddP_cons, if_neg (by simp [h]), if_neg (by simp [h]), if_pos h]

lemma subAddP_step3 {r : Region} {ne nw sw se : QuadNode} {kept : List Circle}
    {c : Circle} {rest : List Circle} (h : quadrantsOf ne nw sw se c = [3]) :
    subAddP r ne nw sw se kept (c :: rest) =
      subAddP r ne nw sw (addP se { c with multiple := false }).1 kept rest := by
  rw [subAddP_cons, if_neg (by simp [h]), if_neg (by simp [h]),
    if_neg (by simp [h]), if_pos h]

lemma subAddP_stepK {r : Region} {ne nw sw se : QuadNode} {kept : List Circle}
    {c : Circle} {rest : List Circle}
    (h : (quadrantsOf ne nw sw se c).length ≠ 1) :
    subAddP r ne nw sw se kept (c :: rest) =
      subAddP r ne nw sw se (kept ++ [{ c with multiple := true }]) rest := by
  rw [subAddP_cons, if_neg (fun hh => h (by simp [hh])),
    if_neg (fun hh => h (by simp [hh])), if_neg (fun hh => h (by simp [hh])),
    if_neg (fun hh => h (by simp [hh]))]

/-- The redistribution fold reads its input circles only through their
geometric content. -/
lemma subAddP_geom_eq (r : Region) :
    ∀ (u u' : List Circle), u.map Circle.geom = u'.map Circle.geom →
      ∀ (ne nw sw se : QuadNode) (kept : List Circle),
        subAddP r ne nw sw se kept u = subAddP r ne nw sw se kept u'
  | [], [], _ => fun _ _ _ _ _ => rfl
  | [], _ :: _, h => by simp at h
  | _ :: _, [], h => by simp at h
  | c :: t, c' :: t', h => by
    intro ne nw sw se kept
    simp only [List.map_cons, List.cons.injEq] at h
    obtain ⟨hg, ht⟩ := h
    have hroute := quadrantsOf_geom hg ne nw sw se
    rcases quadrantsOf_cases ne nw sw se c with hc | hc | hc | hc | hc
    · rw [subAddP_step0 hc, subAddP_step0 (hroute.symm.trans hc), geom_ext hg false]
      exact subAddP_geom_eq r t t' ht _ _ _ _ _
    · rw [subAddP_step1 hc, subAddP_step1 (hroute.symm.trans hc), geom_ext hg false]
      exact subAddP_geom_eq r t t' ht _ _ _ _ _
    · rw [subAddP_step2 hc, subAddP_step2 (hroute.symm.trans hc), geom_ext hg false]
      exact subAddP_geom_eq r t t' ht _ _ _ _ _
    · rw [subAddP_step3 hc, subAddP_step3 (hroute.symm.trans hc), geom_ext hg false]
      exact subAddP_geom_eq r t t' ht _ _ _ _ _
    · rw [subAddP_stepK hc, subAddP_stepK (by rw [← hroute]; exact hc),
        geom_ext hg true]
      exact subAddP_geom_eq r t t' ht _ _ _ _ _

/-- A permutation of images factors as a permutation of the sources followed
by a pointwise image equality. -/
lemma perm_map_factor {α β : Type} [DecidableEq α] (f : α → β) :
    ∀ (u' u : List α), (u.map f).Perm (u'.map f) →
      ∃ v, u.Perm v ∧ v.map f = u'.map f
  | [], u, h => by
    have hnil : u.map f = [] := h.eq_nil
    exact ⟨u, List.Perm.refl u, by simp [hnil]⟩
  | y :: t', u, h => by
    have hy : f y ∈ u.map f := h.mem_iff.mpr (by simp)
    obtain ⟨x, hxu, hfx⟩ := List.mem_map.mp hy
    have h1 : u.Perm (x :: u.erase x) := List.perm_cons_erase hxu
    have h2 : (u.map f).Perm (f x :: (u.erase x).map f) := by
      simpa using h1.map f
    have h3 : (f x :: (u.erase x).map f).Perm (f y :: t'.map f) :=
      h2.symm.trans (by simpa using h)
    have h4 : ((u.erase x).map f).Perm (t'.map f) := by
      rw [hfx] at h3
      exact h3.cons_inv
    obtain ⟨w, hw1, hw2⟩ := perm_map_factor f t' (u.erase x) h4
    exact ⟨x :: w, h1.trans (hw1.cons x), by simp [hw2, hfx]⟩

/-- Pointwise congruence of the redistribution fold: the same input list,
folded from equivalent child states and geom-permuted kept lists, gives
equivalent results.  The hypothesis `IH2` supplies `add`-congruence at any
strictly smaller measure. -/
lemma subAddP_congr (K : Nat)
    (IH2 : ∀ (n n' : QuadNode) (c c' : Circle), μN n < K → ProperN n = true →
      ProperN n' = true → Equiv n n' → c.geom = c'.geom →
      Equiv (addP n c).1 (addP n' c').1)
    (r : Region) (hp : properR r = true) (hK : μR r ≤ K) :
    ∀ (u : List Circle) (ne nw sw se ne' nw' sw' se' : QuadNode)
      (kept kept' : List Circle),
      ne.region = r.neRegion → nw.region = r.nwRegion →
      sw.region = r.swRegion → se.region = r.seRegion →
      ProperN ne = true → ProperN nw = true → ProperN sw = true →
      ProperN se = true → ProperN ne' = true → ProperN nw' = true →
      ProperN sw' = true → ProperN se' = true →
      Equiv ne ne' → Equiv nw nw' → Equiv sw sw' → Equiv se se' →
      (kept.map Circle.geom).Perm (kept'.map Circle.geom) →
      Equiv (subAddP r ne nw sw se kept u) (subAddP r ne' nw' sw' se' kept' u)
  | [], ne, nw, sw, se, ne', nw', sw', se', kept, kept' => by
    intro e1 e2 e3 e4 p1 p2 p3 p4 q1 q2 q3 q4 E1 E2 E3 E4 hkept
    exact ⟨rfl, hkept, E1, E2, E3, E4⟩
  | c :: rest, ne, nw, sw, se, ne', nw', sw', se', kept, kept' => by
    intro e1 e2 e3 e4 p1 p2 p3 p4 q1 q2 q3 q4 E1 E2 E3 E4 hkept
    have hroute : quadrantsOf ne' nw' sw' se' c = quadrantsOf ne nw sw se c :=
      quadrantsOf_congr (equiv_region E1).symm (equiv_region E2).symm
        (equiv_region E3).symm (equiv_region E4).symm c
    rcases quadrantsOf_cases ne nw sw se c with hc | hc | hc | hc | hc
    · have hq : quadrantsR r.neRegion r.nwRegion r.swRegion r.seRegion c = [0] := by
        unfold quadrantsOf at hc
        rw [e1, e2, e3, e4] at hc
        exact hc
      obtain ⟨hw, hh⟩ := quadrantsR_singleton_dims hp hq
      have hμq := (μR_quarter_lt hw hh).1
      have hμ : μN ne < K := by
        have he : μN ne = μR r.neRegion := by unfold μN; rw [e1]
        omega
      rw [subAddP_step0 hc, subAddP_step0 (hroute.trans hc)]
      exact subAddP_congr K IH2 r hp hK rest _ _ _ _ _ _ _ _ kept kept'
        ((addP_region _ p1).trans e1) e2 e3 e4
        (addP_proper _ p1) p2 p3 p4 (addP_proper _ q1) q2 q3 q4
        (IH2 ne ne' _ _ hμ p1 q1 E1 rfl) E2 E3 E4 hkept
    · have hq : quadrantsR r.neRegion r.nwRegion r.swRegion r.seRegion c = [1] := by
        unfold quadrantsOf at hc
        rw [e1, e2, e3, e4] at hc
        exact hc
      obtain ⟨hw, hh⟩ := quadrantsR_singleton_dims hp hq
      have hμq := (μR_quarter_lt hw hh).2.1
      have hμ : μN nw < K := by
        have he : μN nw = μR r.nwRegion := by unfold μN; rw [e2]
        omega
      rw [subAddP_step1 hc, subAddP_step1 (hroute.trans hc)]
      exact subAddP_congr K IH2 r hp hK rest _ _ _ _ _ _ _ _ kept kept'
        e1 ((addP_region _ p2).trans e2) e3 e4
        p1 (addP_proper _ p2) p3 p4 q1 (addP_proper _ q2) q3 q4
        E1 (IH2 nw nw' _ _ hμ p2 q2 E2 rfl) E3 E4 hkept
    · have hq : quadrantsR r.neRegion r.nwRegion r.swRegion r.seRegion c = [2] := by
        unfold quadrantsOf at hc
        rw [e1, e2, e3, e4] at hc
        exact hc
      obtain ⟨hw, hh⟩ := quadrantsR_singleton_dims hp hq
      have hμq := (μR_quarter_lt hw hh).2.2.1
      have hμ : μN sw < K := by
        have he : μN sw = μR r.swRegion := by unfold μN; rw [e3]
        omega
      rw [subAddP_step2 hc, subAddP_step2 (hroute.trans hc)]
      exact subAddP_congr K IH2 r hp hK rest _ _ _ _ _ _ _ _ kept kept'
        e1 e2 ((addP_region _ p3).trans e3) e4
        p1 p2 (addP_proper _ p3) p4 q1 q2 (addP_proper _ q3) q4
        E1 E2 (IH2 sw sw' _ _ hμ p3 q3 E3 rfl) E4 hkept
    · have hq : quadrantsR r.neRegion r.nwRegion r.swRegion r.seRegion c = [3] := by
        unfold quadrantsOf at hc
        rw [e1, e2, e3, e4] at hc
        exact hc
      obtain ⟨hw, hh⟩ := quadrantsR_singleton_dims hp hq
      have hμq := (μR_quarter_lt hw hh).2.2.2
      have hμ : μN se < K := by
        have he : μN se = μR r.seRegion := by unfold μN; rw [e4]
        omega
      rw [subAddP_step3 hc, subAddP_step3 (hroute.trans hc)]
      exact subAddP_congr K IH2 r hp hK rest _ _ _ _ _ _ _ _ kept kept'
        e1 e2 e3 ((addP_region _ p4).trans e4)
        p1 p2 p3 (addP_proper _ p4) q1 q2 q3 (addP_proper _ q4)
        E1 E2 E3 (IH2 se se' _ _ hμ p4 q4 E4 rfl) hkept
    · rw [subAddP_stepK hc, subAddP_stepK (by rw [hroute]; exact hc)]
      exact subAddP_congr K IH2 r hp hK rest _ _ _ _ _ _ _ _ _ _
        e1 e2 e3 e4 p1 p2 p3 p4 q1 q2 q3 q4 E1 E2 E3 E4
        (by simp only [List.map_append]
            exact hkept.append (List.Perm.refl _))

/-- Swapping the first two circles of the redistribution fold's input gives
an equivalent result: their routings are independent unless they hit the
same child, where the inherited two-`add` commutation `IH3` applies. -/
lemma subAddP_swap2 (K : Nat)
    (IH2 : ∀ (n n' : QuadNode) (c c' : Circle), μN n < K → ProperN n = true →
      ProperN n' = true → Equiv n n' → c.geom = c'.geom →
      Equiv (addP n c).1 (addP n' c').1)
    (IH3 : ∀ (n : QuadNode) (a b : Circle), μN n < K → ProperN n = true →
      Equiv (addP (addP n a).1 b).1 (addP (addP n b).1 a).1)
    (r : Region) (hp : properR r = true) (hK : μR r ≤ K)
    (x y : Circle) (l : List Circle) (ne nw sw se : QuadNode)
    (kept : List Circle)
    (e1 : ne.region = r.neRegion) (e2 : nw.region = r.nwRegion)
    (e3 : sw.region = r.swRegion) (e4 : se.region = r.seRegion)
    (p1 : ProperN ne = true) (p2 : ProperN nw = true)
    (p3 : ProperN sw = true) (p4 : ProperN se = true) :
    Equiv (subAddP r ne nw sw se kept (y :: x :: l))
      (subAddP r ne nw sw se kept (x :: y :: l)) := by
  rcases quadrantsOf_cases ne nw sw se y with hy | hy | hy | hy | hy
  · rcases quadrantsOf_cases ne nw sw se x with hx | hx | hx | hx | hx
    · rw [subAddP_step0 hy,
        subAddP_step0 (by rw [quadrantsOf_congr (addP_region _ p1) rfl rfl rfl]; exact hx),
        subAddP_step0 hx,
        subAddP_step0 (by rw [quadrantsOf_congr (addP_region _ p1) rfl rfl rfl]; exact hy)]
      have hq : quadrantsR r.neRegion r.nwRegion r.swRegion r.seRegion y = [0] := by
        unfold quadrantsOf at hy
        rw [e1, e2, e3, e4] at hy
        exact hy
      obtain ⟨hw, hh⟩ := quadrantsR_singleton_dims hp hq
      have hμq := (μR_quarter_lt hw hh).1
      have hμ : μN ne < K := by
        have he : μN ne = μR r.neRegion := by unfold μN; rw [e1]
        omega
      exact subAddP_congr K IH2 r hp hK l _ _ _ _ _ _ _ _ kept kept
        ((addP_region _ (addP_proper _ p1)).trans ((addP_region _ p1).trans e1)) e2 e3 e4
        (addP_proper _ (addP_proper _ p1)) p2 p3 p4
        (addP_proper _ (addP_proper _ p1)) p2 p3 p4
        (IH3 ne _ _ hμ p1) (equiv_refl _) (equiv_refl _) (equiv_refl _)
        (List.Perm.refl _)
    · rw [subAddP_step0 hy,
        subAddP_step1 (by rw [quadrantsOf_congr (addP_region _ p1) rfl rfl rfl]; exact hx),
        subAddP_step1 hx,
        subAddP_step0 (by rw [quadrantsOf_congr rfl (addP_region _ p2) rfl rfl]; exact hy)]
      exact equiv_refl _
    · rw [subAddP_step0 hy,
        subAddP_step2 (by rw [quadrantsOf_congr (addP_region _ p1) rfl rfl rfl]; exact hx),
        subAddP_step2 hx,
        subAddP_step0 (by rw [quadrantsOf_congr rfl rfl (addP_region _ p3) rfl]; exact hy)]
      exact equiv_refl _
    · rw [subAddP_step0 hy,
        subAddP_step3 (by rw [quadrantsOf_congr (addP_region _ p1) rfl rfl rfl]; exact hx),
        subAddP_step3 hx,
        subAddP_step0 (by rw [quadrantsOf_congr rfl rfl rfl (addP_region _ p4)]; exact hy)]
      exact equiv_refl _
    · rw [subAddP_step0 hy,
        subAddP_stepK (by rw [quadrantsOf_congr (addP_region _ p1) rfl rfl rfl]; exact hx),
        subAddP_stepK hx,
        subAddP_step0 hy]
      exact equiv_refl _
  · rcases quadrantsOf_cases ne nw sw se x with hx | hx | hx | hx | hx
    · rw [subAddP_step1 hy,
        subAddP_step0 (by rw [quadrantsOf_congr rfl (addP_region _ p2) rfl rfl]; exact hx),
        subAddP_step0 hx,
        subAddP_step1 (by rw [quadrantsOf_congr (addP_region _ p1) rfl rfl rfl]; exact hy)]
      exact equiv_refl _
    · rw [subAddP_step1 hy,
        subAddP_step1 (by rw [quadrantsOf_congr rfl (addP_region _ p2) rfl rfl]; exact hx),
        subAddP_step1 hx,
        subAddP_step1 (by rw [quadrantsOf_congr rfl (addP_region _ p2) rfl rfl]; exact hy)]
      have hq : quadrantsR r.neRegion r.nwRegion r.swRegion r.seRegion y = [1] := by
        unfold quadrantsOf at hy
        rw [e1, e2, e3, e4] at hy
        exact hy
      obtain ⟨hw, hh⟩ := quadrantsR_singleton_dims hp hq
      have hμq := (μR_quarter_lt hw hh).2.1
      have hμ : μN nw < K := by
        have he : μN nw = μR r.nwRegion := by unfold μN; rw [e2]
        omega
      exact subAddP_congr K IH2 r hp hK l _ _ _ _ _ _ _ _ kept kept
        e1 ((addP_region _ (addP_proper _ p2)).trans ((addP_region _ p2).trans e2)) e3 e4
        p1 (addP_proper _ (addP_proper _ p2)) p3 p4
        p1 (addP_proper _ (addP_proper _ p2)) p3 p4
        (equiv_refl _) (IH3 nw _ _ hμ p2) (equiv_refl _) (equiv_refl _)
        (List.Perm.refl _)
    · rw [subAddP_step1 hy,
        subAddP_step2 (by rw [quadrantsOf_congr rfl (addP_region _ p2) rfl rfl]; exact hx),
        subAddP_step2 hx,
        subAddP_step1 (by rw [quadrantsOf_congr rfl rfl (addP_region _ p3) rfl]; exact hy)]
      exact equiv_refl _
    · rw [subAddP_step1 hy,
        subAddP_step3 (by rw [quadrantsOf_congr rfl (addP_region _ p2) rfl rfl]; exact hx),
        subAddP_step3 hx,
        subAddP_step1 (by rw [quadrantsOf_congr rfl rfl rfl (addP_region _ p4)]; exact hy)]
      exact equiv_refl _
    · rw [subAddP_step1 hy,
        subAddP_stepK (by rw [quadrantsOf_congr rfl (addP_region _ p2) rfl rfl]; exact hx),
        subAddP_stepK hx,
        subAddP_step1 hy]
      exact equiv_refl _
  · rcases quadrantsOf_cases ne nw sw se x with hx | hx | hx | hx | hx
    · rw [subAddP_step2 hy,
        subAddP_step0 (by rw [quadrantsOf_congr rfl rfl (addP_region _ p3) rfl]; exact hx),
        subAddP_step0 hx,
        subAddP_step2 (by rw [quadrantsOf_congr (addP_region _ p1) rfl rfl rfl]; exact hy)]
      exact equiv_refl _
    · rw [subAddP_step2 hy,
        subAddP_step1 (by rw [quadrantsOf_congr rfl rfl (addP_region _ p3) rfl]; exact hx),
        subAddP_step1 hx,
        subAddP_step2 (by rw [quadrantsOf_congr rfl (addP_region _ p2) rfl rfl]; exact hy)]
      exact equiv_refl _
    · rw [subAddP_step2 hy,
        subAddP_step2 (by rw [quadrantsOf_congr rfl rfl (addP_region _ p3) rfl]; exact hx),
        subAddP_step2 hx,
        subAddP_step2 (by rw [quadrantsOf_congr rfl rfl (addP_region _ p3) rfl]; exact hy)]
      have hq : quadrantsR r.neRegion r.nwRegion r.swRegion r.seRegion y = [2] := by
        unfold quadrantsOf at hy
        rw [e1, e2, e3, e4] at hy
        exact hy
      obtain ⟨hw, hh⟩ := quadrantsR_singleton_dims hp hq
      have hμq := (μR_quarter_lt hw hh).2.2.1
      have hμ : μN sw < K := by
        have he : μN sw = μR r.swRegion := by unfold μN; rw [e3]
        omega
      exact subAddP_congr K IH2 r hp hK l _ _ _ _ _ _ _ _ kept kept
        e1 e2 ((addP_region _ (addP_proper _ p3)).trans ((addP_region _ p3).trans e3)) e4
        p1 p2 (addP_proper _ (addP_proper _ p3)) p4
        p1 p2 (addP_proper _ (addP_proper _ p3)) p4
        (equiv_refl _) (equiv_refl _) (IH3 sw _ _ hμ p3) (equiv_refl _)
        (List.Perm.refl _)
    · rw [subAddP_step2 hy,
        subAddP_step3 (by rw [quadrantsOf_congr rfl rfl (addP_region _ p3) rfl]; exact hx),
        subAddP_step3 hx,
        subAddP_step2 (by rw [quadrantsOf_congr rfl rfl rfl (addP_region _ p4)]; exact hy)]
      exact equiv_refl _
    · rw [subAddP_step2 hy,
        subAddP_stepK (by rw [quadrantsOf_congr rfl rfl (addP_region _ p3) rfl]; exact hx),
        subAddP_stepK hx,
        subAddP_step2 hy]
      exact equiv_refl _
  · rcases quadrantsOf_cases ne nw sw se x with hx | hx | hx | hx | hx
    · rw [subAddP_step3 hy,
        subAddP_step0 (by rw [quadrantsOf_congr rfl rfl rfl (addP_region _ p4)]; exact hx),
        subAddP_step0 hx,
        subAddP_step3 (by rw [quadrantsOf_congr (addP_region _ p1) rfl rfl rfl]; exact hy)]
      exact equiv_refl _
    · rw [subAddP_step3 hy,
        subAddP_step1 (by rw [quadrantsOf_congr rfl rfl rfl (addP_region _ p4)]; exact hx),
        subAddP_step1 hx,
        subAddP_step3 (by rw [quadrantsOf_congr rfl (addP_region _ p2) rfl rfl]; exact hy)]
      exact equiv_refl _
    · rw [subAddP_step3 hy,
        subAddP_step2 (by rw [quadrantsOf_congr rfl rfl rfl (addP_region _ p4)]; exact hx),
        subAddP_step2 hx,
        subAddP_step3 (by rw [quadrantsOf_congr rfl rfl (addP_region _ p3) rfl]; exact hy)]
      exact equiv_refl _
    · rw [subAddP_step3 hy,
        subAddP_step3 (by rw [quadrantsOf_congr rfl rfl rfl (addP_region _ p4)]; exact hx),
        subAddP_step3 hx,
        subAddP_step3 (by rw [quadrantsOf_congr rfl rfl rfl (addP_region _ p4)]; exact hy)]
      have hq : quadrantsR r.neRegion r.nwRegion r.swRegion r.seRegion y = [3] := by
        unfold quadrantsOf at hy
        rw [e1, e2, e3, e4] at hy
        exact hy
      obtain ⟨hw, hh⟩ := quadrantsR_singleton_dims hp hq
      have hμq := (μR_quarter_lt hw hh).2.2.2
      have hμ : μN se < K := by
        have he : μN se = μR r.seRegion := by unfold μN; rw [e4]
        omega
      exact subAddP_congr K IH2 r hp hK l _ _ _ _ _ _ _ _ kept kept
        e1 e2 e3 ((addP_region _ (addP_proper _ p4)).trans ((addP_region _ p4).trans e4))
        p1 p2 p3 (addP_proper _ (addP_proper _ p4))
        p1 p2 p3 (addP_proper _ (addP_proper _ p4))
        (equiv_refl _) (equiv_refl _) (equiv_refl _) (IH3 se _ _ hμ p4)
        (List.Perm.refl _)
    · rw [subAddP_step3 hy,
        subAddP_stepK (by rw [quadrantsOf_congr rfl rfl rfl (addP_region _ p4)]; exact hx),
        subAddP_stepK hx,
        subAddP_step3 hy]
      exact equiv_refl _
  · rcases quadrantsOf_cases ne nw sw se x with hx | hx | hx | hx | hx
    · rw [subAddP_stepK hy, subAddP_step0 hx, subAddP_step0 hx,
        subAddP_stepK (by rw [quadrantsOf_congr (addP_region _ p1) rfl rfl rfl]; exact hy)]
      exact equiv_refl _
    · rw [subAddP_stepK hy, subAddP_step1 hx, subAddP_step1 hx,
        subAddP_stepK (by rw [quadrantsOf_congr rfl (addP_region _ p2) rfl rfl]; exact hy)]
      exact equiv_refl _
    · rw [subAddP_stepK hy, subAddP_step2 hx, subAddP_step2 hx,
        subAddP_stepK (by rw [quadrantsOf_congr rfl rfl (addP_region _ p3) rfl]; exact hy)]
      exact equiv_refl _
    · rw [subAddP_stepK hy, subAddP_step3 hx, subAddP_step3 hx,
        subAddP_stepK (by rw [quadrantsOf_congr rfl rfl rfl (addP_region _ p4)]; exact hy)]
      exact equiv_refl _
    · rw [subAddP_stepK hy, subAddP_stepK hx, subAddP_stepK hx, subAddP_stepK hy]
      refine subAddP_congr K IH2 r hp hK l ne nw sw se ne nw sw se _ _
        e1 e2 e3 e4 p1 p2 p3 p4 p1 p2 p3 p4
        (equiv_refl _) (equiv_refl _) (equiv_refl _) (equiv_refl _) ?_
      simp only [List.append_assoc, List.singleton_append, List.map_append,
        List.map_cons, List.map_nil]
      exact List.Perm.append_left _ (List.Perm.swap _ _ _)

/-- Permuting the input list of the redistribution fold gives an equivalent
result. -/
lemma subAddP_perm (K : Nat)
    (IH2 : ∀ (n n' : QuadNode) (c c' : Circle), μN n < K → ProperN n = true →
      ProperN n' = true → Equiv n n' → c.geom = c'.geom →
      Equiv (addP n c).1 (addP n' c').1)
    (IH3 : ∀ (n : QuadNode) (a b : Circle), μN n < K → ProperN n = true →
      Equiv (addP (addP n a).1 b).1 (addP (addP n b).1 a).1)
    (r : Region) (hp : properR r = true) (hK : μR r ≤ K)
    {u u' : List Circle} (hperm : u.Perm u') :
    ∀ (ne nw sw se : QuadNode) (kept : List Circle),
      ne.region = r.neRegion → nw.region = r.nwRegion →
      sw.region = r.swRegion → se.region = r.seRegion →
      ProperN ne = true → ProperN nw = true → ProperN sw = true →
      ProperN se = true →
      Equiv (subAddP r ne nw sw se kept u) (subAddP r ne nw sw se kept u') := by
  induction hperm with
  | nil =>
    intro ne nw sw se kept e1 e2 e3 e4 p1 p2 p3 p4
    exact equiv_refl _
  | cons z p IHp =>
    intro ne nw sw se kept e1 e2 e3 e4 p1 p2 p3 p4
    rcases quadrantsOf_cases ne nw sw se z with hz | hz | hz | hz | hz
    · rw [subAddP_step0 hz, subAddP_step0 hz]
      exact IHp _ _ _ _ _ ((addP_region _ p1).trans e1) e2 e3 e4
        (addP_proper _ p1) p2 p3 p4
    · rw [subAddP_step1 hz, subAddP_step1 hz]
      exact IHp _ _ _ _ _ e1 ((addP_region _ p2).trans e2) e3 e4
        p1 (addP_proper _ p2) p3 p4
    · rw [subAddP_step2 hz, subAddP_step2 hz]
      exact IHp _ _ _ _ _ e1 e2 ((addP_region _ p3).trans e3) e4
        p1 p2 (addP_proper _ p3) p4
    · rw [subAddP_step3 hz, subAddP_step3 hz]
      exact IHp _ _ _ _ _ e1 e2 e3 ((addP_region _ p4).trans e4)
        p1 p2 p3 (addP_proper _ p4)
    · rw [subAddP_stepK hz, subAddP_stepK hz]
      exact IHp _ _ _ _ _ e1 e2 e3 e4 p1 p2 p3 p4
  | swap a b l =>
    intro ne nw sw se kept e1 e2 e3 e4 p1 p2 p3 p4
    exact subAddP_swap2 K IH2 IH3 r hp hK a b l ne nw sw se kept
      e1 e2 e3 e4 p1 p2 p3 p4
  | trans pl ql IH1 IH2t =>
    intro ne nw sw se kept e1 e2 e3 e4 p1 p2 p3 p4
    exact equiv_trans (IH1 ne nw sw se kept e1 e2 e3 e4 p1 p2 p3 p4)
      (IH2t ne nw sw se kept e1 e2 e3 e4 p1 p2 p3 p4)

/-- Combined congruence for the redistribution fold: geom-permuted inputs,
equivalent child states, geom-permuted kept circles. -/
lemma subAddP_equiv (K : Nat)
    (IH2 : ∀ (n n' : QuadNode) (c c' : Circle), μN n < K → ProperN n = true →
      ProperN n' = true → Equiv n n' → c.geom = c'.geom →
      Equiv (addP n c).1 (addP n' c').1)
    (IH3 : ∀ (n : QuadNode) (a b : Circle), μN n < K → ProperN n = true →
      Equiv (addP (addP n a).1 b).1 (addP (addP n b).1 a).1)
    (r : Region) (hp : properR r = true) (hK : μR r ≤ K)
    {u u' : List Circle}
    (hperm : (u.map Circle.geom).Perm (u'.map Circle.geom))
    (ne nw sw se ne' nw' sw' se' : QuadNode) (kept kept' : List Circle)
    (e1 : ne.region = r.neRegion) (e2 : nw.region = r.nwRegion)
    (e3 : sw.region = r.swRegion) (e4 : se.region = r.seRegion)
    (p1 : ProperN ne = true) (p2 : ProperN nw = true)
    (p3 : ProperN sw = true) (p4 : ProperN se = true)
    (q1 : ProperN ne' = true) (q2 : ProperN nw' = true)
    (q3 : ProperN sw' = true) (q4 : ProperN se' = true)
    (E1 : Equiv ne ne') (E2 : Equiv nw nw') (E3 : Equiv sw sw')
    (E4 : Equiv se se')
    (hkept : (kept.map Circle.geom).Perm (kept'.map Circle.geom)) :
    Equiv (subAddP r ne nw sw se kept u) (subAddP r ne' nw' sw' se' kept' u') := by
  obtain ⟨v, hv, hvm⟩ := perm_map_factor Circle.geom u' u hperm
  have h1 := subAddP_perm K IH2 IH3 r hp hK hv ne nw sw se kept
    e1 e2 e3 e4 p1 p2 p3 p4
  have h2 : subAddP r ne' nw' sw' se' kept' v = subAddP r ne' nw' sw' se' kept' u' :=
    subAddP_geom_eq r v u' hvm ne' nw' sw' se' kept'
  have h3 := subAddP_congr K IH2 r hp hK v ne nw sw se ne' nw' sw' se' kept kept'
    e1 e2 e3 e4 p1 p2 p3 p4 q1 q2 q3 q4 E1 E2 E3 E4 hkept
  exact equiv_trans h1 (h2 ▸ h3)

/-- Adding a circle to the node produced by the redistribution fold is
equivalent to appending that circle to the fold's input list. -/
lemma subAddP_snoc_equiv (K : Nat)
    (IH2 : ∀ (n n' : QuadNode) (c c' : Circle), μN n < K → ProperN n = true →
      ProperN n' = true → Equiv n n' → c.geom = c'.geom →
      Equiv (addP n c).1 (addP n' c').1)
    (r : Region) (hp : properR r = true) (hK : μR r ≤ K)
    (z : Circle) (hz : intersectsCircle r z = true) :
    ∀ (u : List Circle) (ne nw sw se : QuadNode) (kept : List Circle),
      ne.region = r.neRegion → nw.region = r.nwRegion →
      sw.region = r.swRegion → se.region = r.seRegion →
      ProperN ne = true → ProperN nw = true → ProperN sw = true →
      ProperN se = true →
      Equiv (addP (subAddP r ne nw sw se kept u) z).1
        (subAddP r ne nw sw se kept (u ++ [z]))
  | [], ne, nw, sw, se, kept => by
    intro e1 e2 e3 e4 p1 p2 p3 p4
    have hpn : ProperN (.node r kept ne nw sw se) = true :=
      properN_node_iff.mpr ⟨hp, e1, e2, e3, e4, p1, p2, p3, p4⟩
    have hred : subAddP r ne nw sw se kept [] = .node r kept ne nw sw se := rfl
    rw [List.nil_append, hred]
    rcases quadrantsOf_cases ne nw sw se z with hq0 | hq0 | hq0 | hq0 | hq0
    · have hq : quadrantsR r.neRegion r.nwRegion r.swRegion r.seRegion z = [0] := by
        unfold quadrantsOf at hq0
        rw [e1, e2, e3, e4] at hq0
        exact hq0
      obtain ⟨hw, hh⟩ := quadrantsR_singleton_dims hp hq
      have hμq := (μR_quarter_lt hw hh).1
      have hμ : μN ne < K := by
        have he : μN ne = μR r.neRegion := by unfold μN; rw [e1]
        omega
      rw [addP_node_ne hpn hz hq0, subAddP_step0 hq0]
      exact ⟨rfl, List.Perm.refl _, IH2 ne ne z _ hμ p1 p1 (equiv_refl ne) rfl,
        equiv_refl _, equiv_refl _, equiv_refl _⟩
    · have hq : quadrantsR r.neRegion r.nwRegion r.swRegion r.seRegion z = [1] := by
        unfold quadrantsOf at hq0
        rw [e1, e2, e3, e4] at hq0
        exact hq0
      obtain ⟨hw, hh⟩ := quadrantsR_singleton_dims hp hq
      have hμq := (μR_quarter_lt hw hh).2.1
      have hμ : μN nw < K := by
        have he : μN nw = μR r.nwRegion := by unfold μN; rw [e2]
        omega
      rw [addP_node_nw hpn hz hq0, subAddP_step1 hq0]
      exact ⟨rfl, List.Perm.refl _, equiv_refl _,
        IH2 nw nw z _ hμ p2 p2 (equiv_refl nw) rfl, equiv_refl _, equiv_refl _⟩
    · have hq : quadrantsR r.neRegion r.nwRegion r.swRegion r.seRegion z = [2] := by
        unfold quadrantsOf at hq0
        rw [e1, e2, e3, e4] at hq0
        exact hq0
      obtain ⟨hw, hh⟩ := quadrantsR_singleton_dims hp hq
      have hμq := (μR_quarter_lt hw hh).2.2.1
      have hμ : μN sw < K := by
        have he : μN sw = μR r.swRegion := by unfold μN; rw [e3]
        omega
      rw [addP_node_sw hpn hz hq0, subAddP_step2 hq0]
      exact ⟨rfl, List.Perm.refl _, equiv_refl _, equiv_refl _,
        IH2 sw sw z _ hμ p3 p3 (equiv_refl sw) rfl, equiv_refl _⟩
    · have hq : quadrantsR r.neRegion r.nwRegion r.swRegion r.seRegion z = [3] := by
        unfold quadrantsOf at hq0
        rw [e1, e2, e3, e4] at hq0
        exact hq0
      obtain ⟨hw, hh⟩ := quadrantsR_singleton_dims hp hq
      have hμq := (μR_quarter_lt hw hh).2.2.2
      have hμ : μN se < K := by
        have he : μN se = μR r.seRegion := by unfold μN; rw [e4]
        omega
      rw [addP_node_se hpn hz hq0, subAddP_step3 hq0]
      exact ⟨rfl, List.Perm.refl _, equiv_refl _, equiv_refl _, equiv_refl _,
        IH2 se se z _ hμ p4 p4 (equiv_refl se) rfl⟩
    · rw [addP_node_keep hz hq0, subAddP_stepK hq0]
      exact ⟨rfl, by simp [Circle.geom], equiv_refl _, equiv_refl _, equiv_refl _,
        equiv_refl _⟩
  | w :: rest, ne, nw, sw, se, kept => by
    intro e1 e2 e3 e4 p1 p2 p3 p4
    rw [List.cons_append]
    rcases quadrantsOf_cases ne nw sw se w with hw | hw | hw | hw | hw
    · rw [subAddP_step0 hw, subAddP_step0 hw]
      exact subAddP_snoc_equiv K IH2 r hp hK z hz rest _ _ _ _ kept
        ((addP_region _ p1).trans e1) e2 e3 e4 (addP_proper _ p1) p2 p3 p4
    · rw [subAddP_step1 hw, subAddP_step1 hw]
      exact subAddP_snoc_equiv K IH2 r hp hK z hz rest _ _ _ _ kept
        e1 ((addP_region _ p2).trans e2) e3 e4 p1 (addP_proper _ p2) p3 p4
    · rw [subAddP_step2 hw, subAddP_step2 hw]
      exact subAddP_snoc_equiv K IH2 r hp hK z hz rest _ _ _ _ kept
        e1 e2 ((addP_region _ p3).trans e3) e4 p1 p2 (addP_proper _ p3) p4
    · rw [subAddP_step3 hw, subAddP_step3 hw]
      exact subAddP_snoc_equiv K IH2 r hp hK z hz rest _ _ _ _ kept
        e1 e2 e3 ((addP_region _ p4).trans e4) p1 p2 p3 (addP_proper _ p4)
    · rw [subAddP_stepK hw, subAddP_stepK hw]
      exact subAddP_snoc_equiv K IH2 r hp hK z hz rest ne nw sw se _
        e1 e2 e3 e4 p1 p2 p3 p4

/-- Main congruence/commutation package, by strong induction on the measure:
(1) `add` applied to equivalent proper nodes with geom-equal circles gives
equivalent nodes; (2) two successive `add`s on a proper node commute up to
equivalence. -/
theorem addP_comm_equiv : ∀ K : Nat,
    (∀ (n n' : QuadNode) (c c' : Circle), μN n ≤ K → ProperN n = true →
      ProperN n' = true → Equiv n n' → c.geom = c'.geom →
      Equiv (addP n c).1 (addP n' c').1) ∧
    (∀ (n : QuadNode) (a b : Circle), μN n ≤ K → ProperN n = true →
      Equiv (addP (addP n a).1 b).1 (addP (addP n b).1 a).1) := by
  intro K
  induction K using Nat.strong_induction_on with
  | _ K IH =>
  have IH2 : ∀ (n n' : QuadNode) (c c' : Circle), μN n < K → ProperN n = true →
      ProperN n' = true → Equiv n n' → c.geom = c'.geom →
      Equiv (addP n c).1 (addP n' c').1 :=
    fun n n' c c' hμ => (IH (μN n) hμ).1 n n' c c' le_rfl
  have IH3 : ∀ (n : QuadNode) (a b : Circle), μN n < K → ProperN n = true →
      Equiv (addP (addP n a).1 b).1 (addP (addP n b).1 a).1 :=
    fun n a b hμ => (IH (μN n) hμ).2 n a b le_rfl
  constructor
  · intro n n' c c' hμ hp hp' hE hg
    cases n with
    | leaf r cs =>
      cases n' with
      | node r2 cs2 ne2 nw2 sw2 se2 => exact False.elim hE
      | leaf r2 cs2 =>
        obtain ⟨hr, hperm⟩ := hE
        subst hr
        have hpr : properR r = true := properN_leaf_iff.mp hp
        have hK : μR r ≤ K := by unfold μN at hμ; simpa using hμ
        have hlen : cs.length = cs2.length := by
          have hl := hperm.length_eq
          simpa using hl
        by_cases hi : intersectsCircle r c = true
        · have hi2 : intersectsCircle r c' = true :=
            (intersectsCircle_geom hg r).symm.trans hi
          by_cases h4 : (cs ++ [c]).length ≤ 4
          · rw [addP_leaf_small hi h4,
              addP_leaf_small hi2 (by simp only [List.length_append,
                List.length_cons, List.length_nil] at h4 ⊢; omega)]
            refine ⟨rfl, ?_⟩
            simp only [List.map_append, List.map_cons, List.map_nil]
            exact hperm.append (by rw [hg])
          · push_neg at h4
            obtain ⟨q1, q2, q3, q4⟩ := properR_quarter hpr
            rw [addP_leaf_subdiv hpr hi h4,
              addP_leaf_subdiv hpr hi2 (by simp only [List.length_append,
                List.length_cons, List.length_nil] at h4 ⊢; omega)]
            refine subAddP_equiv K IH2 IH3 r hpr hK ?_
              (.leaf r.neRegion []) (.leaf r.nwRegion []) (.leaf r.swRegion [])
              (.leaf r.seRegion []) (.leaf r.neRegion []) (.leaf r.nwRegion [])
              (.leaf r.swRegion []) (.leaf r.seRegion []) [] []
              rfl rfl rfl rfl
              (properN_leaf_iff.mpr q1) (properN_leaf_iff.mpr q2)
              (properN_leaf_iff.mpr q3) (properN_leaf_iff.mpr q4)
              (properN_leaf_iff.mpr q1) (properN_leaf_iff.mpr q2)
              (properN_leaf_iff.mpr q3) (properN_leaf_iff.mpr q4)
              (equiv_refl _) (equiv_refl _) (equiv_refl _) (equiv_refl _)
              (List.Perm.refl _)
            simp only [List.map_append, List.map_cons, List.map_nil]
            exact hperm.append (by rw [hg])
        · have hi' : intersectsCircle r c = false := by simpa using hi
          have hi2 : intersectsCircle r c' = false :=
            (intersectsCircle_geom hg r).symm.trans hi'
          have hA : addP (QuadNode.leaf r cs) c = (QuadNode.leaf r cs, false) :=
            addP_not_inter (by simpa using hi')
          have hB : addP (QuadNode.leaf r cs2) c' = (QuadNode.leaf r cs2, false) :=
            addP_not_inter (by simpa using hi2)
          rw [hA, hB]
          exact ⟨rfl, hperm⟩
    | node r cs ne nw sw se =>
      cases n' with
      | leaf r2 cs2 => exact False.elim hE
      | node r2 cs2 ne2 nw2 sw2 se2 =>
        obtain ⟨hr, hperm, hE1, hE2, hE3, hE4⟩ := hE
        subst hr
        obtain ⟨hpr, e1, e2, e3, e4, p1, p2, p3, p4⟩ := properN_node_iff.mp hp
        obtain ⟨hpr2, f1, f2, f3, f4, q1, q2, q3, q4⟩ := properN_node_iff.mp hp'
        have hK : μR r ≤ K := by unfold μN at hμ; simpa using hμ
        by_cases hi : intersectsCircle r c = true
        · have hi2 : intersectsCircle r c' = true :=
            (intersectsCircle_geom hg r).symm.trans hi
          have hroute : quadrantsOf ne2 nw2 sw2 se2 c' = quadrantsOf ne nw sw se c := by
            rw [← quadrantsOf_geom hg]
            exact quadrantsOf_congr (equiv_region hE1).symm (equiv_region hE2).symm
              (equiv_region hE3).symm (equiv_region hE4).symm c
          rcases quadrantsOf_cases ne nw sw se c with hq0 | hq0 | hq0 | hq0 | hq0
          · have hq : quadrantsR r.neRegion r.nwRegion r.swRegion r.seRegion c = [0] := by
              unfold quadrantsOf at hq0
              rw [e1, e2, e3, e4] at hq0
              exact hq0
            obtain ⟨hw, hh⟩ := quadrantsR_singleton_dims hpr hq
            have hμq := (μR_quarter_lt hw hh).1
            have hμc : μN ne < K := by
              have he : μN ne = μR r.neRegion := by unfold μN; rw [e1]
              omega
            rw [addP_node_ne hp hi hq0, addP_node_ne hp' hi2 (hroute.trans hq0)]
            exact ⟨rfl, hperm, IH2 ne ne2 c c' hμc p1 q1 hE1 hg, hE2, hE3, hE4⟩
          · have hq : quadrantsR r.neRegion r.nwRegion r.swRegion r.seRegion c = [1] := by
              unfold quadrantsOf at hq0
              rw [e1, e2, e3, e4] at hq0
              exact hq0
            obtain ⟨hw, hh⟩ := quadrantsR_singleton_dims hpr hq
            have hμq := (μR_quarter_lt hw hh).2.1
            have hμc : μN nw < K := by
              have he : μN nw = μR r.nwRegion := by unfold μN; rw [e2]
              omega
            rw [addP_node_nw hp hi hq0, addP_node_nw hp' hi2 (hroute.trans hq0)]
            exact ⟨rfl, hperm, hE1, IH2 nw nw2 c c' hμc p2 q2 hE2 hg, hE3, hE4⟩
          · have hq : quadrantsR r.neRegion r.nwRegion r.swRegion r.seRegion c = [2] := by
              unfold quadrantsOf at hq0
              rw [e1, e2, e3, e4] at hq0
              exact hq0
            obtain ⟨hw, hh⟩ := quadrantsR_singleton_dims hpr hq
            have hμq := (μR_quarter_lt hw hh).2.2.1
            have hμc : μN sw < K := by
              have he : μN sw = μR r.swRegion := by unfold μN; rw [e3]
              omega
            rw [addP_node_sw hp hi hq0, addP_node_sw hp' hi2 (hroute.trans hq0)]
            exact ⟨rfl, hperm, hE1, hE2, IH2 sw sw2 c c' hμc p3 q3 hE3 hg, hE4⟩
          · have hq : quadrantsR r.neRegion r.nwRegion r.swRegion r.seRegion c = [3] := by
              unfold quadrantsOf at hq0
              rw [e1, e2, e3, e4] at hq0
              exact hq0
            obtain ⟨hw, hh⟩ := quadrantsR_singleton_dims hpr hq
            have hμq := (μR_quarter_lt hw hh).2.2.2
            have hμc : μN se < K := by
              have he : μN se = μR r.seRegion := by unfold μN; rw [e4]
              omega
            rw [addP_node_se hp hi hq0, addP_node_se hp' hi2 (hroute.trans hq0)]
            exact ⟨rfl, hperm, hE1, hE2, hE3, IH2 se se2 c c' hμc p4 q4 hE4 hg⟩
          · rw [addP_node_keep hi hq0,
              addP_node_keep hi2 (by rw [hroute]; exact hq0)]
            refine ⟨rfl, ?_, hE1, hE2, hE3, hE4⟩
            simp only [List.map_append, List.map_cons, List.map_nil]
            exact hperm.append (by rw [hg])
        · have hi' : intersectsCircle r c = false := by simpa using hi
          have hi2 : intersectsCircle r c' = false :=
            (intersectsCircle_geom hg r).symm.trans hi'
          have hA : addP (QuadNode.node r cs ne nw sw se) c =
              (QuadNode.node r cs ne nw sw se, false) :=
            addP_not_inter (by simpa using hi')
          have hB : addP (QuadNode.node r cs2 ne2 nw2 sw2 se2) c' =
              (QuadNode.node r cs2 ne2 nw2 sw2 se2, false) :=
            addP_not_inter (by simpa using hi2)
          rw [hA, hB]
          exact ⟨rfl, hperm, hE1, hE2, hE3, hE4⟩
  · intro n a b hμ hp
    cases n with
    | leaf r cs =>
      have hpr : properR r = true := properN_leaf_iff.mp hp
      have hK : μR r ≤ K := by unfold μN at hμ; simpa using hμ
      by_cases ha : intersectsCircle r a = true
      · by_cases hb : intersectsCircle r b = true
        · by_cases h4a : (cs ++ [a]).length ≤ 4
          · have h4b : (cs ++ [b]).length ≤ 4 := by
              simp only [List.length_append, List.length_cons, List.length_nil]
                at h4a ⊢
              omega
            rw [addP_leaf_small ha h4a, addP_leaf_small hb h4b]
            by_cases h5 : ((cs ++ [a]) ++ [b]).length ≤ 4
            · rw [addP_leaf_small hb h5,
                addP_leaf_small ha (by simp only [List.length_append,
                  List.length_cons, List.length_nil] at h5 ⊢; omega)]
              refine ⟨rfl, ?_⟩
              simp only [List.append_assoc, List.singleton_append,
                List.map_append, List.map_cons, List.map_nil]
              exact List.Perm.append_left _ (List.Perm.swap _ _ _)
            · push_neg at h5
              obtain ⟨q1, q2, q3, q4⟩ := properR_quarter hpr
              rw [addP_leaf_subdiv hpr hb h5,
                addP_leaf_subdiv hpr ha (by simp only [List.length_append,
                  List.length_cons, List.length_nil] at h5 ⊢; omega)]
              exact subAddP_perm K IH2 IH3 r hpr hK
                (by simp only [List.append_assoc, List.singleton_append]
                    exact List.Perm.append_left _ (List.Perm.swap _ _ _))
                (.leaf r.neRegion []) (.leaf r.nwRegion []) (.leaf r.swRegion [])
                (.leaf r.seRegion []) [] rfl rfl rfl rfl
                (properN_leaf_iff.mpr q1) (properN_leaf_iff.mpr q2)
                (properN_leaf_iff.mpr q3) (properN_leaf_iff.mpr q4)
          · push_neg at h4a
            have h4b : 4 < (cs ++ [b]).length := by
              simp only [List.length_append, List.length_cons, List.length_nil]
                at h4a ⊢
              omega
            obtain ⟨q1, q2, q3, q4⟩ := properR_quarter hpr
            rw [addP_leaf_subdiv hpr ha h4a, addP_leaf_subdiv hpr hb h4b]
            have SB1 := subAddP_snoc_equiv K IH2 r hpr hK b hb (cs ++ [a])
              (.leaf r.neRegion []) (.leaf r.nwRegion []) (.leaf r.swRegion [])
              (.leaf r.seRegion []) [] rfl rfl rfl rfl
              (properN_leaf_iff.mpr q1) (properN_leaf_iff.mpr q2)
              (properN_leaf_iff.mpr q3) (properN_leaf_iff.mpr q4)
            have SB2 := subAddP_snoc_equiv K IH2 r hpr hK a ha (cs ++ [b])
              (.leaf r.neRegion []) (.leaf r.nwRegion []) (.leaf r.swRegion [])
              (.leaf r.seRegion []) [] rfl rfl rfl rfl
              (properN_leaf_iff.mpr q1) (properN_leaf_iff.mpr q2)
              (properN_leaf_iff.mpr q3) (properN_leaf_iff.mpr q4)
            have hmid := subAddP_perm K IH2 IH3 r hpr hK
              (show ((cs ++ [a]) ++ [b]).Perm ((cs ++ [b]) ++ [a]) by
                simp only [List.append_assoc, List.singleton_append]
                exact List.Perm.append_left _ (List.Perm.swap _ _ _))
              (.leaf r.neRegion []) (.leaf r.nwRegion []) (.leaf r.swRegion [])
              (.leaf r.seRegion []) [] rfl rfl rfl rfl
              (properN_leaf_iff.mpr q1) (properN_leaf_iff.mpr q2)
              (properN_leaf_iff.mpr q3) (properN_leaf_iff.mpr q4)
            exact equiv_trans SB1 (equiv_trans hmid (equiv_symm SB2))
        · have hb' : intersectsCircle r b = false := by simpa using hb
          have hreg : (addP (QuadNode.leaf r cs) a).1.region = r := addP_region _ hp
          have hA : addP (addP (QuadNode.leaf r cs) a).1 b =
              ((addP (QuadNode.leaf r cs) a).1, false) :=
            addP_not_inter (by rw [hreg]; exact hb')
          have hB : addP (QuadNode.leaf r cs) b = (QuadNode.leaf r cs, false) :=
            addP_not_inter (by simpa using hb')
          rw [hA, hB]
          exact equiv_refl _
      · have ha' : intersectsCircle r a = false := by simpa using ha
        by_cases hb : intersectsCircle r b = true
        · have hreg : (addP (QuadNode.leaf r cs) b).1.region = r := addP_region _ hp
          have hA : addP (QuadNode.leaf r cs) a = (QuadNode.leaf r cs, false) :=
            addP_not_inter (by simpa using ha')
          have hB : addP (addP (QuadNode.leaf r cs) b).1 a =
              ((addP (QuadNode.leaf r cs) b).1, false) :=
            addP_not_inter (by rw [hreg]; exact ha')
          rw [hA, hB]
          exact equiv_refl _
        · have hb' : intersectsCircle r b = false := by simpa using hb
          have hA : addP (QuadNode.leaf r cs) a = (QuadNode.leaf r cs, false) :=
            addP_not_inter (by simpa using ha')
          have hB : addP (QuadNode.leaf r cs) b = (QuadNode.leaf r cs, false) :=
            addP_not_inter (by simpa using hb')
          rw [hA, hB, hA]
          exact ⟨rfl, List.Perm.refl _⟩
    | node r cs ne nw sw se =>
      obtain ⟨hpr, e1, e2, e3, e4, p1, p2, p3, p4⟩ := properN_node_iff.mp hp
      have hK : μR r ≤ K := by unfold μN at hμ; simpa using hμ
      by_cases ha : intersectsCircle r a = true
      · by_cases hb : intersectsCircle r b = true
        · rcases quadrantsOf_cases ne nw sw se a with hqa | hqa | hqa | hqa | hqa
          · have hq : quadrantsR r.neRegion r.nwRegion r.swRegion r.seRegion a = [0] := by
              unfold quadrantsOf at hqa
              rw [e1, e2, e3, e4] at hqa
              exact hqa
            obtain ⟨hw, hh⟩ := quadrantsR_singleton_dims hpr hq
            have hμq := (μR_quarter_lt hw hh).1
            have hμc : μN ne < K := by
              have he : μN ne = μR r.neRegion := by unfold μN; rw [e1]
              omega
            have hp1 : ProperN (QuadNode.node r cs (addP ne a).1 nw sw se) = true :=
              properN_node_iff.mpr ⟨hpr, (addP_region _ p1).trans e1, e2, e3, e4,
                addP_proper _ p1, p2, p3, p4⟩
            rw [addP_node_ne hp ha hqa]
            rcases quadrantsOf_cases ne nw sw se b with hqb | hqb | hqb | hqb | hqb
            · have hp1b : ProperN (QuadNode.node r cs (addP ne b).1 nw sw se) = true :=
                properN_node_iff.mpr ⟨hpr, (addP_region _ p1).trans e1, e2, e3, e4,
                  addP_proper _ p1, p2, p3, p4⟩
              rw [addP_node_ne hp1 hb
                  (by rw [quadrantsOf_congr (addP_region _ p1) rfl rfl rfl]; exact hqb),
                addP_node_ne hp hb hqb,
                addP_node_ne hp1b ha
                  (by rw [quadrantsOf_congr (addP_region _ p1) rfl rfl rfl]; exact hqa)]
              exact ⟨rfl, List.Perm.refl _, IH3 ne a b hμc p1, equiv_refl _,
                equiv_refl _, equiv_refl _⟩
            · rw [addP_node_nw hp1 hb
                  (by rw [quadrantsOf_congr (addP_region _ p1) rfl rfl rfl]; exact hqb),
                addP_node_nw hp hb hqb,
                addP_node_ne (properN_node_iff.mpr ⟨hpr, e1,
                    (addP_region _ p2).trans e2, e3, e4, p1, addP_proper _ p2, p3, p4⟩)
                  ha
                  (by rw [quadrantsOf_congr rfl (addP_region _ p2) rfl rfl]; exact hqa)]
              exact equiv_refl _
            · rw [addP_node_sw hp1 hb
                  (by rw [quadrantsOf_congr (addP_region _ p1) rfl rfl rfl]; exact hqb),
                addP_node_sw hp hb hqb,
                addP_node_ne (properN_node_iff.mpr ⟨hpr, e1, e2,
                    (addP_region _ p3).trans e3, e4, p1, p2, addP_proper _ p3, p4⟩)
                  ha
                  (by rw [quadrantsOf_congr rfl rfl (addP_region _ p3) rfl]; exact hqa)]
              exact equiv_refl _
            · rw [addP_node_se hp1 hb
                  (by rw [quadrantsOf_congr (addP_region _ p1) rfl rfl rfl]; exact hqb),
                addP_node_se hp hb hqb,
                addP_node_ne (properN_node_iff.mpr ⟨hpr, e1, e2, e3,
                    (addP_region _ p4).trans e4, p1, p2, p3, addP_proper _ p4⟩)
                  ha
                  (by rw [quadrantsOf_congr rfl rfl rfl (addP_region _ p4)]; exact hqa)]
              exact equiv_refl _
            · rw [addP_node_keep hb
                  (by rw [quadrantsOf_congr (addP_region _ p1) rfl rfl rfl]; exact hqb),
                addP_node_keep hb hqb,
                addP_node_ne (properN_node_iff.mpr ⟨hpr, e1, e2, e3, e4,
                    p1, p2, p3, p4⟩) ha hqa]
              exact equiv_refl _
          · have hq : quadrantsR r.neRegion r.nwRegion r.swRegion r.seRegion a = [1] := by
              unfold quadrantsOf at hqa
              rw [e1, e2, e3, e4] at hqa
              exact hqa
            obtain ⟨hw, hh⟩ := quadrantsR_singleton_dims hpr hq
            have hμq := (μR_quarter_lt hw hh).2.1
            have hμc : μN nw < K := by
              have he : μN nw = μR r.nwRegion := by unfold μN; rw [e2]
              omega
            have hp1 : ProperN (QuadNode.node r cs ne (addP nw a).1 sw se) = true :=
              properN_node_iff.mpr ⟨hpr, e1, (addP_region _ p2).trans e2, e3, e4,
                p1, addP_proper _ p2, p3, p4⟩
            rw [addP_node_nw hp ha hqa]
            rcases quadrantsOf_cases ne nw sw se b with hqb | hqb | hqb | hqb | hqb
            · rw [addP_node_ne hp1 hb
                  (by rw [quadrantsOf_congr rfl (addP_region _ p2) rfl rfl]; exact hqb),
                addP_node_ne hp hb hqb,
                addP_node_nw (properN_node_iff.mpr ⟨hpr,
                    (addP_region _ p1).trans e1, e2, e3, e4,
                    addP_proper _ p1, p2, p3, p4⟩) ha
                  (by rw [quadrantsOf_congr (addP_region _ p1) rfl rfl rfl]; exact hqa)]
              exact equiv_refl _
            · have hp1b : ProperN (QuadNode.node r cs ne (addP nw b).1 sw se) = true :=
                properN_node_iff.mpr ⟨hpr, e1, (addP_region _ p2).trans e2, e3, e4,
                  p1, addP_proper _ p2, p3, p4⟩
              rw [addP_node_nw hp1 hb
                  (by rw [quadrantsOf_congr rfl (addP_region _ p2) rfl rfl]; exact hqb),
                addP_node_nw hp hb hqb,
                addP_node_nw hp1b ha
                  (by rw [quadrantsOf_congr rfl (addP_region _ p2) rfl rfl]; exact hqa)]
              exact ⟨rfl, List.Perm.refl _, equiv_refl _, IH3 nw a b hμc p2,
                equiv_refl _, equiv_refl _⟩
            · rw [addP_node_sw hp1 hb
                  (by rw [quadrantsOf_congr rfl (addP_region _ p2) rfl rfl]; exact hqb),
                addP_node_sw hp hb hqb,
                addP_node_nw (properN_node_iff.mpr ⟨hpr, e1, e2,
                    (addP_region _ p3).trans e3, e4, p1, p2, addP_proper _ p3, p4⟩)
                  ha
                  (by rw [quadrantsOf_congr rfl rfl (addP_region _ p3) rfl]; exact hqa)]
              exact equiv_refl _
            · rw [addP_node_se hp1 hb
                  (by rw [quadrantsOf_congr rfl (addP_region _ p2) rfl rfl]; exact hqb),
                addP_node_se hp hb hqb,
                addP_node_nw (properN_node_iff.mpr ⟨hpr, e1, e2, e3,
                    (addP_region _ p4).trans e4, p1, p2, p3, addP_proper _ p4⟩)
                  ha
                  (by rw [quadrantsOf_congr rfl rfl rfl (addP_region _ p4)]; exact hqa)]
              exact equiv_refl _
            · rw [addP_node_keep hb
                  (by rw [quadrantsOf_congr rfl (addP_region _ p2) rfl rfl]; exact hqb),
                addP_node_keep hb hqb,
                addP_node_nw (properN_node_iff.mpr ⟨hpr, e1, e2, e3, e4,
                    p1, p2, p3, p4⟩) ha hqa]
              exact equiv_refl _
          · have hq : quadrantsR r.neRegion r.nwRegion r.swRegion r.seRegion a = [2] := by
              unfold quadrantsOf at hqa
              rw [e1, e2, e3, e4] at hqa
              exact hqa
            obtain ⟨hw, hh⟩ := quadrantsR_singleton_dims hpr hq
            have hμq := (μR_quarter_lt hw hh).2.2.1
            have hμc : μN sw < K := by
              have he : μN sw = μR r.swRegion := by unfold μN; rw [e3]
              omega
            have hp1 : ProperN (QuadNode.node r cs ne nw (addP sw a).1 se) = true :=
              properN_node_iff.mpr ⟨hpr, e1, e2, (addP_region _ p3).trans e3, e4,
                p1, p2, addP_proper _ p3, p4⟩
            rw [addP_node_sw hp ha hqa]
            rcases quadrantsOf_cases ne nw sw se b with hqb | hqb | hqb | hqb | hqb
            · rw [addP_node_ne hp1 hb
                  (by rw [quadrantsOf_congr rfl rfl (addP_region _ p3) rfl]; exact hqb),
                addP_node_ne hp hb hqb,
                addP_node_sw (properN_node_iff.mpr ⟨hpr,
                    (addP_region _ p1).trans e1, e2, e3, e4,
                    addP_proper _ p1, p2, p3, p4⟩) ha
                  (by rw [quadrantsOf_congr (addP_region _ p1) rfl rfl rfl]; exact hqa)]
              exact equiv_refl _
            · rw [addP_node_nw hp1 hb
                  (by rw [quadrantsOf_congr rfl rfl (addP_region _ p3) rfl]; exact hqb),
                addP_node_nw hp hb hqb,
                addP_node_sw (properN_node_iff.mpr ⟨hpr, e1,
                    (addP_region _ p2).trans e2, e3, e4,
                    p1, addP_proper _ p2, p3, p4⟩) ha
                  (by rw [quadrantsOf_congr rfl (addP_region _ p2) rfl rfl]; exact hqa)]
              exact equiv_refl _
            · have hp1b : ProperN (QuadNode.node r cs ne nw (addP sw b).1 se) = true :=
                properN_node_iff.mpr ⟨hpr, e1, e2, (addP_region _ p3).trans e3, e4,
                  p1, p2, addP_proper _ p3, p4⟩
              rw [addP_node_sw hp1 hb
                  (by rw [quadrantsOf_congr rfl rfl (addP_region _ p3) rfl]; exact hqb),
                addP_node_sw hp hb hqb,
                addP_node_sw hp1b ha
                  (by rw [quadrantsOf_congr rfl rfl (addP_region _ p3) rfl]; exact hqa)]
              exact ⟨rfl, List.Perm.refl _, equiv_refl _, equiv_refl _,
                IH3 sw a b hμc p3, equiv_refl _⟩
            · rw [addP_node_se hp1 hb
                  (by rw [quadrantsOf_congr rfl rfl (addP_region _ p3) rfl]; exact hqb),
                addP_node_se hp hb hqb,
                addP_node_sw (properN_node_iff.mpr ⟨hpr, e1, e2, e3,
                    (addP_region _ p4).trans e4, p1, p2, p3, addP_proper _ p4⟩)
                  ha
                  (by rw [quadrantsOf_congr rfl rfl rfl (addP_region _ p4)]; exact hqa)]
              exact equiv_refl _
            · rw [addP_node_keep hb
                  (by rw [quadrantsOf_congr rfl rfl (addP_region _ p3) rfl]; exact hqb),
                addP_node_keep hb hqb,
                addP_node_sw (properN_node_iff.mpr ⟨hpr, e1, e2, e3, e4,
                    p1, p2, p3, p4⟩) ha hqa]
              exact equiv_refl _
          · have hq : quadrantsR r.neRegion r.nwRegion r.swRegion r.seRegion a = [3] := by
              unfold quadrantsOf at hqa
              rw [e1, e2, e3, e4] at hqa
              exact hqa
            obtain ⟨hw, hh⟩ := quadrantsR_singleton_dims hpr hq
            have hμq := (μR_quarter_lt hw hh).2.2.2
            have hμc : μN se < K := by
              have he : μN se = μR r.seRegion := by unfold μN; rw [e4]
              omega
            have hp1 : ProperN (QuadNode.node r cs ne nw sw (addP se a).1) = true :=
              properN_node_iff.mpr ⟨hpr, e1, e2, e3, (addP_region _ p4).trans e4,
                p1, p2, p3, addP_proper _ p4⟩
            rw [addP_node_se hp ha hqa]
            rcases quadrantsOf_cases ne nw sw se b with hqb | hqb | hqb | hqb | hqb
            · rw [addP_node_ne hp1 hb
                  (by rw [quadrantsOf_congr rfl rfl rfl (addP_region _ p4)]; exact hqb),
                addP_node_ne hp hb hqb,
                addP_node_se (properN_node_iff.mpr ⟨hpr,
                    (addP_region _ p1).trans e1, e2, e3, e4,
                    addP_proper _ p1, p2, p3, p4⟩) ha
                  (by rw [quadrantsOf_congr (addP_region _ p1) rfl rfl rfl]; exact hqa)]
              exact equiv_refl _
            · rw [addP_node_nw hp1 hb
                  (by rw [quadrantsOf_congr rfl rfl rfl (addP_region _ p4)]; exact hqb),
                addP_node_nw hp hb hqb,
                addP_node_se (properN_node_iff.mpr ⟨hpr, e1,
                    (addP_region _ p2).trans e2, e3, e4,
                    p1, addP_proper _ p2, p3, p4⟩) ha
                  (by rw [quadrantsOf_congr rfl (addP_region _ p2) rfl rfl]; exact hqa)]
              exact equiv_refl _
            · rw [addP_node_sw hp1 hb
                  (by rw [quadrantsOf_congr rfl rfl rfl (addP_region _ p4)]; exact hqb),
                addP_node_sw hp hb hqb,
                addP_node_se (properN_node_iff.mpr ⟨hpr, e1, e2,
                    (addP_region _ p3).trans e3, e4,
                    p1, p2, addP_proper _ p3, p4⟩) ha
                  (by rw [quadrantsOf_congr rfl rfl (addP_region _ p3) rfl]; exact hqa)]
              exact equiv_refl _
            · have hp1b : ProperN (QuadNode.node r cs ne nw sw (addP se b).1) = true :=
                properN_node_iff.mpr ⟨hpr, e1, e2, e3, (addP_region _ p4).trans e4,
                  p1, p2, p3, addP_proper _ p4⟩
              rw [addP_node_se hp1 hb
                  (by rw [quadrantsOf_congr rfl rfl rfl (addP_region _ p4)]; exact hqb),
                addP_node_se hp hb hqb,
                addP_node_se hp1b ha
                  (by rw [quadrantsOf_congr rfl rfl rfl (addP_region _ p4)]; exact hqa)]
              exact ⟨rfl, List.Perm.refl _, equiv_refl _, equiv_refl _,
                equiv_refl _, IH3 se a b hμc p4⟩
            · rw [addP_node_keep hb
                  (by rw [quadrantsOf_congr rfl rfl rfl (addP_region _ p4)]; exact hqb),
                addP_node_keep hb hqb,
                addP_node_se (properN_node_iff.mpr ⟨hpr, e1, e2, e3, e4,
                    p1, p2, p3, p4⟩) ha hqa]
              exact equiv_refl _
          · rw [addP_node_keep ha hqa]
            rcases quadrantsOf_cases ne nw sw se b with hqb | hqb | hqb | hqb | hqb
            · rw [addP_node_ne (properN_node_iff.mpr ⟨hpr, e1, e2, e3, e4,
                    p1, p2, p3, p4⟩) hb hqb,
                addP_node_ne hp hb hqb,
                addP_node_keep ha
                  (by rw [quadrantsOf_congr (addP_region _ p1) rfl rfl rfl]; exact hqa)]
              exact equiv_refl _
            · rw [addP_node_nw (properN_node_iff.mpr ⟨hpr, e1, e2, e3, e4,
                    p1, p2, p3, p4⟩) hb hqb,
                addP_node_nw hp hb hqb,
                addP_node_keep ha
                  (by rw [quadrantsOf_congr rfl (addP_region _ p2) rfl rfl]; exact hqa)]
              exact equiv_refl _
            · rw [addP_node_sw (properN_node_iff.mpr ⟨hpr, e1, e2, e3, e4,
                    p1, p2, p3, p4⟩) hb hqb,
                addP_node_sw hp hb hqb,
                addP_node_keep ha
                  (by rw [quadrantsOf_congr rfl rfl (addP_region _ p3) rfl]; exact hqa)]
              exact equiv_refl _
            · rw [addP_node_se (properN_node_iff.mpr ⟨hpr, e1, e2, e3, e4,
                    p1, p2, p3, p4⟩) hb hqb,
                addP_node_se hp hb hqb,
                addP_node_keep ha
                  (by rw [quadrantsOf_congr rfl rfl rfl (addP_region _ p4)]; exact hqa)]
              exact equiv_refl _
            · rw [addP_node_keep hb hqb, addP_node_keep hb hqb,
                addP_node_keep ha hqa]
              refine ⟨rfl, ?_, equiv_refl _, equiv_refl _, equiv_refl _,
                equiv_refl _⟩
              simp only [List.append_assoc, List.singleton_append,
                List.map_append, List.map_cons, List.map_nil]
              exact List.Perm.append_left _ (List.Perm.swap _ _ _)
        · have hb' : intersectsCircle r b = false := by simpa using hb
          have hreg : (addP (QuadNode.node r cs ne nw sw se) a).1.region = r :=
            addP_region _ hp
          have hA : addP (addP (QuadNode.node r cs ne nw sw se) a).1 b =
              ((addP (QuadNode.node r cs ne nw sw se) a).1, false) :=
            addP_not_inter (by rw [hreg]; exact hb')
          have hB : addP (QuadNode.node r cs ne nw sw se) b =
              (QuadNode.node r cs ne nw sw se, false) :=
            addP_not_inter (by simpa using hb')
          rw [hA, hB]
          exact equiv_refl _
      · have ha' : intersectsCircle r a = false := by simpa using ha
        by_cases hb : intersectsCircle r b = true
        · have hreg : (addP (QuadNode.node r cs ne nw sw se) b).1.region = r :=
            addP_region _ hp
          have hA : addP (QuadNode.node r cs ne nw sw se) a =
              (QuadNode.node r cs ne nw sw se, false) :=
            addP_not_inter (by simpa using ha')
          have hB : addP (addP (QuadNode.node r cs ne nw sw se) b).1 a =
              ((addP (QuadNode.node r cs ne nw sw se) b).1, false) :=
            addP_not_inter (by rw [hreg]; exact ha')
          rw [hA, hB]
          exact equiv_refl _
        · have hb' : intersectsCircle r b = false := by simpa using hb
          have hA : addP (QuadNode.node r cs ne nw sw se) a =
              (QuadNode.node r cs ne nw sw se, false) :=
            addP_not_inter (by simpa using ha')
          have hB : addP (QuadNode.node r cs ne nw sw se) b =
              (QuadNode.node r cs ne nw sw se, false) :=
            addP_not_inter (by simpa using hb')
          rw [hA, hB, hA]
          exact equiv_refl _

/-- `add`-congruence: equivalent proper nodes, geom-equal circles. -/
lemma addP_equiv {n n' : QuadNode} {c c' : Circle} (hp : ProperN n = true)
    (hp' : ProperN n' = true) (hE : Equiv n n') (hg : c.geom = c'.geom) :
    Equiv (addP n c).1 (addP n' c').1 :=
  (addP_comm_equiv (μN n)).1 n n' c c' le_rfl hp hp' hE hg

/-- Two successive `add`s on a proper node commute up to equivalence. -/
lemma addP_swap {n : QuadNode} (a b : Circle) (hp : ProperN n = true) :
    Equiv (addP (addP n a).1 b).1 (addP (addP n b).1 a).1 :=
  (addP_comm_equiv (μN n)).2 n a b le_rfl hp

lemma addAllP_proper : ∀ (l : List Circle) {n : QuadNode}, ProperN n = true →
    ProperN (addAllP n l) = true
  | [], _, hp => hp
  | c :: t, _, hp => addAllP_proper t (addP_proper c hp)

lemma addAllP_congr : ∀ (l : List Circle) {n n' : QuadNode}, ProperN n = true →
    ProperN n' = true → Equiv n n' → Equiv (addAllP n l) (addAllP n' l)
  | [], _, _, _, _, hE => hE
  | c :: t, _, _, hp, hp', hE =>
    addAllP_congr t (addP_proper c hp) (addP_proper c hp')
      (addP_equiv hp hp' hE rfl)

lemma addAllP_perm {l l' : List Circle} (hperm : l.Perm l') :
    ∀ {n : QuadNode}, ProperN n = true →
      Equiv (addAllP n l) (addAllP n l') := by
  induction hperm with
  | nil =>
    intro n hp
    exact equiv_refl _
  | cons z p IHp =>
    intro n hp
    exact IHp (addP_proper z hp)
  | swap a b l1 =>
    intro n hp
    exact addAllP_congr l1 (addP_proper _ (addP_proper _ hp))
      (addP_proper _ (addP_proper _ hp)) (addP_swap b a hp)
  | trans p1 p2 IH1 IH2 =>
    intro n hp
    exact equiv_trans (IH1 hp) (IH2 hp)

/-- The default collision test factors through the geometric content. -/
lemma defaultCollision_factor (q : Circle) :
    (fun s => defaultCollision s q) =
      (fun g : Int × Int × Int =>
        decide ((g.1 - q.x) ^ 2 + (g.2.1 - q.y) ^ 2 ≤ (g.2.2 + q.r) ^ 2)) ∘
        Circle.geom := by
  funext s
  rfl

lemma filter_geom_perm {cs cs' : List Circle} (q : Circle)
    (h : (cs.map Circle.geom).Perm (cs'.map Circle.geom)) :
    ((cs.filter (fun s => defaultCollision s q)).map Circle.geom).Perm
      ((cs'.filter (fun s => defaultCollision s q)).map Circle.geom) := by
  rw [defaultCollision_factor q, ← List.filter_map, ← List.filter_map]
  exact h.filter _

/-- `collide` on equivalent nodes yields the same multiset of geometric
circles. -/
lemma collide_equiv (q : Circle) : ∀ {n n' : QuadNode}, Equiv n n' →
    ((collideList defaultCollision n q).map Circle.geom).Perm
      ((collideList defaultCollision n' q).map Circle.geom)
  | .leaf r cs, .leaf r2 cs2, hE => by
    obtain ⟨hr, hperm⟩ := hE
    subst hr
    by_cases hi : intersectsCircle r q = true
    · simp only [collideList, hi, if_true]
      exact filter_geom_perm q hperm
    · simp [collideList, hi]
  | .node r cs ne nw sw se, .node r2 cs2 ne2 nw2 sw2 se2, hE => by
    obtain ⟨hr, hperm, hE1, hE2, hE3, hE4⟩ := hE
    subst hr
    by_cases hi : intersectsCircle r q = true
    · simp only [collideList, hi, if_true, List.map_append]
      refine List.Perm.append (List.Perm.append (List.Perm.append (List.Perm.append
        (filter_geom_perm q hperm) ?_) ?_) ?_) ?_
      · rw [← equiv_region hE1]
        by_cases hg : intersectsCircle ne.region q = true
        · rw [if_pos hg, if_pos hg]
          exact collide_equiv q hE1
        · rw [if_neg hg, if_neg hg]
      · rw [← equiv_region hE2]
        by_cases hg : intersectsCircle nw.region q = true
        · rw [if_pos hg, if_pos hg]
          exact collide_equiv q hE2
        · rw [if_neg hg, if_neg hg]
      · rw [← equiv_region hE3]
        by_cases hg : intersectsCircle sw.region q = true
        · rw [if_pos hg, if_pos hg]
          exact collide_equiv q hE3
        · rw [if_neg hg, if_neg hg]
      · rw [← equiv_region hE4]
        by_cases hg : intersectsCircle se.region q = true
        · rw [if_pos hg, if_pos hg]
          exact collide_equiv q hE4
        · rw [if_neg hg, if_neg hg]
    · simp [collideList, hi]
  | .leaf _ _, .node _ _ _ _ _ _, hE => False.elim hE
  | .node _ _ _ _ _ _, .leaf _ _, hE => False.elim hE

/-- Repeated tree insertion with a present root updates the root in place. -/
lemma treeAddAllP_some (R : Region) : ∀ (l : List Circle) (rt : QuadNode),
    treeAddAllP ⟨R, some rt⟩ l = ⟨R, some (addAllP rt l)⟩
  | [], _ => rfl
  | c :: t, rt => treeAddAllP_some R t (addP rt c).1

/-- Collision query after repeated insertion into a fresh tree equals the
node-level query on the fold started from an empty leaf over the canonical
region (the lazily created root behaves like an empty leaf). -/
lemma treeCollide_init (r0 : Region) (l : List Circle) (q : Circle) :
    treeCollide (treeAddAllP (QuadTree.init r0) l) q =
      collideList defaultCollision
        (addAllP (.leaf (QuadTree.init r0).region []) l) q := by
  cases l with
  | nil =>
    have hempty : ∀ (R : Region), collideList defaultCollision (.leaf R []) q = [] := by
      intro R
      by_cases hI : intersectsCircle R q = true <;> simp [collideList, hI]
    show treeCollide (QuadTree.init r0) q =
      collideList defaultCollision (.leaf (QuadTree.init r0).region []) q
    rw [hempty]
    rfl
  | cons c t =>
    show treeCollide (treeAddAllP (⟨(QuadTree.init r0).region,
        some (addP (.leaf (QuadTree.init r0).region []) c).1⟩ : QuadTree) t) q =
      collideList defaultCollision
        (addAllP (addP (.leaf (QuadTree.init r0).region []) c).1 t) q
    rw [treeAddAllP_some]
    rfl

/-- `smaller2k` never exceeds its argument. -/
lemma smaller2k_le (n : Int) : smaller2k n ≤ n := by
  unfold smaller2k
  split_ifs with h0 hneg
  · omega
  · have h1 : (((-n).toNat : Int)) = -n := Int.toNat_of_nonneg (by omega)
    have h2 : (-n).toNat ≤ 2 ^ Nat.clog 2 (-n).toNat :=
      Nat.le_pow_clog (by norm_num) _
    have h3 : (((-n).toNat : Int)) ≤ (2 : Int) ^ Nat.clog 2 (-n).toNat := by
      exact_mod_cast h2
    omega
  · have h2 : 2 ^ Nat.log 2 n.toNat ≤ n.toNat :=
      Nat.pow_log_le_self 2 (by omega)
    have h3 : (2 : Int) ^ Nat.log 2 n.toNat ≤ ((n.toNat : Int)) := by
      exact_mod_cast h2
    have h1 : ((n.toNat : Int)) = n := Int.toNat_of_nonneg (by omega)
    omega

/-- `larger2k` is at least its argument. -/
lemma le_larger2k (n : Int) : n ≤ larger2k n := by
  unfold larger2k
  split_ifs with h0 hneg
  · omega
  · have h2 : 2 ^ Nat.log 2 (-n).toNat ≤ (-n).toNat :=
      Nat.pow_log_le_self 2 (by omega)
    have h3 : (2 : Int) ^ Nat.log 2 (-n).toNat ≤ (((-n).toNat : Int)) := by
      exact_mod_cast h2
    have h1 : (((-n).toNat : Int)) = -n := Int.toNat_of_nonneg (by omega)
    omega
  · have h2 : n.toNat ≤ 2 ^ Nat.clog 2 n.toNat :=
      Nat.le_pow_clog (by norm_num) _
    have h3 : ((n.toNat : Int)) ≤ (2 : Int) ^ Nat.clog 2 n.toNat := by
      exact_mod_cast h2
    have h1 : ((n.toNat : Int)) = n := Int.toNat_of_nonneg (by omega)
    omega

/-- For an input region with non-negative extents, the canonical region is
proper. -/
lemma init_properR (r0 : Region) (hx : r0.x_min ≤ r0.x_max)
    (hy : r0.y_min ≤ r0.y_max) :
    properR (QuadTree.init r0).region = true := by
  have h1 := smaller2k_le r0.x_min
  have h2 := smaller2k_le r0.y_min
  have h3 := le_larger2k r0.x_max
  have h4 := le_larger2k r0.y_max
  simp only [QuadTree.init, properR, Bool.and_eq_true, decide_eq_true_eq]
  constructor <;> omega

/-- C9: for every input region with non-negative extents, inserting a finite
multiset of circles into a freshly constructed tree in any order and then
querying `collide(Q)` under the default strategy yields the same set of
resulting circles (as geometric circles, ignoring yield order and the
internal `MULTIPLE` bookkeeping flag rewritten by `subdivide`), even though
different insertion orders may produce different internal tree shapes.  The
conclusion is stated as a permutation of the yielded geometric contents,
which is multiset (hence set) equality of the results. -/
theorem collide_insertion_order_independent (r0 : Region)
    (hx : r0.x_min ≤ r0.x_max) (hy : r0.y_min ≤ r0.y_max)
    (l l' : List Circle) (hperm : l.Perm l') (q : Circle) :
    ((treeCollide (treeAddAllP (QuadTree.init r0) l) q).map Circle.geom).Perm
      ((treeCollide (treeAddAllP (QuadTree.init r0) l') q).map Circle.geom) := by
  rw [treeCollide_init, treeCollide_init]
  have hp0 : ProperN (QuadNode.leaf (QuadTree.init r0).region []) = true :=
    properN_leaf_iff.mpr (init_properR r0 hx hy)
  exact collide_equiv q (addAllP_perm hperm hp0)

/-- Witness for C9 at a concrete input: the region (0,0,100,100), the two
example circles inserted in both orders, and the first circle as query. -/
theorem collide_insertion_order_independent_witness :
    (⟨0, 0, 100, 100⟩ : Region).x_min ≤ (⟨0, 0, 100, 100⟩ : Region).x_max ∧
    (⟨0, 0, 100, 100⟩ : Region).y_min ≤ (⟨0, 0, 100, 100⟩ : Region).y_max ∧
    ([egCircle1, egCircle2] : List Circle).Perm [egCircle2, egCircle1] ∧
    ((treeCollide (treeAddAllP (QuadTree.init ⟨0, 0, 100, 100⟩)
        [egCircle1, egCircle2]) egCircle1).map Circle.geom).Perm
      ((treeCollide (treeAddAllP (QuadTree.init ⟨0, 0, 100, 100⟩)
        [egCircle2, egCircle1]) egCircle1).map Circle.geom) :=
  ⟨by decide, by decide, by decide,
    collide_insertion_order_independent ⟨0, 0, 100, 100⟩ (by decide) (by decide)
      [egCircle1, egCircle2] [egCircle2, egCircle1] (by decide) egCircle1⟩

end Quad
